import Mathlib

/-!
Verification of the bnum fixed-width integer / software-float engine.

The Rust sources are shallowly embedded: a `BUint` with `N` digits of
`db` bits each is a little-endian `List ℕ` of length `N` whose entries
are `< 2^db`; machine arithmetic is `Nat` arithmetic with explicit
`% 2^db`.  Fallible operations return `Option`/`Except`; operations that
can hit a Rust panic (assertion failure, division by zero, overflowing
shift amount, out-of-bounds index) return a `PRes` value whose `halt`
constructor marks the panic.
-/

namespace Bnum

/-- Outcome of a Rust computation that may panic: `halt` models a panic
(`assert!` failure, `panic!`, overflowing shift, index out of bounds),
`ret` a normal return. -/
inductive PRes (α : Type) where
  | halt : PRes α
  | ret : α → PRes α
  deriving DecidableEq, Repr

/-- `core::num::IntErrorKind`, restricted to the variants the crate uses. -/
inductive IntErrorKind where
  | Empty : IntErrorKind
  | InvalidDigit : IntErrorKind
  | PosOverflow : IntErrorKind
  deriving DecidableEq, Repr

/-- Decidable equality for `Except`, needed to evaluate parse results. -/
instance instDecEqExcept {e a : Type} [DecidableEq e] [DecidableEq a] :
    DecidableEq (Except e a) := fun x y =>
  match x, y with
  | .ok v, .ok w =>
    if h : v = w then isTrue (by rw [h]) else isFalse (by intro hc; cases hc; exact h rfl)
  | .error v, .error w =>
    if h : v = w then isTrue (by rw [h]) else isFalse (by intro hc; cases hc; exact h rfl)
  | .ok _, .error _ => isFalse (by intro hc; cases hc)
  | .error _, .ok _ => isFalse (by intro hc; cases hc)

/-! ### Digit primitives

Modelled from the spec: the `digit` module is not under `src/`.  Spec §4.1:
`carrying_add(a, b, carry_in) -> (sum, carry_out)` and
`carrying_mul(a, b, acc, carry_in) -> (low, high)` use the full
double-width multiply/add semantics of the native width (no truncation
before the carry is captured). -/

/-- Modelled from the spec: `Digit::carrying_add` (spec §4.1). -/
def carrying_add (db a b : ℕ) (c : Bool) : ℕ × Bool :=
  ((a + b + c.toNat) % 2 ^ db, 2 ^ db ≤ a + b + c.toNat)

/-- Modelled from the spec: `Digit::carrying_mul` (spec §4.1): full
double-width multiply-accumulate, returning `(low, high)`. -/
def carrying_mul (db a b acc carry : ℕ) : ℕ × ℕ :=
  ((a * b + acc + carry) % 2 ^ db, (a * b + acc + carry) / 2 ^ db)

/-! ### BUint representation -/

/-- The value of a little-endian digit list: `Σ digits[i] · (2^db)^i`
(spec §3). -/
def val (db : ℕ) (l : List ℕ) : ℕ := Nat.ofDigits (2 ^ db) l

/-- A well-formed `BUint<N>` digit array: exactly `N` digits, each below
`2^db` (spec §3). -/
def Valid (db N : ℕ) (l : List ℕ) : Prop :=
  l.length = N ∧ ∀ d ∈ l, d < 2 ^ db

instance (db N : ℕ) (l : List ℕ) : Decidable (Valid db N l) := by
  unfold Valid; infer_instance

/-- The canonical `N`-digit little-endian representation of
`n % 2^(db·N)`. -/
def ofNat (db N n : ℕ) : List ℕ :=
  (List.range N).map fun i => n / 2 ^ (db * i) % 2 ^ db

/-- `BUint::ZERO`: all digits zero (spec §3). -/
def zeroU (N : ℕ) : List ℕ := List.replicate N 0

/-! ### `Add<Digit> for BUint` (src/buint/ops.rs, lines 5-23)

```rust
fn add(self, rhs: Digit) -> Self {
    let mut out = Self::ZERO;
    let result = self.digits[0].carrying_add(rhs, false);
    out.digits[0] = result.0;
    let mut carry = result.1;
    let mut i = 1;
    while i < N {
        let result = self.digits[0].carrying_add(0, carry);
        out.digits[i] = result.0;
        carry = result.1;
        i += 1;
    }
    out
}
```
Note the loop body reads `self.digits[0]`, not `self.digits[i]`. -/

/-- The `while i < N` carry loop of `Add<Digit>`: each iteration computes
`self.digits[0].carrying_add(0, carry)` (faithfully including the `[0]`
index used by the source). `d0` is `self.digits[0]`; returns the digits at
indices `1..N` in order. -/
def addDigitLoop (db d0 : ℕ) : ℕ → Bool → List ℕ
  | 0, _ => []
  | n + 1, carry =>
    let result := carrying_add db d0 0 carry
    result.1 :: addDigitLoop db d0 n result.2

/-- `<BUint<N> as Add<Digit>>::add` (src/buint/ops.rs:5-23). -/
def addDigit (db N : ℕ) (a : List ℕ) (rhs : ℕ) : List ℕ :=
  match N with
  | 0 => []
  | n + 1 =>
    let result := carrying_add db (a.getD 0 0) rhs false
    result.1 :: addDigitLoop db (a.getD 0 0) n result.2

/-! ### Comparison and `clamp` for BUint (src/buint/cmp.rs) -/

/-- The `while i > 0 { i -= 1; ... }` loop of `Ord::cmp for BUint`
(src/buint/cmp.rs:36-54): compares `digits[i]` downwards from `i = N-1`;
first differing digit decides. -/
def cmpU (a b : List ℕ) : ℕ → Ordering
  | 0 => .eq
  | i + 1 =>
    if a.getD i 0 > b.getD i 0 then .gt
    else if a.getD i 0 < b.getD i 0 then .lt
    else cmpU a b i

/-- `Ord::cmp for BUint<N>` (src/buint/cmp.rs:36-54). -/
def BUint.cmp (N : ℕ) (a b : List ℕ) : Ordering := cmpU a b N

/-- `PartialOrd::le` for BUint, via `partial_cmp = Some(cmp)`
(src/buint/cmp.rs:27-33). -/
def BUint.le (N : ℕ) (a b : List ℕ) : Bool := BUint.cmp N a b ≠ .gt

/-- `Ord::clamp for BUint<N>` (src/buint/cmp.rs:72-82): `assert!(min <= max)`
(a panic when it fails), then select `min`/`max`/`self` by `cmp`. -/
def BUint.clamp (N : ℕ) (a mn mx : List ℕ) : PRes (List ℕ) :=
  if BUint.le N mn mx then
    .ret (if BUint.cmp N a mn = .lt then mn
          else if BUint.cmp N a mx = .gt then mx
          else a)
  else .halt

/-! ### Division and remainder (src/buint/ops.rs, lines 70-77 and 112-119)

`Div for BUint` is `self.wrapping_div(rhs)` and `Rem for BUint` is
`self.wrapping_rem(rhs)`.  The bodies of `wrapping_div`/`wrapping_rem` are
not under `src/`. -/

/-- Modelled from the spec: `BUint::wrapping_div` (body not under `src/`).
Spec §4.2/§7: division by zero is fatal (a panic, see the `div_zero!`
macro in src/errors/macros.rs); otherwise the quotient satisfies
`a = q*b + r`, `0 ≤ r < b`, rounding toward zero, so the unsigned quotient
is `val a / val b` and always fits in `N` digits. -/
def wrapping_div (db N : ℕ) (a b : List ℕ) : PRes (List ℕ) :=
  if val db b = 0 then .halt else .ret (ofNat db N (val db a / val db b))

/-- Modelled from the spec: `BUint::wrapping_rem` (body not under `src/`).
Spec §4.2/§7: remainder by zero is fatal (the `rem_zero!` macro panics);
otherwise the remainder is `val a % val b < val b`, which fits. -/
def wrapping_rem (db N : ℕ) (a b : List ℕ) : PRes (List ℕ) :=
  if val db b = 0 then .halt else .ret (ofNat db N (val db a % val db b))

/-- `<BUint<N> as Div>::div` (src/buint/ops.rs:70-77): delegates to
`wrapping_div`. -/
def BUint.div (db N : ℕ) (a b : List ℕ) : PRes (List ℕ) := wrapping_div db N a b

/-- `<BUint<N> as Rem>::rem` (src/buint/ops.rs:112-119): delegates to
`wrapping_rem`. -/
def BUint.rem (db N : ℕ) (a b : List ℕ) : PRes (List ℕ) := wrapping_rem db N a b

/-! ### `num_traits` surface (src/int/numtraits.rs) -/

/-- `<$Int<N> as num_traits::NumCast>::from` (src/int/numtraits.rs:220-226):
the body is unconditionally
`panic!(...“num_traits::NumCast trait is not supported”...)`, for every
input of every source type. -/
def numCast_from {T : Type} (_n : T) : PRes (Option (List ℕ)) := .halt

/-- `Bounded::min_value` (src/int/numtraits.rs:49-59): returns `Self::MIN`,
which for the unsigned type is all-zero (spec §3). -/
def bounded_min_value (N : ℕ) : PRes (List ℕ) := .ret (zeroU N)

/-- `Bounded::max_value` (src/int/numtraits.rs:49-59): returns `Self::MAX`,
all digits at digit-max (spec §3). -/
def bounded_max_value (db N : ℕ) : PRes (List ℕ) :=
  .ret (List.replicate N (2 ^ db - 1))

/-- `Zero::zero` (src/int/numtraits.rs:242-254): returns `Self::ZERO`. -/
def zero_zero (N : ℕ) : PRes (List ℕ) := .ret (zeroU N)

/-- `One::one` (src/int/numtraits.rs:228-240): returns `Self::ONE`
(digit 0 is one, the rest zero, per spec §3's value semantics). -/
def one_one (db N : ℕ) : PRes (List ℕ) := .ret (ofNat db N 1)

/-! ### Software float: `Float<W, MB>` (src/float/classify.rs, src/float/cmp.rs)

A float value is its bit pattern, a `BUint<W>` (spec §3), embedded here as
a natural number `bits < 2^(db·W)`.  `MB` is the mantissa bit count;
`db·W - 1 - MB` exponent bits and one sign bit (the top bit).

Constants and helpers from `float/mod.rs` (not under `src/`) are modelled
from the spec, as marked. -/

/-- `core::num::FpCategory`. -/
inductive FpCategory where
  | Zero | Infinite | Nan | Subnormal | Normal
  deriving DecidableEq, Repr

/-- Total bit width `W · digit_bits` of `Float<W, MB>`. -/
def fbw (db W : ℕ) : ℕ := db * W

/-- Modelled from the spec: `EXPONENT_BITS` — the width minus one sign bit
minus `MB` mantissa bits (spec §3). -/
def expBitsF (db W MB : ℕ) : ℕ := fbw db W - 1 - MB

/-- Modelled from the spec: `FINITE_MASK = Float::INFINITY.to_bits()` —
all exponent bits set, mantissa zero, sign clear (spec §3/§4.4). -/
def finiteMask (db W MB : ℕ) : ℕ := (2 ^ expBitsF db W MB - 1) * 2 ^ MB

/-- Modelled from the spec: `Q_NAN_MASK = Float::NAN.to_bits()` — the
canonical quiet-NaN pattern: `INFINITY`'s bits with the top mantissa bit
also set (spec §3/§4.4). -/
def qNanMask (db W MB : ℕ) : ℕ := finiteMask db W MB + 2 ^ (MB - 1)

/-- Modelled from the spec: `Float::abs` clears the sign bit (the top bit
of the pattern), keeping the exponent+mantissa field (spec §4.4). -/
def fabs (db W bits : ℕ) : ℕ := bits % 2 ^ (fbw db W - 1)

/-- Modelled from the spec: `Float::to_int` reinterprets the bit pattern
as the two's-complement `BInt<W>` (spec §4.3/§4.4: sign is the most
significant bit of the top digit). -/
def toSigned (bw bits : ℕ) : ℤ :=
  if bits < 2 ^ (bw - 1) then (bits : ℤ) else (bits : ℤ) - 2 ^ bw

/-- Rust `Ord::cmp` on a linear order: `Less`/`Greater`/`Equal`. -/
def intCmp (x y : ℤ) : Ordering :=
  if x < y then .lt else if y < x then .gt else .eq

/-- Rust `Ord::cmp` on naturals (spec-side helper for stating the BUint
ordering). -/
def natCmp (x y : ℕ) : Ordering :=
  if x < y then .lt else if y < x then .gt else .eq

/-- Modelled from the spec: `Bint::cmp` compares the two's-complement
values (spec §4.3: sign-aware comparison of the reused digit storage). -/
def bintCmp (bw a b : ℕ) : Ordering := intCmp (toSigned bw a) (toSigned bw b)

/-- Rank of a bit pattern in the float total order (spec-side helper used
in proofs): nonnegative patterns keep their value, negative patterns are
mapped below them in reverse. -/
def orderKey (bw bits : ℕ) : ℤ :=
  if bits < 2 ^ (bw - 1) then (bits : ℤ) else (2 : ℤ) ^ (bw - 1) - 1 - bits

/-- Number of trailing zero bits of a `w`-bit value (`w` for zero):
`BUint::trailing_zeros` (not under `src/`; standard meaning). -/
def tzW : ℕ → ℕ → ℕ
  | 0, _ => 0
  | w + 1, x => if x % 2 = 1 then 0 else 1 + tzW w (x / 2)

/-- Digit `i` of a bit pattern (`self.words()[i]`). -/
def word (db i bits : ℕ) : ℕ := bits / 2 ^ (db * i) % 2 ^ db

/-- `Float::is_finite` (src/float/classify.rs:25-27):
`to_bits() & FINITE_MASK != FINITE_MASK`. -/
def is_finite (db W MB bits : ℕ) : Bool :=
  bits &&& finiteMask db W MB ≠ finiteMask db W MB

/-- `Float::is_infinite` (src/float/classify.rs:30-34):
`abs().to_bits() == FINITE_MASK`. -/
def is_infinite (db W MB bits : ℕ) : Bool :=
  fabs db W bits = finiteMask db W MB

/-- `Float::is_nan` (src/float/classify.rs:37-40):
`!is_finite() && to_bits().trailing_zeros() < MB`. -/
def is_nan (db W MB bits : ℕ) : Bool :=
  !is_finite db W MB bits && tzW (fbw db W) bits < MB

/-- `Float::is_quiet_nan` (src/float/classify.rs:43-45):
`to_bits() & Q_NAN_MASK == Q_NAN_MASK`. -/
def is_quiet_nan (db W MB bits : ℕ) : Bool :=
  bits &&& qNanMask db W MB = qNanMask db W MB

/-- `Float::is_signalling_nan` (src/float/classify.rs:52-55):
`to_bits() & Q_NAN_MASK == INFINITY.to_bits()`. -/
def is_signalling_nan (db W MB bits : ℕ) : Bool :=
  bits &&& qNanMask db W MB = finiteMask db W MB

/-- `Float::is_zero` (src/float/classify.rs:69-80): words `0..W-1` all
zero and the top word's trailing zeros at least `digit_bits - 1`. -/
def is_zero (db W bits : ℕ) : Bool :=
  decide (∀ i < W - 1, word db i bits = 0) &&
  decide (db - 1 ≤ tzW db (word db (W - 1) bits))

/-- `Float::classify` (src/float/classify.rs:82-99). -/
def classify (db W MB bits : ℕ) : FpCategory :=
  let u := fabs db W bits
  if u = 0 then .Zero
  else if u = finiteMask db W MB then .Infinite
  else
    let u2 := u &&& finiteMask db W MB
    if u2 = 0 then .Subnormal
    else if u2 = finiteMask db W MB then .Nan
    else .Normal

/-- `Float::total_cmp` (src/float/cmp.rs:63-72): compare the patterns as
signed integers, reversing when both are negative. -/
def total_cmp (db W bits₁ bits₂ : ℕ) : Ordering :=
  let left := toSigned (fbw db W) bits₁
  let right := toSigned (fbw db W) bits₂
  if left < 0 ∧ right < 0 then (intCmp left right).swap
  else intCmp left right

/-- `PartialEq::eq for Float` (src/float/cmp.rs:75-81): false if either
operand is NaN (`handle_nan!`, modelled from the spec: `float/mod.rs` is
not under `src/`; spec §4.4 fixes its meaning), true if both are zero,
else digit-wise equality of the bit patterns. -/
def feq (db W MB a b : ℕ) : Bool :=
  if is_nan db W MB a ∨ is_nan db W MB b then false
  else (is_zero db W a && is_zero db W b) || a = b

/-- `PartialOrd::partial_cmp for Float` (src/float/cmp.rs:83-92). -/
def fpartial_cmp (db W MB a b : ℕ) : Option Ordering :=
  if is_nan db W MB a ∨ is_nan db W MB b then none
  else if is_zero db W a ∧ is_zero db W b then some .eq
  else some (total_cmp db W a b)

/-- Rust `<` on Float, via `partial_cmp`. -/
def flt (db W MB a b : ℕ) : Bool := fpartial_cmp db W MB a b = some .lt

/-- Rust `>` on Float, via `partial_cmp`. -/
def fgt (db W MB a b : ℕ) : Bool := fpartial_cmp db W MB a b = some .gt

/-- Rust `<=` on Float, via `partial_cmp`. -/
def fle (db W MB a b : ℕ) : Bool :=
  fpartial_cmp db W MB a b = some .lt ∨ fpartial_cmp db W MB a b = some .eq

/-- `Float::max` (src/float/cmp.rs:6-15): `handle_nan!(other; self)`
(return `other` when `self` is NaN) then `handle_nan!(self; other)`
(return `self` when `other` is NaN), then
`if self < other { other } else { self }`.  With both operands NaN the
first check fires, so the result is `other`. -/
def fmax (db W MB a b : ℕ) : ℕ :=
  if is_nan db W MB a then b
  else if is_nan db W MB b then a
  else if flt db W MB a b then b else a

/-- `Float::min` (src/float/cmp.rs:17-26): the same NaN handling as
`max`, then `if self > other { other } else { self }`. -/
def fmin (db W MB a b : ℕ) : ℕ :=
  if is_nan db W MB a then b
  else if is_nan db W MB b then a
  else if fgt db W MB a b then b else a

/-- `Float::maximum` (src/float/cmp.rs:28-37): `handle_nan!(self; self)`
then `handle_nan!(other; other)`, then select by `total_cmp`. -/
def fmaximum (db W MB a b : ℕ) : ℕ :=
  if is_nan db W MB a then a
  else if is_nan db W MB b then b
  else if total_cmp db W a b = .lt then b else a

/-- `Float::minimum` (src/float/cmp.rs:39-48). -/
def fminimum (db W MB a b : ℕ) : ℕ :=
  if is_nan db W MB a then a
  else if is_nan db W MB b then b
  else if total_cmp db W a b = .gt then b else a

/-- `Float::clamp` (src/float/cmp.rs:50-61): `assert!(min <= max)` (a
panic when it fails), then raise to `min` and lower to `max`. -/
def fclamp (db W MB x mn mx : ℕ) : PRes ℕ :=
  if fle db W MB mn mx then
    .ret (let x1 := if flt db W MB x mn then mn else x
          if fgt db W MB x1 mx then mx else x1)
  else .halt

/-! ### Radix conversion (src/buint/radix.rs)

Byte strings are embedded as `List ℕ` of byte values.  Loops with
data-dependent trip counts are translated with an explicit fuel argument
that provably dominates the trip count, keeping every definition
structurally recursive (and hence executable by `decide`/`rfl`).
Rust shifts whose amount can reach the digit width are modelled as a
panic (`PRes.halt`), matching the debug-build behavior of an overflowing
shift; shifts whose amount is provably in range are pure.  The `bits()`
and `div_ceil` helpers of the source only size `Vec` allocations and have
no semantic effect, so they are not embedded. -/

/-- Floor base-2 logarithm, fuel-structured so it evaluates by `decide`
(`fuel ≥ a` suffices since the argument halves each step). -/
def ilog2Go : ℕ → ℕ → ℕ
  | 0, _ => 0
  | fuel + 1, a => if a ≤ 1 then 0 else 1 + ilog2Go fuel (a / 2)

/-- `ilog2` (src/buint/radix.rs:21-24): `31 - a.leading_zeros()`, the
floor base-2 logarithm for `a ≥ 1`. -/
def ilog2 (a : ℕ) : ℕ := ilog2Go a a

/-- `u32::is_power_of_two`. -/
def isPow2 (r : ℕ) : Bool := decide (0 < r) && decide (r = 2 ^ ilog2 r)

/-- The `loop` of `radix_base` (src/buint/radix.rs:39-52): multiply
`base` by `radix` while `checked_mul` succeeds (product `< 2^db`). -/
def radixBaseLoop (db radixD : ℕ) : ℕ → ℕ → ℕ → ℕ × ℕ
  | 0, base, power => (base, power)
  | fuel + 1, base, power =>
    if base * radixD < 2 ^ db then radixBaseLoop db radixD fuel (base * radixD) (power + 1)
    else (base, power)

/-- `radix_base` (src/buint/radix.rs:39-52): the largest power of `radix`
that fits in one digit, with its exponent. -/
def radix_base (db radix : ℕ) : ℕ × ℕ :=
  radixBaseLoop db (radix % 2 ^ db) db (radix % 2 ^ db) 1

/-- The `loop` of `radix_base_half` (src/buint/radix.rs:54-69): continue
while the product also stays at or below `HALF_BITS_MAX = MAX >> (BITS/2)`
(an overflowing `checked_mul` exceeds it a fortiori). -/
def radixBaseHalfLoop (db radixD : ℕ) : ℕ → ℕ → ℕ → ℕ × ℕ
  | 0, base, power => (base, power)
  | fuel + 1, base, power =>
    if base * radixD ≤ (2 ^ db - 1) >>> (db / 2) then
      radixBaseHalfLoop db radixD fuel (base * radixD) (power + 1)
    else (base, power)

/-- `radix_base_half` (src/buint/radix.rs:54-69). -/
def radix_base_half (db radix : ℕ) : ℕ × ℕ :=
  radixBaseHalfLoop db (radix % 2 ^ db) db (radix % 2 ^ db) 1

/-- `slice::chunks`: chunks of `k` elements from the front, the last chunk
possibly shorter.  Fuel is the list length. -/
def chunksGo {α : Type} (k : ℕ) : ℕ → List α → List (List α)
  | 0, _ => []
  | _, [] => []
  | fuel + 1, l => l.take k :: chunksGo k fuel (l.drop k)

/-- `slice::chunks` (callers always pass `k ≥ 1`). -/
def chunksList {α : Type} (k : ℕ) (l : List α) : List (List α) :=
  chunksGo k l.length l

/-- `slice::rchunks`: chunks of `k` elements counted from the back, each
chunk in original order, yielded back-to-front. -/
def rchunksList {α : Type} (k : ℕ) (l : List α) : List (List α) :=
  (chunksList k l.reverse).map List.reverse

/-- The inner fold of `from_bitwise_digits_le` (src/buint/radix.rs:81-82):
`fold(0, |acc, c| (acc << bits) | c)` on the digit type. -/
def chunkFoldBE (db b : ℕ) (chunk : List ℕ) : ℕ :=
  chunk.foldl (fun acc c => ((acc <<< b) % 2 ^ db) ||| c) 0

/-- The chunk loop of `from_bitwise_digits_le` (src/buint/radix.rs:83-89):
store chunk values below index `N`, fail on a nonzero chunk at or above. -/
def fromBitwiseAux (db N b : ℕ) : List (List ℕ) → ℕ → List ℕ → Option (List ℕ)
  | [], _, out => some out
  | ch :: rest, i, out =>
    let digit := chunkFoldBE db b ch
    if i < N then fromBitwiseAux db N b rest (i + 1) (out.set i digit)
    else if digit ≠ 0 then none
    else fromBitwiseAux db N b rest (i + 1) out

/-- `from_bitwise_digits_le` (src/buint/radix.rs:71-91). -/
def from_bitwise_digits_le (db N : ℕ) (chunks : List (List ℕ)) (b : ℕ) :
    Option (List ℕ) :=
  fromBitwiseAux db N b chunks 0 (zeroU N)

/-- The byte loop of `from_inexact_bitwise_digits_le`
(src/buint/radix.rs:92-123).  `digit |= byte << dbits` panics (debug) when
`dbits` has reached the digit width, which the source permits once `index`
has reached `N` with a zero pending `digit` (the `else if` branch does not
reduce `dbits`); that state is modelled with `PRes.halt`. -/
def fromInexactAux (db N b : ℕ) :
    List ℕ → ℕ → ℕ → ℕ → List ℕ → PRes (Option (List ℕ))
  | [], digit, dbits, index, out =>
    .ret (if 0 < dbits ∧ digit ≠ 0 then
            if index < N then some (out.set index digit) else none
          else some out)
  | byte :: rest, digit, dbits, index, out =>
    if db ≤ dbits then .halt
    else
      let digit2 := digit ||| ((byte <<< dbits) % 2 ^ db)
      let dbits2 := dbits + b
      if db ≤ dbits2 then
        if index < N then
          fromInexactAux db N b rest (byte >>> (b - (dbits2 - db))) (dbits2 - db)
            (index + 1) (out.set index digit2)
        else if digit2 ≠ 0 then .ret none
        else fromInexactAux db N b rest digit2 dbits2 index out
      else fromInexactAux db N b rest digit2 dbits2 index out

/-- `from_inexact_bitwise_digits_le` (src/buint/radix.rs:92-123). -/
def from_inexact_bitwise_digits_le (db N : ℕ) (bytes : List ℕ) (b : ℕ) :
    PRes (Option (List ℕ)) :=
  fromInexactAux db N b bytes 0 0 0 (zeroU N)

/-- The `for digit in out.digits` multiply-accumulate pass of
`from_radix_digits_be` (src/buint/radix.rs:146-150), built on
`mac_with_carry` (src/buint/radix.rs:124-128), i.e.
`carrying_mul(digit, base, carry, 0)`.  Returns the updated digits and the
final carry. -/
def mulAddDigits (db base : ℕ) : List ℕ → ℕ → List ℕ × ℕ
  | [], carry => ([], carry)
  | d :: t, carry =>
    let r := carrying_mul db d base carry 0
    let rest := mulAddDigits db base t r.2
    (r.1 :: rest.1, rest.2)

/-- Modelled from the spec: `BUint::checked_add` (body not under `src/`).
Spec §4.2: the checked variant returns the no-value sentinel on overflow
and the value otherwise. -/
def checked_add (db N : ℕ) (a b : List ℕ) : Option (List ℕ) :=
  if val db a + val db b < 2 ^ (db * N) then some (ofNat db N (val db a + val db b))
  else none

/-- Modelled from the spec: a single digit widened to an `N`-digit BUint
(`n.into()` / `Self::from_digit`). -/
def from_digit (db N d : ℕ) : List ℕ := ofNat db N d

/-- The chunk loop of `from_radix_digits_be` (src/buint/radix.rs:146-156):
multiply the accumulator by `base` (failing on carry out), Horner-fold the
chunk into one digit, and `checked_add` it. -/
def fromRadixGo (db N radixD base : ℕ) : List (List ℕ) → List ℕ → Option (List ℕ)
  | [], out => some out
  | ch :: rest, out =>
    let m := mulAddDigits db base out 0
    if m.2 ≠ 0 then none
    else
      let n := ch.foldl (fun acc d => (acc * radixD + d) % 2 ^ db) 0
      match checked_add db N m.1 (from_digit db N n) with
      | some out2 => fromRadixGo db N radixD base rest out2
      | none => none

/-- `from_radix_digits_be` (src/buint/radix.rs:129-158): Horner evaluation
of the head chunk into digit 0, then the chunk loop. -/
def from_radix_digits_be (db N radix base : ℕ) (head : List ℕ)
    (tail : List (List ℕ)) : Option (List ℕ) :=
  let radixD := radix % 2 ^ db
  let first := head.foldl (fun acc d => (acc * radixD + d) % 2 ^ db) 0
  fromRadixGo db N radixD base tail ((zeroU N).set 0 first)

/-- Modelled from the spec: `BUint::from_le_slice` (body not under
`src/`); spec §6: the plain little-endian byte-slice constructor used when
`radix == 256` and the digit is one byte — the bytes are the base-256
digits of the value, `None` when the value does not fit. -/
def from_le_slice (db N : ℕ) (buf : List ℕ) : Option (List ℕ) :=
  if Nat.ofDigits 256 buf < 2 ^ (db * N) then some (ofNat db N (Nat.ofDigits 256 buf))
  else none

/-- Modelled from the spec: `BUint::from_be_slice` (spec §6), the
big-endian byte-slice constructor. -/
def from_be_slice (db N : ℕ) (buf : List ℕ) : Option (List ℕ) :=
  from_le_slice db N buf.reverse

/-- `from_radix_be` (src/buint/radix.rs:199-231).  `assert_range!` models
the radix-range assertion as a panic. -/
def from_radix_be (db N : ℕ) (buf : List ℕ) (radix : ℕ) : PRes (Option (List ℕ)) :=
  if radix < 2 ∨ 256 < radix then .halt
  else if buf = [] then .ret (some (zeroU N))
  else if db = 8 ∧ radix = 256 then .ret (from_be_slice db N buf)
  else if radix ≠ 256 ∧ buf.any (fun bb => radix ≤ bb) then .ret none
  else if isPow2 radix then
    let b := ilog2 radix
    if db % b = 0 then
      .ret (from_bitwise_digits_le db N (rchunksList (db / b) buf) b)
    else from_inexact_bitwise_digits_le db N buf.reverse b
  else
    let bp := radix_base db radix
    let r := buf.length % bp.2
    let i := if r = 0 then bp.2 else r
    .ret (from_radix_digits_be db N radix bp.1 (buf.take i)
      (chunksList bp.2 (buf.drop i)))

/-- `from_radix_le` (src/buint/radix.rs:248-280). -/
def from_radix_le (db N : ℕ) (buf : List ℕ) (radix : ℕ) : PRes (Option (List ℕ)) :=
  if radix < 2 ∨ 256 < radix then .halt
  else if buf = [] then .ret (some (zeroU N))
  else if db = 8 ∧ radix = 256 then .ret (from_le_slice db N buf)
  else if radix ≠ 256 ∧ buf.any (fun bb => radix ≤ bb) then .ret none
  else if isPow2 radix then
    let b := ilog2 radix
    if db % b = 0 then
      .ret (from_bitwise_digits_le db N
        ((chunksList (db / b) buf).map List.reverse) b)
    else from_inexact_bitwise_digits_le db N buf b
  else
    let bp := radix_base db radix
    let r := buf.length % bp.2
    let i := if r = 0 then bp.2 else r
    .ret (from_radix_digits_be db N radix bp.1
      ((buf.drop (buf.length - i)).reverse)
      ((rchunksList bp.2 (buf.take (buf.length - i))).map List.reverse))

/-- `byte_to_digit` (src/buint/radix.rs:281-288). -/
def byte_to_digit (byte : ℕ) : ℕ :=
  if 48 ≤ byte ∧ byte ≤ 57 then byte - 48
  else if 97 ≤ byte ∧ byte ≤ 122 then byte - 97 + 10
  else if 65 ≤ byte ∧ byte ≤ 90 then byte - 65 + 10
  else 255

/-- `from_str_radix` (src/buint/radix.rs:308-367): strip one optional
leading `+` (byte 43), reject empty, validate every byte eagerly, then
parse by the radix-class branches. -/
def from_str_radix (db N : ℕ) (src : List ℕ) (radix : ℕ) :
    PRes (Except IntErrorKind (List ℕ)) :=
  if radix < 2 ∨ 36 < radix then .halt
  else
    let src2 := if src.head? = some 43 then src.tail else src
    if src2 = [] then .ret (.error .Empty)
    else if src2.any (fun byte => radix ≤ byte_to_digit byte) then
      .ret (.error .InvalidDigit)
    else if radix = 2 ∨ radix = 4 ∨ radix = 16 then
      let b := ilog2 radix
      match from_bitwise_digits_le db N
          ((rchunksList (db / b) src2).map (List.map byte_to_digit)) b with
      | some out => .ret (.ok out)
      | none => .ret (.error .PosOverflow)
    else if radix = 8 ∨ radix = 32 then
      let b := ilog2 radix
      match from_inexact_bitwise_digits_le db N (src2.reverse.map byte_to_digit) b with
      | .halt => .halt
      | .ret (some out) => .ret (.ok out)
      | .ret none => .ret (.error .PosOverflow)
    else
      let bp := radix_base db radix
      let r := src2.length % bp.2
      let i := if r = 0 then bp.2 else r
      match from_radix_digits_be db N radix bp.1
          ((src2.take i).map byte_to_digit)
          ((chunksList bp.2 (src2.drop i)).map (List.map byte_to_digit)) with
      | some out => .ret (.ok out)
      | none => .ret (.error .PosOverflow)

/-- Modelled from the spec: `BUint::last_digit_index` (not under `src/`):
the index of the most significant nonzero digit, `0` for zero. -/
def lastDigitIndexAux : List ℕ → ℕ → ℕ → ℕ
  | [], _, best => best
  | d :: t, i, best => lastDigitIndexAux t (i + 1) (if d ≠ 0 then i else best)

/-- `BUint::last_digit_index` (not under `src/`, see `lastDigitIndexAux`). -/
def last_digit_index (l : List ℕ) : ℕ := lastDigitIndexAux l 0 0

/-- The inner `for _ in 0..digits_per_big_digit` loop of
`to_bitwise_digits_le` (src/buint/radix.rs:464-469): push `d & mask` as a
byte and shift `d` right, `k` times. -/
def toBitwisePushes (b mask : ℕ) : ℕ → ℕ → List ℕ
  | 0, _ => []
  | k + 1, d => (d &&& mask) % 256 :: toBitwisePushes b mask k (d >>> b)

/-- The `while r != 0` drain of the top digit in `to_bitwise_digits_le`
(src/buint/radix.rs:470-473).  Fuel `db` dominates the trip count. -/
def drainDigit (b mask : ℕ) : ℕ → ℕ → List ℕ
  | 0, _ => []
  | fuel + 1, r =>
    if r = 0 then [] else (r &&& mask) % 256 :: drainDigit b mask fuel (r >>> b)

/-- `to_bitwise_digits_le` (src/buint/radix.rs:455-475). -/
def to_bitwise_digits_le (db : ℕ) (a : List ℕ) (b : ℕ) : List ℕ :=
  let ldi := last_digit_index a
  let mask := 2 ^ b - 1
  let k := db / b
  ((a.take ldi).map (toBitwisePushes b mask k)).flatten ++
    drainDigit b mask db (a.getD ldi 0)

/-- The `while rbits >= bits` loop of `to_inexact_bitwise_digits_le`
(src/buint/radix.rs:487-495), carrying `(pushed bytes, r, rbits)`.  Fuel
`rbits` dominates the trip count (`b ≥ 1`). -/
def toInexactWhile (db b mask c : ℕ) : ℕ → ℕ → ℕ → List ℕ × ℕ × ℕ
  | 0, r, rbits => ([], r, rbits)
  | fuel + 1, r, rbits =>
    if b ≤ rbits then
      let push := (r &&& mask) % 256
      let r2 := r >>> b
      let r3 := if db < rbits then c >>> (db - (rbits - b)) else r2
      let rest := toInexactWhile db b mask c fuel r3 (rbits - b)
      (push :: rest.1, rest.2.1, rest.2.2)
    else ([], r, rbits)

/-- The `for c in self.digits` loop of `to_inexact_bitwise_digits_le`
(src/buint/radix.rs:483-496): `r |= c << rbits` on the digit type (the
amount `rbits` stays below `bits ≤ 7 < db` at every loop head), then the
while loop, then the leftover push. -/
def toInexactGo (db b mask : ℕ) : List ℕ → ℕ → ℕ → List ℕ
  | [], r, rbits => if rbits ≠ 0 then [r % 256] else []
  | c :: rest, r, rbits =>
    let r2 := (r ||| ((c <<< rbits) % 2 ^ db)) % 2 ^ db
    let rbits2 := rbits + db
    let w := toInexactWhile db b mask c rbits2 r2 rbits2
    w.1 ++ toInexactGo db b mask rest w.2.1 w.2.2

/-- The final `while let Some(&0) = out.last() { out.pop(); }` of
`to_inexact_bitwise_digits_le` (src/buint/radix.rs:500-502). -/
def stripTrailingZeros (l : List ℕ) : List ℕ :=
  (l.reverse.dropWhile (fun x => x = 0)).reverse

/-- `to_inexact_bitwise_digits_le` (src/buint/radix.rs:477-504). -/
def to_inexact_bitwise_digits_le (db : ℕ) (a : List ℕ) (b : ℕ) : List ℕ :=
  stripTrailingZeros (toInexactGo db b (2 ^ b - 1) a 0 0)

/-- Modelled from the spec: `BUint::div_rem_digit` (body not under
`src/`); spec §4.2: single-digit long division with
`a = q*d + r`, `0 ≤ r < d`, quotient in the same `N` digits. -/
def div_rem_digit (db : ℕ) (a : List ℕ) (d : ℕ) : List ℕ × ℕ :=
  (ofNat db a.length (val db a / d), val db a % d)

/-- The `for _ in 0..power` extraction of radix digits from one remainder
in `to_radix_digits_le` (src/buint/radix.rs:514-517). -/
def pushRemDigits (radixD : ℕ) : ℕ → ℕ → List ℕ
  | 0, _ => []
  | p + 1, r => (r % radixD) % 256 :: pushRemDigits radixD p (r / radixD)

/-- The final `while r != 0` drain of `to_radix_digits_le`
(src/buint/radix.rs:520-524).  Fuel `db` dominates the trip count. -/
def drainRadix (radixD : ℕ) : ℕ → ℕ → List ℕ
  | 0, _ => []
  | fuel + 1, r =>
    if r = 0 then [] else (r % radixD) % 256 :: drainRadix radixD fuel (r / radixD)

/-- The `while copy.last_digit_index() > 0` loop of `to_radix_digits_le`
(src/buint/radix.rs:511-519) followed by the single-digit drain.  Fuel
`db · length + 1` dominates the trip count since each step divides the
value by `base ≥ 2`. -/
def toRadixLoop (db radixD base power : ℕ) : ℕ → List ℕ → List ℕ
  | 0, _ => []
  | fuel + 1, copy =>
    if 0 < last_digit_index copy then
      let qr := div_rem_digit db copy base
      pushRemDigits radixD power qr.2 ++ toRadixLoop db radixD base power fuel qr.1
    else drainRadix radixD db (copy.getD 0 0)

/-- `to_radix_digits_le` (src/buint/radix.rs:506-526). -/
def to_radix_digits_le (db : ℕ) (a : List ℕ) (radix : ℕ) : List ℕ :=
  let bp := radix_base_half db radix
  toRadixLoop db (radix % 2 ^ db) bp.1 bp.2 (db * a.length + 1) a

/-- `to_radix_le` (src/buint/radix.rs:431-453); `self.is_zero()` is the
all-digits-zero test, i.e. `val = 0`. -/
def to_radix_le (db : ℕ) (a : List ℕ) (radix : ℕ) : List ℕ :=
  if val db a = 0 then [0]
  else if isPow2 radix then
    if db = 8 ∧ radix = 256 then (a.take (last_digit_index a + 1)).map (fun d => d % 256)
    else
      let b := ilog2 radix
      if db % b = 0 then to_bitwise_digits_le db a b
      else to_inexact_bitwise_digits_le db a b
  else if radix = 10 then to_radix_digits_le db a 10
  else to_radix_digits_le db a radix

/-- `to_radix_be` (src/buint/radix.rs:411-416): little-endian digits,
reversed. -/
def to_radix_be (db : ℕ) (a : List ℕ) (radix : ℕ) : List ℕ :=
  (to_radix_le db a radix).reverse

/-- `to_str_radix` (src/buint/radix.rs:384-396): add `b'0'` to digits
below 10 and `b'a' - 10` to the rest. -/
def to_str_radix (db : ℕ) (a : List ℕ) (radix : ℕ) : List ℕ :=
  (to_radix_be db a radix).map fun byte => if byte < 10 then byte + 48 else byte + 87

/-- `<BUint<N> as FromStr>::from_str` (src/buint/radix.rs:530-591): the
hand-inlined base-10 parse with `BP = radix_base(10)`.  It does not strip
a leading `+` and does not test for emptiness; on empty input the
`while i < split` head loop reads `buf[0]` out of bounds — a panic,
modelled by the `src.length < split` guard (`split ≤ length` holds for
every nonempty input).  The chunk loop is the same computation as
`fromRadixGo` at radix 10, on exact chunks of `power` bytes. -/
def BUint.from_str (db N : ℕ) (src : List ℕ) :
    PRes (Except IntErrorKind (List ℕ)) :=
  let bp := radix_base db 10
  if src.any (fun byte => 10 ≤ byte_to_digit byte) then .ret (.error .InvalidDigit)
  else
    let r := src.length % bp.2
    let split := if r = 0 then bp.2 else r
    if src.length < split then .halt
    else
      let first := (src.take split).foldl
        (fun acc d => (acc * 10 + byte_to_digit d) % 2 ^ db) 0
      match fromRadixGo db N 10 bp.1
          ((chunksList bp.2 (src.drop split)).map (List.map byte_to_digit))
          ((zeroU N).set 0 first) with
      | some out => .ret (.ok out)
      | none => .ret (.error .PosOverflow)


/-- The biased-exponent field of a bit pattern: bits `MB..MB+EXPONENT_BITS`
(spec-side characterization used to state claims). -/
def expField (db W MB bits : ℕ) : ℕ := bits / 2 ^ MB % 2 ^ expBitsF db W MB

/-- The mantissa field of a bit pattern: the low `MB` bits (spec-side
characterization used to state claims). -/
def mant (MB bits : ℕ) : ℕ := bits % 2 ^ MB

/-! ### Basic representation lemmas -/

theorem val_nil (db : ℕ) : val db [] = 0 := rfl

theorem val_cons (db d : ℕ) (l : List ℕ) :
    val db (d :: l) = d + 2 ^ db * val db l := by
  simp [val, Nat.ofDigits_cons]

theorem ofNat_zero_len (db n : ℕ) : ofNat db 0 n = [] := rfl

theorem ofNat_succ (db N n : ℕ) :
    ofNat db (N + 1) n = n % 2 ^ db :: ofNat db N (n / 2 ^ db) := by
  simp only [ofNat, List.range_succ_eq_map, List.map_cons, List.map_map]
  congr 1
  · simp
  · refine List.map_congr_left fun i _ => ?_
    simp only [Function.comp_apply]
    rw [Nat.div_div_eq_div_mul, ← pow_add, Nat.succ_eq_add_one]
    ring_nf

theorem ofNat_length (db N n : ℕ) : (ofNat db N n).length = N := by
  simp [ofNat]

theorem ofNat_valid (db N n : ℕ) (hdb : 0 < db) : Valid db N (ofNat db N n) := by
  refine ⟨ofNat_length db N n, fun d hd => ?_⟩
  simp only [ofNat, List.mem_map] at hd
  obtain ⟨i, _, rfl⟩ := hd
  exact Nat.mod_lt _ (Nat.pos_pow_of_pos db (by norm_num))

/-- Splitting a remainder modulo a product into low and high parts. -/
theorem mod_mul_decomp (a b n : ℕ) : n % (a * b) = n % a + a * (n / a % b) := by
  have h1 : n % (a * b) % a = n % a := Nat.mod_mod_of_dvd n ⟨b, rfl⟩
  have h2 : n % (a * b) / a = n / a % b := Nat.mod_mul_right_div_self n a b
  conv_lhs => rw [← Nat.mod_add_div (n % (a * b)) a]
  rw [h1, h2]

theorem val_ofNat (db N n : ℕ) : val db (ofNat db N n) = n % 2 ^ (db * N) := by
  induction N generalizing n with
  | zero => simp [ofNat_zero_len, val_nil, Nat.mod_one]
  | succ m ih =>
    rw [ofNat_succ, val_cons, ih, Nat.mul_succ, Nat.add_comm (db * m) db, pow_add,
      mod_mul_decomp]

theorem val_lt (db N : ℕ) (l : List ℕ) (hdb : 0 < db) (h : Valid db N l) :
    val db l < 2 ^ (db * N) := by
  have hb : 1 < 2 ^ db := Nat.one_lt_two_pow_iff.2 hdb.ne'
  have h2 := Nat.ofDigits_lt_base_pow_length (b := 2 ^ db) (l := l) hb h.2
  rw [← pow_mul, h.1] at h2
  exact h2

theorem ofNat_val (db N : ℕ) (l : List ℕ) (hdb : 0 < db) (h : Valid db N l) :
    ofNat db N (val db l) = l := by
  obtain ⟨hlen, hlt⟩ := h
  subst hlen
  induction l with
  | nil => rfl
  | cons d t ih =>
    rw [val_cons, List.length_cons, ofNat_succ]
    have hd : d < 2 ^ db := hlt d (List.mem_cons_self _ _)
    have h1 : (d + 2 ^ db * val db t) % 2 ^ db = d := by
      rw [Nat.add_mul_mod_self_left, Nat.mod_eq_of_lt hd]
    have h2 : (d + 2 ^ db * val db t) / 2 ^ db = val db t := by
      rw [Nat.add_mul_div_left _ _ (Nat.pos_pow_of_pos db (by norm_num)),
        Nat.div_eq_of_lt hd, Nat.zero_add]
    rw [h1, h2, ih fun x hx => hlt x (List.mem_cons_of_mem _ hx)]

theorem digits_len_le_of_lt_pow {b n k : ℕ} (hb : 1 < b) (h : n < b ^ k) :
    (Nat.digits b n).length ≤ k := by
  rcases Nat.eq_zero_or_pos n with rfl | hn
  · simp
  rw [Nat.digits_len b n hb hn.ne']
  have := Nat.log_lt_of_lt_pow hn.ne' h
  omega

/-! ### Bit-level lemmas for the float layer -/

theorem testBit_div_pow (x n i : ℕ) : (x / 2 ^ n).testBit i = x.testBit (n + i) := by
  induction n generalizing i with
  | zero => simp
  | succ m ih =>
    rw [pow_succ, ← Nat.div_div_eq_div_mul, Nat.testBit_div_two, ih]
    congr 1
    omega

theorem land_absorb_iff (x m : ℕ) :
    x &&& m = m ↔ ∀ i, m.testBit i = true → x.testBit i = true := by
  constructor
  · intro h i hm
    have h2 := congrArg (Nat.testBit · i) h
    simp only [Nat.testBit_land, hm, Bool.and_true] at h2
    exact h2
  · intro h
    apply Nat.eq_of_testBit_eq
    intro i
    rw [Nat.testBit_land]
    cases hm : m.testBit i
    · simp
    · simp [h i hm]

theorem testBit_mask_mul (a b i : ℕ) :
    ((2 ^ a - 1) * 2 ^ b).testBit i = (decide (b ≤ i) && decide (i - b < a)) := by
  rw [← Nat.shiftLeft_eq, Nat.testBit_shiftLeft, Nat.testBit_two_pow_sub_one]

theorem land_mask_mul (x a b : ℕ) :
    x &&& (2 ^ a - 1) * 2 ^ b = x / 2 ^ b % 2 ^ a * 2 ^ b := by
  apply Nat.eq_of_testBit_eq
  intro i
  rw [Nat.testBit_land, testBit_mask_mul]
  have hr : x / 2 ^ b % 2 ^ a * 2 ^ b = 2 ^ b * (x / 2 ^ b % 2 ^ a) + 0 := by ring
  rw [hr, Nat.testBit_mul_pow_two_add _ (Nat.pos_pow_of_pos b (by norm_num)) i]
  rcases Nat.lt_or_ge i b with hib | hib
  · simp [hib, Nat.not_le_of_lt hib]
  · have : ¬ i < b := Nat.not_lt_of_ge hib
    simp only [this, if_false, Nat.testBit_mod_two_pow, testBit_div_pow, hib]
    have : b + (i - b) = i := by omega
    rw [this]
    simp [Bool.and_comm]

/-- `trailing_zeros < k` detects a nonzero low `k`-bit field. -/
theorem tzW_lt_iff (w x k : ℕ) (hk : k ≤ w) : tzW w x < k ↔ x % 2 ^ k ≠ 0 := by
  induction k generalizing x w with
  | zero => simp [Nat.mod_one]
  | succ j ih =>
    match w, hk with
    | v + 1, hk =>
      rw [tzW]
      rcases Nat.even_or_odd x with he | ho
      · have hx2 : x % 2 = 0 := Nat.even_iff.1 he
        rw [if_neg (by omega)]
        have hv : j ≤ v := by omega
        have hlt : (1 + tzW v (x / 2) < j + 1) ↔ tzW v (x / 2) < j := by omega
        have hy : x % 2 ^ (j + 1) = 2 * (x / 2 % 2 ^ j) := by
          have hx : x = 2 * (x / 2) := by omega
          conv_lhs => rw [hx, pow_succ']
          exact Nat.mul_mod_mul_left 2 (x / 2) (2 ^ j)
        rw [hlt, ih v (x / 2) hv, hy]
        omega
      · have hx2 : x % 2 = 1 := Nat.odd_iff.1 ho
        rw [if_pos hx2]
        simp only [Nat.succ_pos, true_iff]
        intro hc
        have h1 : x % 2 ^ (j + 1) % 2 = x % 2 := Nat.mod_mod_of_dvd x ⟨2 ^ j, by ring⟩
        rw [hc] at h1
        simp [hx2] at h1

theorem finiteMask_testBit (db W MB i : ℕ) :
    (finiteMask db W MB).testBit i =
      (decide (MB ≤ i) && decide (i - MB < expBitsF db W MB)) := by
  rw [finiteMask, testBit_mask_mul]

theorem qNanMask_testBit (db W MB i : ℕ) (hMB : 0 < MB) :
    (qNanMask db W MB).testBit i =
      (decide (i = MB - 1) ||
        (decide (MB ≤ i) && decide (i - MB < expBitsF db W MB))) := by
  have hq : qNanMask db W MB =
      2 ^ MB * (2 ^ expBitsF db W MB - 1) + 2 ^ (MB - 1) := by
    rw [qNanMask, finiteMask]; ring
  have hlt : 2 ^ (MB - 1) < 2 ^ MB := Nat.pow_lt_pow_right (by norm_num) (by omega)
  rw [hq, Nat.testBit_mul_pow_two_add _ hlt i]
  rcases Nat.lt_or_ge i MB with hi | hi
  · rw [if_pos hi, Nat.testBit_two_pow]
    have h1 : ¬ MB ≤ i := by omega
    have h2 : (MB - 1 = i) ↔ (i = MB - 1) := by omega
    simp [h1, h2]
  · rw [if_neg (by omega), Nat.testBit_two_pow_sub_one]
    have h1 : ¬ i = MB - 1 := by omega
    simp [h1, hi]

theorem expField_ones_iff (db W MB bits : ℕ) :
    expField db W MB bits = 2 ^ expBitsF db W MB - 1 ↔
      ∀ j, j < expBitsF db W MB → bits.testBit (MB + j) = true := by
  have he : ∀ j, (expField db W MB bits).testBit j =
      (decide (j < expBitsF db W MB) && bits.testBit (MB + j)) := by
    intro j
    rw [expField, Nat.testBit_mod_two_pow, testBit_div_pow]
  constructor
  · intro h j hj
    have := he j
    rw [h, Nat.testBit_two_pow_sub_one] at this
    simp [hj] at this
    exact this
  · intro h
    apply Nat.eq_of_testBit_eq
    intro j
    rw [he j, Nat.testBit_two_pow_sub_one]
    rcases Nat.lt_or_ge j (expBitsF db W MB) with hj | hj
    · simp [hj, h j hj]
    · simp [Nat.not_lt_of_ge hj]

/-- `is_quiet_nan` holds exactly when the exponent field is all-ones and
the top mantissa bit is set. -/
theorem is_quiet_nan_iff (db W MB bits : ℕ) (hMB : 0 < MB) :
    is_quiet_nan db W MB bits = true ↔
      (expField db W MB bits = 2 ^ expBitsF db W MB - 1 ∧
        bits.testBit (MB - 1) = true) := by
  rw [is_quiet_nan, decide_eq_true_eq, land_absorb_iff, expField_ones_iff]
  constructor
  · intro h
    constructor
    · intro j hj
      apply h
      rw [qNanMask_testBit db W MB _ hMB]
      have h1 : MB ≤ MB + j := by omega
      simp [h1, hj]
    · apply h
      rw [qNanMask_testBit db W MB _ hMB]
      simp
  · rintro ⟨he, hq⟩ i hm
    rw [qNanMask_testBit db W MB _ hMB] at hm
    simp only [Bool.or_eq_true, decide_eq_true_eq, Bool.and_eq_true] at hm
    rcases hm with hm | ⟨hm1, hm2⟩
    · rw [hm]; exact hq
    · have : MB + (i - MB) = i := by omega
      rw [← this]
      exact he _ hm2

/-- `is_signalling_nan` holds exactly when the exponent field is all-ones
and the top mantissa bit is clear — a condition that ±infinity also
satisfies. -/
theorem is_signalling_nan_iff (db W MB bits : ℕ) (hMB : 0 < MB) :
    is_signalling_nan db W MB bits = true ↔
      (expField db W MB bits = 2 ^ expBitsF db W MB - 1 ∧
        bits.testBit (MB - 1) = false) := by
  rw [is_signalling_nan, decide_eq_true_eq]
  constructor
  · intro h
    constructor
    · rw [expField_ones_iff]
      intro j hj
      have := congrArg (Nat.testBit · (MB + j)) h
      simp only [Nat.testBit_land, qNanMask_testBit db W MB _ hMB,
        finiteMask_testBit] at this
      have h1 : MB ≤ MB + j := by omega
      have h3 : ¬ (MB + j = MB - 1) := by omega
      simpa [h1, h3, hj] using this
    · have := congrArg (Nat.testBit · (MB - 1)) h
      simp only [Nat.testBit_land, qNanMask_testBit db W MB _ hMB,
        finiteMask_testBit] at this
      have h1 : ¬ MB ≤ MB - 1 := by omega
      simpa [h1] using this
  · rintro ⟨he, hq⟩
    rw [expField_ones_iff] at he
    apply Nat.eq_of_testBit_eq
    intro i
    rw [Nat.testBit_land, qNanMask_testBit db W MB _ hMB, finiteMask_testBit]
    rcases Decidable.em (i = MB - 1) with hi | hi
    · subst hi
      have h1 : ¬ MB ≤ MB - 1 := by omega
      simp [h1, hq]
    · rcases Nat.lt_or_ge i MB with him | him
      · have h1 : ¬ MB ≤ i := by omega
        simp [hi, h1]
      · rcases Nat.lt_or_ge (i - MB) (expBitsF db W MB) with hie | hie
        · have : MB + (i - MB) = i := by omega
          have hb := he (i - MB) hie
          rw [this] at hb
          simp [hi, him, hie, hb]
        · simp [hi, him, Nat.not_lt_of_ge hie]

theorem fabs_decomp (db W MB bits : ℕ) (hexp : MB + 1 < fbw db W) :
    fabs db W bits = mant MB bits + 2 ^ MB * expField db W MB bits := by
  have hsplit : MB + expBitsF db W MB = fbw db W - 1 := by
    unfold expBitsF
    omega
  rw [fabs, ← hsplit, pow_add, mod_mul_decomp]
  rfl

theorem mant_lt (MB bits : ℕ) : mant MB bits < 2 ^ MB :=
  Nat.mod_lt _ (Nat.pos_pow_of_pos MB (by norm_num))

theorem expField_lt (db W MB bits : ℕ) :
    expField db W MB bits < 2 ^ expBitsF db W MB :=
  Nat.mod_lt _ (Nat.pos_pow_of_pos _ (by norm_num))

theorem fabs_land_finiteMask (db W MB bits : ℕ) (hexp : MB + 1 < fbw db W) :
    fabs db W bits &&& finiteMask db W MB = 2 ^ MB * expField db W MB bits := by
  rw [finiteMask, land_mask_mul]
  have h1 : fabs db W bits / 2 ^ MB = expField db W MB bits := by
    rw [fabs_decomp db W MB bits hexp,
      Nat.add_mul_div_left _ _ (Nat.pos_pow_of_pos MB (by norm_num)),
      Nat.div_eq_of_lt (mant_lt MB bits), Nat.zero_add]
  rw [h1, Nat.mod_eq_of_lt (expField_lt db W MB bits), Nat.mul_comm]

theorem fabs_eq_zero_iff (db W MB bits : ℕ) (hexp : MB + 1 < fbw db W) :
    fabs db W bits = 0 ↔ expField db W MB bits = 0 ∧ mant MB bits = 0 := by
  rw [fabs_decomp db W MB bits hexp]
  constructor
  · intro h
    have hm : mant MB bits = 0 := by omega
    have he : 2 ^ MB * expField db W MB bits = 0 := by omega
    refine ⟨?_, hm⟩
    have := Nat.pos_pow_of_pos MB (show 0 < 2 by norm_num)
    exact Nat.eq_zero_of_mul_eq_zero he |>.resolve_left (by omega)
  · rintro ⟨he, hm⟩
    simp [he, hm]

theorem fabs_eq_finiteMask_iff (db W MB bits : ℕ) (hexp : MB + 1 < fbw db W) :
    fabs db W bits = finiteMask db W MB ↔
      expField db W MB bits = 2 ^ expBitsF db W MB - 1 ∧ mant MB bits = 0 := by
  rw [fabs_decomp db W MB bits hexp, finiteMask]
  constructor
  · intro h
    have hm2 : mant MB bits < 2 ^ MB := mant_lt MB bits
    have hmod := congrArg (· % 2 ^ MB) h
    simp only [Nat.add_mul_mod_self_left, Nat.mul_comm (2 ^ expBitsF db W MB - 1),
      Nat.mul_mod_right] at hmod
    rw [Nat.mod_eq_of_lt hm2] at hmod
    refine ⟨?_, hmod⟩
    rw [hmod, Nat.zero_add] at h
    have := Nat.eq_of_mul_eq_mul_left (Nat.pos_pow_of_pos MB (show 0 < 2 by norm_num))
      (h.trans (Nat.mul_comm _ _))
    exact this
  · rintro ⟨he, hm⟩
    rw [he, hm, Nat.zero_add, Nat.mul_comm]

theorem classify_eq (db W MB bits : ℕ) (hMB : 0 < MB) (hexp : MB + 1 < fbw db W) :
    classify db W MB bits =
      (if expField db W MB bits = 0 ∧ mant MB bits = 0 then .Zero
       else if expField db W MB bits = 2 ^ expBitsF db W MB - 1 ∧ mant MB bits = 0
         then .Infinite
       else if expField db W MB bits = 0 then .Subnormal
       else if expField db W MB bits = 2 ^ expBitsF db W MB - 1 then .Nan
       else .Normal) := by
  have heb : 0 < expBitsF db W MB := by
    unfold expBitsF
    omega
  have hMBpow : 0 < (2 : ℕ) ^ MB := Nat.pos_pow_of_pos MB (by norm_num)
  have hones : (2 : ℕ) ^ expBitsF db W MB - 1 ≠ 0 := by
    have : (2 : ℕ) ^ expBitsF db W MB ≥ 2 := by
      calc (2 : ℕ) ^ 1 ≤ 2 ^ expBitsF db W MB := Nat.pow_le_pow_right (by norm_num) heb
        _ = 2 ^ expBitsF db W MB := rfl
    omega
  rw [classify]
  simp only [fabs_eq_zero_iff db W MB bits hexp, fabs_eq_finiteMask_iff db W MB bits hexp,
    fabs_land_finiteMask db W MB bits hexp]
  have hz : (2 ^ MB * expField db W MB bits = 0) ↔ expField db W MB bits = 0 := by
    constructor
    · intro h
      rcases Nat.eq_zero_of_mul_eq_zero h with h | h
      · omega
      · exact h
    · intro h
      rw [h, Nat.mul_zero]
  have hn : (2 ^ MB * expField db W MB bits = finiteMask db W MB) ↔
      expField db W MB bits = 2 ^ expBitsF db W MB - 1 := by
    rw [finiteMask, Nat.mul_comm (2 ^ expBitsF db W MB - 1)]
    constructor
    · intro h
      exact Nat.eq_of_mul_eq_mul_left hMBpow h
    · intro h
      rw [h]
  simp only [hz, hn]

/-- C7 (amended): `classify` matches the claimed case analysis, and
`is_quiet_nan` holds exactly on exponent-all-ones patterns with the top
mantissa bit set (hence only on NaNs), but `is_signalling_nan` holds
exactly on exponent-all-ones patterns with the top mantissa bit clear,
which includes ±infinity (mantissa zero) in addition to signalling NaNs. -/
theorem classify_and_nan_predicate_characterization
    (db W MB bits : ℕ) (hMB : 0 < MB) (hexp : MB + 1 < fbw db W) :
    (classify db W MB bits = .Zero ↔
      expField db W MB bits = 0 ∧ mant MB bits = 0) ∧
    (classify db W MB bits = .Infinite ↔
      expField db W MB bits = 2 ^ expBitsF db W MB - 1 ∧ mant MB bits = 0) ∧
    (classify db W MB bits = .Nan ↔
      expField db W MB bits = 2 ^ expBitsF db W MB - 1 ∧ mant MB bits ≠ 0) ∧
    (classify db W MB bits = .Subnormal ↔
      expField db W MB bits = 0 ∧ mant MB bits ≠ 0) ∧
    (classify db W MB bits = .Normal ↔
      expField db W MB bits ≠ 0 ∧
      expField db W MB bits ≠ 2 ^ expBitsF db W MB - 1) ∧
    (is_quiet_nan db W MB bits = true ↔
      expField db W MB bits = 2 ^ expBitsF db W MB - 1 ∧
      bits.testBit (MB - 1) = true) ∧
    (is_quiet_nan db W MB bits = true → classify db W MB bits = .Nan) ∧
    (is_signalling_nan db W MB bits = true ↔
      expField db W MB bits = 2 ^ expBitsF db W MB - 1 ∧
      bits.testBit (MB - 1) = false) := by
  have heb : 0 < expBitsF db W MB := by
    unfold expBitsF
    omega
  have hones : (2 : ℕ) ^ expBitsF db W MB - 1 ≠ 0 := by
    have h2 : (2 : ℕ) ≤ 2 ^ expBitsF db W MB := by
      calc (2 : ℕ) = 2 ^ 1 := rfl
        _ ≤ 2 ^ expBitsF db W MB := Nat.pow_le_pow_right (by norm_num) heb
    omega
  have hq : is_quiet_nan db W MB bits = true → mant MB bits ≠ 0 := by
    intro h
    have := (is_quiet_nan_iff db W MB bits hMB).1 h
    intro hm
    have hb : (mant MB bits).testBit (MB - 1) = false := by
      rw [hm]
      exact Nat.zero_testBit _
    rw [mant, Nat.testBit_mod_two_pow] at hb
    have hlt : MB - 1 < MB := by omega
    simp [hlt, this.2] at hb
  refine ⟨?_, ?_, ?_, ?_, ?_, is_quiet_nan_iff db W MB bits hMB, ?_,
    is_signalling_nan_iff db W MB bits hMB⟩ <;>
    rw [classify_eq db W MB bits hMB hexp]
  · split_ifs with h1 h2 h3 h4 <;> simp_all <;> omega
  · split_ifs with h1 h2 h3 h4 <;> simp_all <;> omega
  · split_ifs with h1 h2 h3 h4 <;> simp_all <;> omega
  · split_ifs with h1 h2 h3 h4 <;> simp_all <;> omega
  · split_ifs with h1 h2 h3 h4 <;> simp_all <;> omega
  · intro h
    obtain ⟨he, _⟩ := (is_quiet_nan_iff db W MB bits hMB).1 h
    have hm := hq h
    split_ifs with h1 h2 h3 h4 <;> simp_all <;> omega

/-- C7 counterexample: with 8-bit digits, `W = 1`, `MB = 3`, the
`+Infinity` bit pattern satisfies `is_signalling_nan` even though it is
not a NaN (`classify` returns `Infinite`), so the NaN predicates do not
hold only for NaN values. -/
theorem is_signalling_nan_holds_at_infinity :
    is_signalling_nan 8 1 3 (finiteMask 8 1 3) = true ∧
    classify 8 1 3 (finiteMask 8 1 3) = FpCategory.Infinite ∧
    classify 8 1 3 (finiteMask 8 1 3) ≠ FpCategory.Nan ∧
    mant 3 (finiteMask 8 1 3) = 0 := by decide

/-- Witness for `classify_and_nan_predicate_characterization` at the
canonical quiet NaN of the 8-bit float (`db = 8`, `W = 1`, `MB = 3`,
bits `124`). -/
theorem classify_and_nan_predicate_characterization_witness :
    classify 8 1 3 124 = FpCategory.Nan ∧ is_quiet_nan 8 1 3 124 = true :=
  ⟨(classify_and_nan_predicate_characterization 8 1 3 124 (by decide)
      (by decide)).2.2.2.2.2.2.1 (by decide), by decide⟩

/-- C6 (amended): `max`/`min` check `self` first and return the other
operand whenever either input is NaN (with both NaN the result is
`other`); `maximum`/`minimum` return the NaN operand itself when an input
is NaN (`self` checked first), and only for non-NaN operands return the
operand selected by `total_cmp`. -/
theorem max_min_nan_policies (db W MB a b : ℕ) :
    (is_nan db W MB a = true → fmax db W MB a b = b ∧ fmin db W MB a b = b) ∧
    (is_nan db W MB a = false → is_nan db W MB b = true →
      fmax db W MB a b = a ∧ fmin db W MB a b = a) ∧
    (is_nan db W MB a = true →
      fmaximum db W MB a b = a ∧ fminimum db W MB a b = a) ∧
    (is_nan db W MB a = false → is_nan db W MB b = true →
      fmaximum db W MB a b = b ∧ fminimum db W MB a b = b) ∧
    (is_nan db W MB a = false → is_nan db W MB b = false →
      fmaximum db W MB a b = (if total_cmp db W a b = .lt then b else a) ∧
      fminimum db W MB a b = (if total_cmp db W a b = .gt then b else a)) := by
  unfold fmax fmin fmaximum fminimum
  refine ⟨?_, ?_, ?_, ?_, ?_⟩ <;> intros <;> simp_all

/-- C6 counterexample: with 8-bit digits, `W = 1`, `MB = 3`: bit pattern
`252` is a negative NaN and `total_cmp 252 56 = lt` (so the operand
selected by `total_cmp` for the maximum is `56`), yet
`maximum 252 56 = 252`; likewise `124` is a NaN with
`total_cmp 124 56 = gt`, yet `minimum 124 56 = 124`. -/
theorem maximum_minimum_return_nan_operand :
    is_nan 8 1 3 252 = true ∧ total_cmp 8 1 252 56 = Ordering.lt ∧
    fmaximum 8 1 3 252 56 = 252 ∧ (252 : ℕ) ≠ 56 ∧
    is_nan 8 1 3 124 = true ∧ total_cmp 8 1 124 56 = Ordering.gt ∧
    fminimum 8 1 3 124 56 = 124 := by decide

/-- Witness for `max_min_nan_policies`: at `db = 8`, `W = 1`, `MB = 3`
with the quiet NaN `124` and the normal value `56`. -/
theorem max_min_nan_policies_witness :
    fmax 8 1 3 124 56 = 56 ∧ fmin 8 1 3 56 124 = 56 :=
  ⟨((max_min_nan_policies 8 1 3 124 56).1 (by decide)).1,
   ((max_min_nan_policies 8 1 3 56 124).2.1 (by decide) (by decide)).2⟩

/-! ### The float total order (C8) -/

theorem intCmp_eq_lt_iff (x y : ℤ) : intCmp x y = .lt ↔ x < y := by
  unfold intCmp
  split_ifs <;> simp_all <;> omega

theorem intCmp_eq_gt_iff (x y : ℤ) : intCmp x y = .gt ↔ y < x := by
  unfold intCmp
  split_ifs <;> simp_all <;> omega

theorem intCmp_eq_eq_iff (x y : ℤ) : intCmp x y = .eq ↔ x = y := by
  unfold intCmp
  split_ifs <;> simp_all <;> omega

theorem intCmp_swap (x y : ℤ) : (intCmp x y).swap = intCmp y x := by
  unfold intCmp
  split_ifs <;> simp_all [Ordering.swap] <;> omega

theorem intCmp_congr {x y z w : ℤ} (h1 : x < y ↔ z < w) (h2 : y < x ↔ w < z) :
    intCmp x y = intCmp z w := by
  unfold intCmp
  split_ifs <;> simp_all

/-- `total_cmp` compares the order keys. -/
theorem total_cmp_eq_key (db W a b : ℕ) (ha : a < 2 ^ fbw db W)
    (hb : b < 2 ^ fbw db W) :
    total_cmp db W a b = intCmp (orderKey (fbw db W) a) (orderKey (fbw db W) b) := by
  unfold total_cmp toSigned orderKey
  generalize hg : fbw db W = bw at ha hb ⊢
  have h1 : ((2 : ℕ) ^ (bw - 1) : ℤ) = (2 : ℤ) ^ (bw - 1) := by push_cast; ring
  have h2 : ((2 : ℕ) ^ bw : ℤ) = (2 : ℤ) ^ bw := by push_cast; ring
  have hle : (2 : ℤ) ^ (bw - 1) ≤ (2 : ℤ) ^ bw :=
    pow_le_pow_right (by norm_num) (by omega)
  have haz : (a : ℤ) < (2 : ℤ) ^ bw := by rw [← h2]; exact_mod_cast ha
  have hbz : (b : ℤ) < (2 : ℤ) ^ bw := by rw [← h2]; exact_mod_cast hb
  rcases Nat.lt_or_ge a (2 ^ (bw - 1)) with haH | haH <;>
    rcases Nat.lt_or_ge b (2 ^ (bw - 1)) with hbH | hbH
  · have haH2 : (a : ℤ) < (2 : ℤ) ^ (bw - 1) := by rw [← h1]; exact_mod_cast haH
    have hbH2 : (b : ℤ) < (2 : ℤ) ^ (bw - 1) := by rw [← h1]; exact_mod_cast hbH
    rw [if_pos haH, if_pos hbH, if_pos haH, if_pos hbH,
      if_neg (show ¬ ((a : ℤ) < 0 ∧ (b : ℤ) < 0) by rintro ⟨x, -⟩; omega)]
  · have haH2 : (a : ℤ) < (2 : ℤ) ^ (bw - 1) := by rw [← h1]; exact_mod_cast haH
    have hbH2 : (2 : ℤ) ^ (bw - 1) ≤ (b : ℤ) := by rw [← h1]; exact_mod_cast hbH
    rw [if_pos haH, if_neg (Nat.not_lt_of_ge hbH), if_pos haH,
      if_neg (Nat.not_lt_of_ge hbH),
      if_neg (show ¬ ((a : ℤ) < 0 ∧ (b : ℤ) - 2 ^ bw < 0) by rintro ⟨x, -⟩; omega)]
    apply intCmp_congr <;> constructor <;> intro h <;> omega
  · have haH2 : (2 : ℤ) ^ (bw - 1) ≤ (a : ℤ) := by rw [← h1]; exact_mod_cast haH
    have hbH2 : (b : ℤ) < (2 : ℤ) ^ (bw - 1) := by rw [← h1]; exact_mod_cast hbH
    rw [if_neg (Nat.not_lt_of_ge haH), if_pos hbH, if_neg (Nat.not_lt_of_ge haH),
      if_pos hbH,
      if_neg (show ¬ ((a : ℤ) - 2 ^ bw < 0 ∧ (b : ℤ) < 0) by rintro ⟨-, y⟩; omega)]
    apply intCmp_congr <;> constructor <;> intro h <;> omega
  · have haH2 : (2 : ℤ) ^ (bw - 1) ≤ (a : ℤ) := by rw [← h1]; exact_mod_cast haH
    have hbH2 : (2 : ℤ) ^ (bw - 1) ≤ (b : ℤ) := by rw [← h1]; exact_mod_cast hbH
    rw [if_neg (Nat.not_lt_of_ge haH), if_neg (Nat.not_lt_of_ge hbH),
      if_neg (Nat.not_lt_of_ge haH), if_neg (Nat.not_lt_of_ge hbH),
      if_pos (show (a : ℤ) - 2 ^ bw < 0 ∧ (b : ℤ) - 2 ^ bw < 0 from ⟨by omega, by omega⟩),
      intCmp_swap]
    apply intCmp_congr <;> constructor <;> intro h <;> omega

theorem orderKey_inj (bw a b : ℕ) (ha : a < 2 ^ bw) (hb : b < 2 ^ bw)
    (h : orderKey bw a = orderKey bw b) : a = b := by
  unfold orderKey at h
  have h1 : ((2 : ℕ) ^ (bw - 1) : ℤ) = (2 : ℤ) ^ (bw - 1) := by push_cast; ring
  rcases Nat.lt_or_ge a (2 ^ (bw - 1)) with haH | haH <;>
    rcases Nat.lt_or_ge b (2 ^ (bw - 1)) with hbH | hbH
  · rw [if_pos haH, if_pos hbH] at h
    exact_mod_cast h
  · rw [if_pos haH, if_neg (Nat.not_lt_of_ge hbH)] at h
    have haH2 : (a : ℤ) < (2 : ℤ) ^ (bw - 1) := by rw [← h1]; exact_mod_cast haH
    have hbH2 : (2 : ℤ) ^ (bw - 1) ≤ (b : ℤ) := by rw [← h1]; exact_mod_cast hbH
    omega
  · rw [if_neg (Nat.not_lt_of_ge haH), if_pos hbH] at h
    have haH2 : (2 : ℤ) ^ (bw - 1) ≤ (a : ℤ) := by rw [← h1]; exact_mod_cast haH
    have hbH2 : (b : ℤ) < (2 : ℤ) ^ (bw - 1) := by rw [← h1]; exact_mod_cast hbH
    omega
  · rw [if_neg (Nat.not_lt_of_ge haH), if_neg (Nat.not_lt_of_ge hbH)] at h
    have : (a : ℤ) = (b : ℤ) := by omega
    exact_mod_cast this

theorem words_zero_iff (db bits k : ℕ) :
    (∀ i, i < k → word db i bits = 0) ↔ bits % 2 ^ (db * k) = 0 := by
  induction k with
  | zero => simp [Nat.mod_one]
  | succ m ih =>
    have hdecomp : bits % 2 ^ (db * (m + 1)) =
        bits % 2 ^ (db * m) + 2 ^ (db * m) * word db m bits := by
      rw [Nat.mul_succ, pow_add, mod_mul_decomp]
      rfl
    constructor
    · intro h
      rw [hdecomp, ih.1 fun i hi => h i (by omega), h m (by omega)]
      simp
    · intro h
      rw [hdecomp] at h
      have h1 : bits % 2 ^ (db * m) = 0 := by omega
      have h2 : 2 ^ (db * m) * word db m bits = 0 := by omega
      have h3 : word db m bits = 0 := by
        rcases Nat.mul_eq_zero.1 h2 with hz | hz
        · exact absurd hz (Nat.pos_pow_of_pos _ (by norm_num)).ne'
        · exact hz
      intro i hi
      rcases Nat.lt_or_ge i m with him | him
      · exact ih.2 h1 i him
      · have : i = m := by omega
        rw [this]
        exact h3

/-- `is_zero` holds exactly when all bits below the sign bit are zero:
both `+0` and `-0` satisfy it, regardless of the sign bit. -/
theorem is_zero_iff (db W bits : ℕ) (hdb : 0 < db) (hW : 0 < W) :
    is_zero db W bits = true ↔ bits % 2 ^ (fbw db W - 1) = 0 := by
  unfold is_zero
  simp only [Bool.and_eq_true, decide_eq_true_eq]
  rw [words_zero_iff]
  have ht : (db - 1 ≤ tzW db (word db (W - 1) bits)) ↔
      word db (W - 1) bits % 2 ^ (db - 1) = 0 := by
    rw [← Nat.not_lt, tzW_lt_iff db _ (db - 1) (by omega)]
    exact not_not
  rw [ht]
  have hmul : db * W = db * (W - 1) + db := by
    have : W - 1 + 1 = W := by omega
    calc db * W = db * (W - 1 + 1) := by rw [this]
      _ = db * (W - 1) + db := by rw [Nat.mul_succ]
  have hsplit : fbw db W - 1 = db * (W - 1) + (db - 1) := by
    unfold fbw
    omega
  rw [hsplit, pow_add, mod_mul_decomp]
  have hword : bits / 2 ^ (db * (W - 1)) % 2 ^ (db - 1) =
      word db (W - 1) bits % 2 ^ (db - 1) := by
    unfold word
    rw [Nat.mod_mod_of_dvd _ (pow_dvd_pow 2 (by omega))]
  rw [hword]
  constructor
  · rintro ⟨h1, h2⟩
    rw [h1, h2, Nat.mul_zero, Nat.add_zero]
  · intro h
    have h1 : bits % 2 ^ (db * (W - 1)) = 0 := by omega
    have h2 : 2 ^ (db * (W - 1)) * (word db (W - 1) bits % 2 ^ (db - 1)) = 0 := by
      omega
    refine ⟨h1, ?_⟩
    rcases Nat.mul_eq_zero.1 h2 with hz | hz
    · exact absurd hz (Nat.pos_pow_of_pos _ (by norm_num)).ne'
    · exact hz

/-- C8: `eq`/`partial_cmp` return the NaN-absent sentinel whenever either
operand is NaN; for non-NaN operands ±0 compare equal regardless of the
sign bit and otherwise `partial_cmp` agrees with `total_cmp`; and
`total_cmp` — the signed comparison of the bit patterns, reversed when
both operands are negative — is a total order on all bit patterns:
reflexive, antisymmetric, transitive, with every pair comparable. -/
theorem float_cmp_contract (db W MB a b c : ℕ) (hdb : 0 < db) (hW : 0 < W)
    (ha : a < 2 ^ fbw db W) (hb : b < 2 ^ fbw db W) (hc : c < 2 ^ fbw db W) :
    (is_nan db W MB a = true ∨ is_nan db W MB b = true →
      feq db W MB a b = false ∧ fpartial_cmp db W MB a b = none) ∧
    (is_nan db W MB a = false → is_nan db W MB b = false →
      (is_zero db W a = true → is_zero db W b = true →
        feq db W MB a b = true ∧ fpartial_cmp db W MB a b = some .eq) ∧
      (¬ (is_zero db W a = true ∧ is_zero db W b = true) →
        fpartial_cmp db W MB a b = some (total_cmp db W a b))) ∧
    (is_zero db W a = true ↔ a % 2 ^ (fbw db W - 1) = 0) ∧
    (total_cmp db W a b =
      if toSigned (fbw db W) a < 0 ∧ toSigned (fbw db W) b < 0
      then (intCmp (toSigned (fbw db W) a) (toSigned (fbw db W) b)).swap
      else intCmp (toSigned (fbw db W) a) (toSigned (fbw db W) b)) ∧
    (total_cmp db W a a = .eq) ∧
    (total_cmp db W a b = .eq → a = b) ∧
    ((total_cmp db W a b).swap = total_cmp db W b a) ∧
    (total_cmp db W a b = .lt → total_cmp db W b c = .lt →
      total_cmp db W a c = .lt) ∧
    (total_cmp db W a b = .lt ∨ total_cmp db W a b = .eq ∨
      total_cmp db W a b = .gt) := by
  refine ⟨?_, ?_, is_zero_iff db W a hdb hW, rfl, ?_, ?_, ?_, ?_, ?_⟩
  · intro h
    unfold feq fpartial_cmp
    rcases h with h | h <;> simp [h]
  · intro hna hnb
    constructor
    · intro hza hzb
      unfold feq fpartial_cmp
      simp [hna, hnb, hza, hzb]
    · intro hz
      unfold fpartial_cmp
      rcases Decidable.em (is_zero db W a = true) with hza | hza <;>
        rcases Decidable.em (is_zero db W b = true) with hzb | hzb <;>
        simp_all
  · rw [total_cmp_eq_key db W a a ha ha, intCmp_eq_eq_iff]
  · intro h
    rw [total_cmp_eq_key db W a b ha hb, intCmp_eq_eq_iff] at h
    exact orderKey_inj _ a b ha hb h
  · rw [total_cmp_eq_key db W a b ha hb, total_cmp_eq_key db W b a hb ha,
      intCmp_swap]
  · intro h1 h2
    rw [total_cmp_eq_key db W a b ha hb, intCmp_eq_lt_iff] at h1
    rw [total_cmp_eq_key db W b c hb hc, intCmp_eq_lt_iff] at h2
    rw [total_cmp_eq_key db W a c ha hc, intCmp_eq_lt_iff]
    omega
  · cases ht : total_cmp db W a b
    · exact Or.inl rfl
    · exact Or.inr (Or.inl rfl)
    · exact Or.inr (Or.inr rfl)

/-- Witness for `float_cmp_contract` with the f64 bit layout (8-bit
digits, `W = 8`, `MB = 52`): `-0.0` (bit pattern `2^63`) and `+0.0`
compare equal. -/
theorem float_cmp_contract_witness :
    feq 8 8 52 (2 ^ 63) 0 = true ∧ total_cmp 8 8 (2 ^ 63) 0 = Ordering.lt :=
  ⟨(((float_cmp_contract 8 8 52 (2 ^ 63) 0 0 (by decide) (by decide)
      (by decide) (by decide) (by decide)).2.1 (by decide) (by decide)).1
      (by decide) (by decide)).1,
   by decide⟩


/-! ### BUint comparison correctness and C9 -/

theorem val_take_succ (db : ℕ) (a : List ℕ) (i : ℕ) (hi : i < a.length) :
    val db (a.take (i + 1)) = val db (a.take i) + a.getD i 0 * 2 ^ (db * i) := by
  rw [List.take_succ, List.getElem?_eq_getElem hi]
  unfold val
  rw [Option.toList_some, Nat.ofDigits_append, Nat.ofDigits_singleton,
    List.length_take, Nat.min_eq_left (Nat.le_of_lt hi),
    List.getD_eq_getElem _ _ hi, ← pow_mul]
  ring

theorem val_take_lt (db : ℕ) (a : List ℕ) (i : ℕ) (hdb : 0 < db)
    (ha : ∀ d ∈ a, d < 2 ^ db) (hi : i ≤ a.length) :
    val db (a.take i) < 2 ^ (db * i) := by
  have hb : 1 < 2 ^ db := Nat.one_lt_two_pow_iff.2 hdb.ne'
  have h1 := Nat.ofDigits_lt_base_pow_length (b := 2 ^ db) (l := a.take i) hb
    fun d hd => ha d (List.mem_of_mem_take hd)
  rw [List.length_take, Nat.min_eq_left hi, ← pow_mul] at h1
  exact h1

theorem cmpU_correct (db : ℕ) (a b : List ℕ) (i : ℕ) (hdb : 0 < db)
    (ha : ∀ d ∈ a, d < 2 ^ db) (hb : ∀ d ∈ b, d < 2 ^ db)
    (hia : i ≤ a.length) (hib : i ≤ b.length) :
    cmpU a b i = natCmp (val db (a.take i)) (val db (b.take i)) := by
  induction i with
  | zero => simp [cmpU, natCmp, val]
  | succ j ih =>
    rw [cmpU, val_take_succ db a j (by omega), val_take_succ db b j (by omega)]
    have hla := val_take_lt db a j hdb ha (by omega)
    have hlb := val_take_lt db b j hdb hb (by omega)
    rcases Nat.lt_trichotomy (a.getD j 0) (b.getD j 0) with hd | hd | hd
    · rw [if_neg (by omega), if_pos hd]
      have hmul : (a.getD j 0 + 1) * 2 ^ (db * j) ≤ b.getD j 0 * 2 ^ (db * j) :=
        Nat.mul_le_mul_right _ (by omega)
      unfold natCmp
      rw [if_pos (by nlinarith)]
    · rw [if_neg (by omega), if_neg (by omega), ih (by omega) (by omega), hd]
      unfold natCmp
      have hiff1 : (val db (a.take j) < val db (b.take j)) ↔
          (val db (a.take j) + b.getD j 0 * 2 ^ (db * j) <
            val db (b.take j) + b.getD j 0 * 2 ^ (db * j)) := by omega
      split_ifs with p1 p2 p3 p4 p5 <;> first | rfl | omega
    · rw [if_pos hd]
      have hmul : (b.getD j 0 + 1) * 2 ^ (db * j) ≤ a.getD j 0 * 2 ^ (db * j) :=
        Nat.mul_le_mul_right _ (by omega)
      unfold natCmp
      rw [if_neg (by nlinarith), if_pos (by nlinarith)]

/-- `Ord::cmp for BUint` compares the values. -/
theorem cmp_correct (db N : ℕ) (a b : List ℕ) (hdb : 0 < db)
    (ha : Valid db N a) (hb : Valid db N b) :
    BUint.cmp N a b = natCmp (val db a) (val db b) := by
  have h := cmpU_correct db a b N hdb ha.2 hb.2 (by rw [ha.1]) (by rw [hb.1])
  have h2 : a.take N = a := by rw [← ha.1]; exact List.take_length a
  have h3 : b.take N = b := by rw [← hb.1]; exact List.take_length b
  rw [BUint.cmp, h, h2, h3]

theorem natCmp_eq_lt_iff (x y : ℕ) : natCmp x y = .lt ↔ x < y := by
  unfold natCmp
  split_ifs <;> simp_all <;> omega

theorem natCmp_eq_gt_iff (x y : ℕ) : natCmp x y = .gt ↔ y < x := by
  unfold natCmp
  split_ifs <;> simp_all <;> omega

/-- If `min <= max` holds for floats then `min > max` is false. -/
theorem fle_imp_not_fgt (db W MB a b : ℕ) (h : fle db W MB a b = true) :
    fgt db W MB a b = false := by
  unfold fle at h
  unfold fgt
  rw [decide_eq_true_eq] at h
  rcases h with h | h <;> simp [h]

/-- C9: `clamp` panics whenever `min > max` under the type's ordering
(never swapping the bounds), and with `min <= max` returns `min` when
`self < min`, `max` when `self > max`, and `self` otherwise — for both the
BUint `clamp` (value ordering) and the Float `clamp` (partial ordering). -/
theorem clamp_contracts (db N : ℕ) (a mn mx : List ℕ) (W MB x fmn fmx : ℕ)
    (hdb : 0 < db) (ha : Valid db N a) (hmn : Valid db N mn)
    (hmx : Valid db N mx) :
    (val db mx < val db mn → BUint.clamp N a mn mx = PRes.halt) ∧
    (val db mn ≤ val db mx →
      BUint.clamp N a mn mx =
        PRes.ret (if val db a < val db mn then mn
                  else if val db mx < val db a then mx else a)) ∧
    (fgt db W MB fmn fmx = true → fclamp db W MB x fmn fmx = PRes.halt) ∧
    (fle db W MB fmn fmx = true →
      fclamp db W MB x fmn fmx =
        PRes.ret (if flt db W MB x fmn = true then fmn
                  else if fgt db W MB x fmx = true then fmx else x)) := by
  have hcmn := cmp_correct db N mn mx hdb hmn hmx
  have hcamn := cmp_correct db N a mn hdb ha hmn
  have hcamx := cmp_correct db N a mx hdb ha hmx
  refine ⟨?_, ?_, ?_, ?_⟩
  · intro h
    have hle : BUint.le N mn mx = false := by
      unfold BUint.le
      rw [hcmn]
      simp [natCmp_eq_gt_iff, h]
    simp [BUint.clamp, hle]
  · intro h
    have hle : BUint.le N mn mx = true := by
      unfold BUint.le
      rw [hcmn]
      simp [natCmp_eq_gt_iff]
      omega
    simp only [BUint.clamp, hle, if_true]
    rw [hcamn, hcamx]
    have e1 : (natCmp (val db a) (val db mn) = Ordering.lt) =
        (val db a < val db mn) := by
      rw [natCmp_eq_lt_iff]
    have e2 : (natCmp (val db a) (val db mx) = Ordering.gt) =
        (val db mx < val db a) := by
      rw [natCmp_eq_gt_iff]
    simp only [e1, e2]
  · intro h
    have hfle : fle db W MB fmn fmx = false := by
      unfold fgt at h
      rw [decide_eq_true_eq] at h
      unfold fle
      simp [h]
    simp [fclamp, hfle]
  · intro h
    have hgtf : fgt db W MB fmn fmx = false := fle_imp_not_fgt db W MB fmn fmx h
    rcases hflt : flt db W MB x fmn <;>
      simp [fclamp, h, hflt, hgtf]

/-- Witness for `clamp_contracts`: with 8-bit digits, `N = 1`,
`clamp([5], min = [10], max = [3])` panics, `clamp([5], [1], [7])` returns
`[5]`; and for the 8-bit float, `clamp(56, 0, 56) = 56`. -/
theorem clamp_contracts_witness :
    BUint.clamp 1 [5] [10] [3] = PRes.halt ∧
    BUint.clamp 1 [5] [1] [7] = PRes.ret [5] ∧
    fclamp 8 1 3 56 0 56 = PRes.ret 56 := by
  have h1 := (clamp_contracts 8 1 [5] [10] [3] 1 3 56 0 56 (by decide)
    (by decide) (by decide) (by decide)).1 (by decide)
  have h2 := (clamp_contracts 8 1 [5] [1] [7] 1 3 56 0 56 (by decide)
    (by decide) (by decide) (by decide)).2.1 (by decide)
  have h3 := (clamp_contracts 8 1 [5] [1] [7] 1 3 56 0 56 (by decide)
    (by decide) (by decide) (by decide)).2.2.2 (by decide)
  refine ⟨h1, ?_, ?_⟩
  · rw [h2]
    decide
  · rw [h3]
    decide

/-! ### Claim theorems: C3, C4 -/

/-- C4: the claim requires `from_str_radix` to report `Overflow` on values
that do not fit and never to panic for an in-range radix.  The `Empty`,
`+`-prefix and `InvalidDigit` behaviors hold (sampled below), but for the
inexact radices 8/32 the code violates the overflow clause: once `index`
reaches `N` with a zero pending digit, `dbits` is not reduced
(src/buint/radix.rs:110-113), so the next `byte << dbits` is an
overflowing shift — a panic in a debug build (release builds mask the
amount and can return `Ok(0)` for a value of magnitude `2^32`).
`"40000000000"` in radix 8 with one 8-bit digit hits that state. -/
theorem from_str_radix_shift_overflow_panics :
    from_str_radix 8 1 [52, 48, 48, 48, 48, 48, 48, 48, 48, 48, 48] 8 = PRes.halt ∧
    from_str_radix 8 1 [] 10 = PRes.ret (.error .Empty) ∧
    from_str_radix 8 1 [43] 10 = PRes.ret (.error .Empty) ∧
    from_str_radix 8 1 [43, 57] 10 = PRes.ret (.ok [9]) ∧
    from_str_radix 8 1 [57, 58] 10 = PRes.ret (.error .InvalidDigit) ∧
    from_str_radix 8 1 [51, 48, 48] 10 = PRes.ret (.error .PosOverflow) := by
  decide

/-- C3 counterexample: `FromStr::from_str` is not the radix-10
specialization of `from_str_radix`: on `"+0"` it reports `InvalidDigit`
where `from_str_radix` accepts the sign and returns 0, and on the empty
string it panics (out-of-bounds index) where `from_str_radix` reports
`Empty`. -/
theorem from_str_differs_from_radix_ten :
    BUint.from_str 8 1 [43, 48] = PRes.ret (.error .InvalidDigit) ∧
    from_str_radix 8 1 [43, 48] 10 = PRes.ret (.ok [0]) ∧
    BUint.from_str 8 1 [43, 48] ≠ from_str_radix 8 1 [43, 48] 10 ∧
    BUint.from_str 8 1 [] = PRes.halt ∧
    from_str_radix 8 1 [] 10 = PRes.ret (.error .Empty) := by
  decide

theorem radixBaseLoop_power_le (db radixD : ℕ) (fuel base power : ℕ) :
    power ≤ (radixBaseLoop db radixD fuel base power).2 := by
  induction fuel generalizing base power with
  | zero => exact Nat.le_refl _
  | succ f ih =>
    rw [radixBaseLoop]
    split_ifs
    · exact Nat.le_trans (Nat.le_succ _) (ih _ _)
    · exact Nat.le_refl _

theorem radix_base_power_pos (db radix : ℕ) : 1 ≤ (radix_base db radix).2 :=
  radixBaseLoop_power_le db _ db _ 1

/-- C3 (amended): for every nonempty input without a leading `+`,
`from_str` returns exactly `from_str_radix(src, 10)` — same value, same
error kind.  (On a leading `+` it instead reports `InvalidDigit`, and on
empty input it panics; see the counterexample.) -/
theorem from_str_eq_from_str_radix_ten (db N : ℕ) (src : List ℕ)
    (hdb : 8 ≤ db) (hne : src ≠ []) (hplus : src.head? ≠ some 43) :
    BUint.from_str db N src = from_str_radix db N src 10 := by
  have h256 : 10 < 2 ^ db := by
    calc 10 < 2 ^ 8 := by norm_num
      _ ≤ 2 ^ db := Nat.pow_le_pow_right (by norm_num) hdb
  have h10db : 10 % 2 ^ db = 10 := Nat.mod_eq_of_lt h256
  unfold BUint.from_str from_str_radix from_radix_digits_be
  rw [if_neg (by omega : ¬ ((10 : ℕ) < 2 ∨ 36 < 10)), if_neg hplus, if_neg hne,
    if_neg (by omega : ¬ ((10 : ℕ) = 2 ∨ 10 = 4 ∨ 10 = 16)),
    if_neg (by omega : ¬ ((10 : ℕ) = 8 ∨ 10 = 32)), h10db]
  rcases hval : src.any (fun byte => 10 ≤ byte_to_digit byte)
  · have hle : (if src.length % (radix_base db 10).2 = 0
        then (radix_base db 10).2 else src.length % (radix_base db 10).2) ≤
        src.length := by
      have hpow := radix_base_power_pos db 10
      split_ifs with hz
      · have hdvd : (radix_base db 10).2 ∣ src.length := Nat.dvd_of_mod_eq_zero hz
        have hlen : 0 < src.length := List.length_pos.2 hne
        exact Nat.le_of_dvd hlen hdvd
      · exact Nat.mod_le _ _
    have hnlt : ¬ (src.length < if src.length % (radix_base db 10).2 = 0
        then (radix_base db 10).2 else src.length % (radix_base db 10).2) :=
      Nat.not_lt_of_ge hle
    simp only [hval, Bool.false_eq_true, if_false, if_neg hnlt, List.foldl_map]
  · simp only [hval, if_true]

/-- Witness for `from_str_eq_from_str_radix_ten` at the one-byte input
`"5"` with 8-bit digits, `N = 1`. -/
theorem from_str_eq_from_str_radix_ten_witness :
    BUint.from_str 8 1 [53] = from_str_radix 8 1 [53] 10 :=
  from_str_eq_from_str_radix_ten 8 1 [53] (by decide) (by decide) (by decide)


/-! ### Round-trip infrastructure (C2): canonical digit lists -/

theorem ofDigits_replicate_zero (B k : ℕ) :
    Nat.ofDigits B (List.replicate k 0) = 0 := by
  induction k with
  | zero => rfl
  | succ m ih => rw [List.replicate_succ, Nat.ofDigits_cons, ih]; ring

theorem ofDigits_append_zeros (B : ℕ) (l : List ℕ) (k : ℕ) :
    Nat.ofDigits B (l ++ List.replicate k 0) = Nat.ofDigits B l := by
  rw [Nat.ofDigits_append, ofDigits_replicate_zero]
  ring

/-- Any list is its trailing-zero-stripped form plus trailing zeros. -/
theorem strip_decomp (l : List ℕ) :
    ∃ t, l = stripTrailingZeros l ++ List.replicate t 0 := by
  refine ⟨(l.reverse.takeWhile (fun x => x = 0)).length, ?_⟩
  unfold stripTrailingZeros
  have h1 : l.reverse.takeWhile (fun x => x = 0) =
      List.replicate (l.reverse.takeWhile (fun x => x = 0)).length 0 := by
    apply List.eq_replicate_of_mem
    intro x hx
    have := List.mem_takeWhile_imp hx
    simpa using this
  conv_lhs => rw [← List.reverse_reverse l,
    ← List.takeWhile_append_dropWhile (fun x => x = 0) l.reverse]
  rw [List.reverse_append, h1, List.reverse_replicate]
  simp

theorem ofDigits_strip (B : ℕ) (l : List ℕ) :
    Nat.ofDigits B (stripTrailingZeros l) = Nat.ofDigits B l := by
  obtain ⟨t, ht⟩ := strip_decomp l
  conv_rhs => rw [ht]
  rw [ofDigits_append_zeros]

theorem strip_mem (l : List ℕ) (x : ℕ) (hx : x ∈ stripTrailingZeros l) : x ∈ l := by
  obtain ⟨t, ht⟩ := strip_decomp l
  rw [ht]
  exact List.mem_append_left _ hx

theorem strip_getLast_ne_zero (l : List ℕ) (h : stripTrailingZeros l ≠ []) :
    (stripTrailingZeros l).getLast h ≠ 0 := by
  unfold stripTrailingZeros at *
  have hne : l.reverse.dropWhile (fun x => x = 0) ≠ [] := by
    intro hc
    rw [hc] at h
    exact h rfl
  rw [List.getLast_reverse (l := l.reverse.dropWhile (fun x => x = 0)) h]
  have := List.head_dropWhile_not (fun x => x = 0) l.reverse hne
  intro hc
  rw [hc] at this
  simp at this

/-- A digit list with digits below the base canonicalizes, after trailing
zeros are stripped, to `Nat.digits` of its value. -/
theorem strip_eq_digits (B : ℕ) (hB : 1 < B) (l : List ℕ)
    (hl : ∀ d ∈ l, d < B) :
    stripTrailingZeros l = Nat.digits B (Nat.ofDigits B l) := by
  rw [← ofDigits_strip B l]
  exact (Nat.digits_ofDigits B hB _
    (fun d hd => hl d (strip_mem l d hd)) (strip_getLast_ne_zero l)).symm

/-- A digit list with digits below the base and a nonzero top digit is
exactly `Nat.digits` of its value. -/
theorem canonical_eq_digits (B : ℕ) (hB : 1 < B) (l : List ℕ)
    (hl : ∀ d ∈ l, d < B) (hLast : ∀ h : l ≠ [], l.getLast h ≠ 0) :
    l = Nat.digits B (Nat.ofDigits B l) :=
  (Nat.digits_ofDigits B hB l hl hLast).symm

/-- Two valid digit arrays with the same value are equal. -/
theorem val_inj (db N : ℕ) (a b : List ℕ) (hdb : 0 < db) (ha : Valid db N a)
    (hb : Valid db N b) (h : val db a = val db b) : a = b := by
  rw [← ofNat_val db N a hdb ha, ← ofNat_val db N b hdb hb, h]

theorem ofNat_zero (db N : ℕ) : ofNat db N 0 = zeroU N := by
  unfold ofNat zeroU
  rw [List.eq_replicate_of_mem (l := (List.range N).map
    fun i => 0 / 2 ^ (db * i) % 2 ^ db) ?_]
  · rw [List.length_map, List.length_range]
  · intro x hx
    simp only [List.mem_map] at hx
    obtain ⟨i, -, rfl⟩ := hx
    simp

theorem zeroU_valid (db N : ℕ) : Valid db N (zeroU N) := by
  refine ⟨List.length_replicate _ _, fun d hd => ?_⟩
  rw [List.eq_of_mem_replicate hd]
  exact Nat.pos_pow_of_pos db (by norm_num)

theorem val_zeroU (db N : ℕ) : val db (zeroU N) = 0 := ofDigits_replicate_zero _ _

theorem lastDigitIndexAux_all_zero (l : List ℕ) (i best : ℕ)
    (h : ∀ d ∈ l, d = 0) : lastDigitIndexAux l i best = best := by
  induction l generalizing i best with
  | nil => rfl
  | cons d t ih =>
    rw [lastDigitIndexAux]
    have hd : d = 0 := h d (List.mem_cons_self _ _)
    rw [if_neg (by simp [hd])]
    exact ih (i + 1) best fun x hx => h x (List.mem_cons_of_mem _ hx)

theorem lastDigitIndexAux_spec (l : List ℕ) (hnz : ∃ d ∈ l, d ≠ 0) :
    ∀ i best, ∃ j, j < l.length ∧ l.getD j 0 ≠ 0 ∧
      lastDigitIndexAux l i best = i + j ∧
      ∀ j2, j < j2 → j2 < l.length → l.getD j2 0 = 0 := by
  induction l with
  | nil => simp at hnz
  | cons d t ih =>
    intro i best
    rcases Decidable.em (∃ x ∈ t, x ≠ 0) with ht | ht
    · obtain ⟨j, hj1, hj2, hj3, hj4⟩ := ih ht (i + 1) (if d ≠ 0 then i else best)
      refine ⟨j + 1, by simpa using hj1, by simpa using hj2, ?_, ?_⟩
      · rw [lastDigitIndexAux, hj3]
        omega
      · intro j2 hgt hlt
        match j2, hgt with
        | j2 + 1, hgt =>
          have := hj4 j2 (by omega) (by simpa using hlt)
          simpa using this
    · push_neg at ht
      obtain ⟨x, hx, hxne⟩ := hnz
      have hd : d ≠ 0 := by
        rcases List.mem_cons.1 hx with rfl | hmem
        · exact hxne
        · exact absurd (ht x hmem) hxne
      refine ⟨0, by simp, by simpa using hd, ?_, ?_⟩
      · rw [lastDigitIndexAux, if_pos (by simpa using hd),
          lastDigitIndexAux_all_zero t _ _ ht]
        omega
      · intro j2 hgt hlt
        match j2, hgt with
        | j2 + 1, _ =>
          simp only [List.length_cons] at hlt
          have hj2 : j2 < t.length := by omega
          have hmem : t.getD j2 0 ∈ t := by
            rw [List.getD_eq_getElem _ _ hj2]
            exact List.getElem_mem _
          simpa using ht _ hmem

theorem last_digit_index_lt (l : List ℕ) (h : l ≠ []) :
    last_digit_index l < l.length := by
  rcases Decidable.em (∃ d ∈ l, d ≠ 0) with hnz | hz
  · obtain ⟨j, hj1, -, hj3, -⟩ := lastDigitIndexAux_spec l hnz 0 0
    rw [last_digit_index, hj3]
    omega
  · push_neg at hz
    rw [last_digit_index, lastDigitIndexAux_all_zero l 0 0 hz]
    exact List.length_pos.2 h

theorem last_digit_index_getD (l : List ℕ) (hnz : ∃ d ∈ l, d ≠ 0) :
    l.getD (last_digit_index l) 0 ≠ 0 ∧
    ∀ j, last_digit_index l < j → j < l.length → l.getD j 0 = 0 := by
  obtain ⟨j, hj1, hj2, hj3, hj4⟩ := lastDigitIndexAux_spec l hnz 0 0
  rw [last_digit_index, hj3]
  exact ⟨by simpa using hj2, by simpa using hj4⟩

theorem val_eq_val_take (db m : ℕ) (l : List ℕ)
    (h : ∀ j, m ≤ j → j < l.length → l.getD j 0 = 0) :
    val db l = val db (l.take m) := by
  conv_lhs => rw [← List.take_append_drop m l]
  unfold val
  rw [Nat.ofDigits_append]
  have hz : ∀ d ∈ l.drop m, d = 0 := by
    intro d hd
    obtain ⟨j, hj, rfl⟩ := List.getElem_of_mem hd
    rw [List.getElem_drop]
    rw [List.length_drop] at hj
    have := h (m + j) (by omega) (by omega)
    rw [List.getD_eq_getElem _ _ (by omega)] at this
    exact this
  rw [List.eq_replicate_of_mem hz, ofDigits_replicate_zero]
  ring

/-- Value decomposition at the last digit index. -/
theorem val_ldi_decomp (db : ℕ) (l : List ℕ) (hnz : ∃ d ∈ l, d ≠ 0) :
    val db l = val db (l.take (last_digit_index l)) +
      l.getD (last_digit_index l) 0 * 2 ^ (db * last_digit_index l) := by
  have hlt : last_digit_index l < l.length :=
    last_digit_index_lt l (by rintro rfl; simp at hnz)
  have h2 := (last_digit_index_getD l hnz).2
  rw [val_eq_val_take db (last_digit_index l + 1) l
    (fun j hj hj2 => h2 j (by omega) hj2), val_take_succ db l _ hlt]

theorem chunksGo_join {α : Type} (k : ℕ) (hk : 0 < k) :
    ∀ fuel (l : List α), l.length ≤ fuel → (chunksGo k fuel l).flatten = l := by
  intro fuel
  induction fuel with
  | zero =>
    intro l hl
    have h0 : l = [] := List.length_eq_zero.1 (by omega)
    subst h0
    rfl
  | succ f ih =>
    intro l hl
    match l with
    | [] => rfl
    | x :: t =>
      show (List.take k (x :: t) :: chunksGo k f (List.drop k (x :: t))).flatten
        = x :: t
      rw [List.flatten_cons, ih ((x :: t).drop k) (by
        rw [List.length_drop]
        simp only [List.length_cons] at hl ⊢
        omega), List.take_append_drop]

theorem chunksList_join {α : Type} (k : ℕ) (hk : 0 < k) (l : List α) :
    (chunksList k l).flatten = l :=
  chunksGo_join k hk l.length l (Nat.le_refl _)

theorem chunksGo_mem_length {α : Type} (k : ℕ) :
    ∀ fuel (l : List α) ch, ch ∈ chunksGo k fuel l → ch.length ≤ k := by
  intro fuel
  induction fuel with
  | zero =>
    intro l ch h
    simp only [chunksGo] at h
    cases h
  | succ f ih =>
    intro l ch h
    match l with
    | [] => cases h
    | x :: t =>
      have h2 : ch ∈ List.take k (x :: t) :: chunksGo k f (List.drop k (x :: t)) := h
      rcases List.mem_cons.1 h2 with rfl | h3
      · rw [List.length_take]
        omega
      · exact ih _ ch h3

theorem chunksList_mem_length {α : Type} (k : ℕ) (l : List α) (ch : List α)
    (h : ch ∈ chunksList k l) : ch.length ≤ k :=
  chunksGo_mem_length k l.length l ch h

theorem chunksGo_mem_length_dvd {α : Type} (k : ℕ) (hk : 0 < k) :
    ∀ fuel (l : List α) ch, k ∣ l.length → l.length ≤ fuel →
      ch ∈ chunksGo k fuel l → ch.length = k := by
  intro fuel
  induction fuel with
  | zero =>
    intro l ch _ _ h
    simp only [chunksGo] at h
    cases h
  | succ f ih =>
    intro l ch hdvd hle h
    match l with
    | [] => cases h
    | x :: t =>
      have hklen : k ≤ (x :: t).length := by
        rcases hdvd with ⟨m, hm⟩
        match m, hm with
        | 0, hm => simp at hm
        | m + 1, hm =>
          rw [hm]
          exact Nat.le_mul_of_pos_right k (by omega)
      have h2 : ch ∈ List.take k (x :: t) :: chunksGo k f (List.drop k (x :: t)) := h
      rcases List.mem_cons.1 h2 with rfl | h3
      · rw [List.length_take]
        omega
      · refine ih _ ch ?_ ?_ h3
        · rw [List.length_drop]
          rcases hdvd with ⟨m, hm⟩
          refine ⟨m - 1, ?_⟩
          match m, hm with
          | 0, hm => simp at hm
          | m + 1, hm =>
            rw [Nat.mul_succ] at hm
            simp only [Nat.add_sub_cancel]
            omega
        · rw [List.length_drop]
          simp only [List.length_cons] at hle ⊢
          omega

theorem chunksList_mem_length_dvd {α : Type} (k : ℕ) (hk : 0 < k) (l : List α)
    (ch : List α) (hdvd : k ∣ l.length) (h : ch ∈ chunksList k l) :
    ch.length = k :=
  chunksGo_mem_length_dvd k hk l.length l ch hdvd (Nat.le_refl _) h

theorem chunksGo_map {α β : Type} (k : ℕ) (f : α → β) :
    ∀ fuel (l : List α),
      chunksGo k fuel (l.map f) = (chunksGo k fuel l).map (List.map f) := by
  intro fuel
  induction fuel with
  | zero => intro l; simp [chunksGo]
  | succ g ih =>
    intro l
    match l with
    | [] => rfl
    | x :: t =>
      show ((x :: t).map f).take k :: chunksGo k g (((x :: t).map f).drop k) =
        (List.take k (x :: t) :: chunksGo k g (List.drop k (x :: t))).map
          (List.map f)
      rw [← List.map_take, ← List.map_drop, ih]
      rfl

theorem chunksList_map {α β : Type} (k : ℕ) (f : α → β) (l : List α) :
    chunksList k (l.map f) = (chunksList k l).map (List.map f) := by
  unfold chunksList
  rw [List.length_map, chunksGo_map]

theorem rchunksList_reverse {α : Type} (k : ℕ) (l : List α) :
    rchunksList k l.reverse = (chunksList k l).map List.reverse := by
  unfold rchunksList
  rw [List.reverse_reverse]

theorem rchunksList_map {α β : Type} (k : ℕ) (f : α → β) (l : List α) :
    rchunksList k (l.map f) = (rchunksList k l).map (List.map f) := by
  unfold rchunksList
  rw [← List.map_reverse, chunksList_map, List.map_map, List.map_map]
  refine List.map_congr_left fun ch _ => ?_
  simp [List.map_reverse]

theorem rchunksList_map_reverse_flatten {α : Type} (k : ℕ) (hk : 0 < k)
    (l : List α) : ((rchunksList k l).map List.reverse).flatten = l.reverse := by
  unfold rchunksList
  rw [List.map_map]
  have h : (List.reverse ∘ List.reverse : List α → List α) = id := by
    funext x
    simp
  rw [h, List.map_id, chunksList_join k hk]

theorem chunks_mem_mem {α : Type} (k : ℕ) (hk : 0 < k) (l : List α)
    (ch : List α) (h : ch ∈ chunksList k l) (x : α) (hx : x ∈ ch) : x ∈ l := by
  rw [← chunksList_join k hk l]
  exact List.mem_flatten.2 ⟨ch, h, hx⟩

/-- Digits of `x + B^p · y` are the padded digits of `x` followed by the
digits of `y`. -/
theorem digits_pad_append (B x y p : ℕ) (hB : 1 < B) (hx : x < B ^ p)
    (hy : 0 < y) :
    Nat.digits B (x + B ^ p * y) =
      (Nat.digits B x ++ List.replicate (p - (Nat.digits B x).length) 0) ++
        Nat.digits B y := by
  have hlen : (Nat.digits B x).length ≤ p := digits_len_le_of_lt_pow hB hx
  have h := Nat.digits_append_zeroes_append_digits
    (b := B) (k := p - (Nat.digits B x).length) (m := y) (n := x) hB hy
  rw [Nat.add_sub_cancel' hlen] at h
  rw [← h, List.append_assoc]

/-- `pushRemDigits` produces the base-`radix` digits of `x` padded with
zeros to exactly `p` entries. -/
theorem pushRemDigits_spec (radixD p x : ℕ) (hr : 2 ≤ radixD)
    (hr2 : radixD ≤ 256) (hx : x < radixD ^ p) :
    pushRemDigits radixD p x =
      Nat.digits radixD x ++
        List.replicate (p - (Nat.digits radixD x).length) 0 := by
  induction p generalizing x with
  | zero =>
    have : x = 0 := by
      have := hx
      simp only [pow_zero] at this
      omega
    subst this
    simp [pushRemDigits]
  | succ q ih =>
    rw [pushRemDigits]
    rcases Nat.eq_zero_or_pos x with rfl | hpos
    · have h0 : (0 : ℕ) % radixD % 256 = 0 := by
        simp
      rw [h0, Nat.zero_div, ih 0 (Nat.pos_pow_of_pos _ (by omega)),
        Nat.digits_zero]
      simp [List.replicate_succ]
    · have hmod : x % radixD % 256 = x % radixD :=
        Nat.mod_eq_of_lt (lt_of_lt_of_le (Nat.mod_lt _ (by omega)) hr2)
      rw [hmod, Nat.digits_def' hr hpos, ih (x / radixD) (by
        rw [pow_succ] at hx
        exact Nat.div_lt_of_lt_mul (by
          calc x < radixD ^ q * radixD := hx
            _ = radixD * radixD ^ q := by ring))]
      simp only [List.length_cons, List.cons_append, Nat.succ_sub_succ]

theorem pushRemDigits_value (radixD p x : ℕ) (hr : 2 ≤ radixD)
    (hr2 : radixD ≤ 256) (hx : x < radixD ^ p) :
    Nat.ofDigits radixD (pushRemDigits radixD p x) = x := by
  rw [pushRemDigits_spec radixD p x hr hr2 hx, ofDigits_append_zeros,
    Nat.ofDigits_digits]

theorem pushRemDigits_length (radixD p x : ℕ) : (pushRemDigits radixD p x).length = p := by
  induction p generalizing x with
  | zero => rfl
  | succ q ih =>
    rw [pushRemDigits, List.length_cons, ih]

theorem pushRemDigits_lt (radixD p x : ℕ) (hr : 2 ≤ radixD) (hr2 : radixD ≤ 256) :
    ∀ d ∈ pushRemDigits radixD p x, d < radixD := by
  induction p generalizing x with
  | zero => intro d hd; cases hd
  | succ q ih =>
    intro d hd
    rw [pushRemDigits] at hd
    rcases List.mem_cons.1 hd with rfl | hd
    · exact lt_of_le_of_lt (Nat.mod_le _ _) (Nat.mod_lt _ (by omega))
    · exact ih _ d hd

/-- The drain loop is exactly `Nat.digits` when the fuel covers the digit
count. -/
theorem drainRadix_eq_digits (radixD : ℕ) (hr : 2 ≤ radixD) (hr2 : radixD ≤ 256) :
    ∀ fuel x, (Nat.digits radixD x).length ≤ fuel →
      drainRadix radixD fuel x = Nat.digits radixD x := by
  intro fuel
  induction fuel with
  | zero =>
    intro x hx
    have : Nat.digits radixD x = [] := List.length_eq_zero.1 (by omega)
    rw [drainRadix, this]
  | succ f ih =>
    intro x hx
    rcases Nat.eq_zero_or_pos x with rfl | hpos
    · rw [drainRadix, if_pos rfl, Nat.digits_zero]
    · rw [drainRadix, if_neg (by omega), Nat.digits_def' hr hpos]
      have hmod : x % radixD % 256 = x % radixD :=
        Nat.mod_eq_of_lt (lt_of_lt_of_le (Nat.mod_lt _ (by omega)) hr2)
      rw [hmod, ih (x / radixD) (by
        rw [Nat.digits_def' hr hpos, List.length_cons] at hx
        omega)]

theorem toBitwisePushes_eq (b p d : ℕ) :
    toBitwisePushes b (2 ^ b - 1) p d = pushRemDigits (2 ^ b) p d := by
  induction p generalizing d with
  | zero => rfl
  | succ q ih =>
    rw [toBitwisePushes, pushRemDigits, Nat.and_pow_two_sub_one_eq_mod,
      Nat.shiftRight_eq_div_pow, ih]

theorem drainDigit_eq (b : ℕ) :
    ∀ fuel r, drainDigit b (2 ^ b - 1) fuel r = drainRadix (2 ^ b) fuel r := by
  intro fuel
  induction fuel with
  | zero => intro r; rfl
  | succ f ih =>
    intro r
    rw [drainDigit, drainRadix, Nat.and_pow_two_sub_one_eq_mod,
      Nat.shiftRight_eq_div_pow, ih]


/-- Disjoint `or` is addition: the low `k` bits come from `y`, the rest
from `x`. -/
theorem lor_two_pow_mul (k x y : ℕ) (hy : y < 2 ^ k) :
    (2 ^ k * x) ||| y = 2 ^ k * x + y := by
  apply Nat.eq_of_testBit_eq
  intro i
  have h0 : (0 : ℕ) < 2 ^ k := Nat.pos_pow_of_pos _ (by norm_num)
  have hL := Nat.testBit_mul_pow_two_add x h0 i
  rw [Nat.add_zero] at hL
  rw [Nat.testBit_lor, hL, Nat.testBit_mul_pow_two_add x hy i]
  rcases Nat.lt_or_ge i k with hi | hi
  · simp [hi, Nat.zero_testBit]
  · rw [if_neg (by omega), if_neg (by omega), Nat.testBit_lt_two_pow
      (lt_of_lt_of_le hy (Nat.pow_le_pow_right (by norm_num) hi))]
    simp

/-- Splitting `P + 2^t·c` at bit `m`: decomposition identity. -/
theorem add_pow_mul_split (P c t m : ℕ) (ht : t ≤ m) :
    P + 2 ^ t * c =
      (P + 2 ^ t * (c % 2 ^ (m - t))) + 2 ^ m * (c / 2 ^ (m - t)) := by
  conv_lhs => rw [← Nat.mod_add_div c (2 ^ (m - t))]
  rw [Nat.mul_add, ← Nat.mul_assoc, ← pow_add, Nat.add_sub_cancel' ht]
  ring

/-- Splitting `P + 2^t·c` at bit `m`: the low part stays below `2^m`. -/
theorem add_pow_mul_small (P c t m : ℕ) (ht : t ≤ m) (hP : P < 2 ^ t) :
    P + 2 ^ t * (c % 2 ^ (m - t)) < 2 ^ m := by
  have h1 : c % 2 ^ (m - t) < 2 ^ (m - t) :=
    Nat.mod_lt _ (Nat.pos_pow_of_pos _ (by norm_num))
  have h3 : 2 ^ t * 2 ^ (m - t) = 2 ^ m := by
    rw [← pow_add, Nat.add_sub_cancel' ht]
  have h2 : 2 ^ t * (c % 2 ^ (m - t)) + 2 ^ t ≤ 2 ^ t * 2 ^ (m - t) := by
    have h4 : c % 2 ^ (m - t) + 1 ≤ 2 ^ (m - t) := h1
    calc 2 ^ t * (c % 2 ^ (m - t)) + 2 ^ t
        = 2 ^ t * (c % 2 ^ (m - t) + 1) := by ring
      _ ≤ 2 ^ t * 2 ^ (m - t) := Nat.mul_le_mul_left _ h4
  omega

/-- Splitting `P + 2^t·c` at bit `m`: the quotient. -/
theorem add_pow_mul_div (P c t m : ℕ) (ht : t ≤ m) (hP : P < 2 ^ t) :
    (P + 2 ^ t * c) / 2 ^ m = c / 2 ^ (m - t) := by
  rw [add_pow_mul_split P c t m ht,
    Nat.add_mul_div_left _ _ (Nat.pos_pow_of_pos m (by norm_num)),
    Nat.div_eq_of_lt (add_pow_mul_small P c t m ht hP), Nat.zero_add]

/-- Splitting `P + 2^t·c` at bit `m`: the remainder. -/
theorem add_pow_mul_mod (P c t m : ℕ) (ht : t ≤ m) (hP : P < 2 ^ t) :
    (P + 2 ^ t * c) % 2 ^ m = P + 2 ^ t * (c % 2 ^ (m - t)) := by
  rw [add_pow_mul_split P c t m ht, Nat.mul_comm (2 ^ m),
    Nat.add_mul_mod_self_right,
    Nat.mod_eq_of_lt (add_pow_mul_small P c t m ht hP)]

/-- `d | (c << t)` on an `m`-bit word accumulates `c`, truncated to the
word. -/
theorem lor_shift_mod (d c t m : ℕ) (ht : t ≤ m) (hd : d < 2 ^ t) :
    d ||| ((c <<< t) % 2 ^ m) = (d + 2 ^ t * c) % 2 ^ m := by
  rw [Nat.shiftLeft_eq, Nat.mul_comm c (2 ^ t)]
  have h0 : (2 ^ t * c) % 2 ^ m = 2 ^ t * (c % 2 ^ (m - t)) := by
    have := add_pow_mul_mod 0 c t m ht (Nat.pos_pow_of_pos _ (by norm_num))
    simpa using this
  rw [h0, Nat.lor_comm, lor_two_pow_mul _ _ _ hd,
    add_pow_mul_mod d c t m ht hd]
  ring

/-- A digit list with digits below the base has value below
`base ^ length`. -/
theorem ofDigits_lt (B : ℕ) (l : List ℕ) (hd : ∀ d ∈ l, d < B) :
    Nat.ofDigits B l < B ^ l.length := by
  induction l with
  | nil => simp
  | cons d t ih =>
    have hdB : d < B := hd d (List.mem_cons_self _ _)
    have ih2 := ih fun x hx => hd x (List.mem_cons_of_mem _ hx)
    rw [Nat.ofDigits_cons, List.length_cons, pow_succ,
      Nat.mul_comm (B ^ t.length)]
    have h3 : B * Nat.ofDigits B t + B ≤ B * B ^ t.length := by
      calc B * Nat.ofDigits B t + B = B * (Nat.ofDigits B t + 1) := by ring
        _ ≤ B * B ^ t.length := Nat.mul_le_mul_left _ ih2
    omega

/-- The big-endian shift-or fold of `from_bitwise_digits_le` with a
running accumulator: the truncations are invisible while the final value
fits one digit. -/
theorem chunkFoldBE_acc (db b : ℕ) :
    ∀ (ch : List ℕ) (acc : ℕ), (∀ d ∈ ch, d < 2 ^ b) →
      acc * 2 ^ (b * ch.length) + Nat.ofDigits (2 ^ b) ch.reverse < 2 ^ db →
      ch.foldl (fun a c => ((a <<< b) % 2 ^ db) ||| c) acc =
        acc * 2 ^ (b * ch.length) + Nat.ofDigits (2 ^ b) ch.reverse := by
  intro ch
  induction ch with
  | nil => intro acc _ _; simp
  | cons c t ih =>
    intro acc hd hfit
    have hc : c < 2 ^ b := hd c (List.mem_cons_self _ _)
    have hpow : ((2 ^ b : ℕ)) ^ t.length = 2 ^ (b * t.length) := by
      rw [← pow_mul]
    have hlen1 : 2 ^ (b * (t.length + 1)) = 2 ^ (b * t.length) * 2 ^ b := by
      rw [Nat.mul_succ, pow_add]
    have he : (acc * 2 ^ b + c) * 2 ^ (b * t.length) +
        Nat.ofDigits (2 ^ b) t.reverse =
        acc * 2 ^ (b * (t.length + 1)) +
          Nat.ofDigits (2 ^ b) (c :: t).reverse := by
      rw [List.reverse_cons, Nat.ofDigits_append, Nat.ofDigits_singleton,
        List.length_reverse, hpow, hlen1]
      ring
    have hfit2 : (acc * 2 ^ b + c) * 2 ^ (b * t.length) +
        Nat.ofDigits (2 ^ b) t.reverse < 2 ^ db := by
      rw [he]
      simpa using hfit
    have hstep : acc * 2 ^ b + c ≤
        (acc * 2 ^ b + c) * 2 ^ (b * t.length) +
          Nat.ofDigits (2 ^ b) t.reverse :=
      le_add_right (Nat.le_mul_of_pos_right _
        (Nat.pos_pow_of_pos _ (by norm_num)))
    have hmod : (acc <<< b) % 2 ^ db = acc * 2 ^ b := by
      rw [Nat.shiftLeft_eq]
      exact Nat.mod_eq_of_lt (by omega)
    have hlor : (acc * 2 ^ b) ||| c = acc * 2 ^ b + c := by
      rw [Nat.mul_comm acc (2 ^ b), lor_two_pow_mul b acc c hc,
        Nat.mul_comm (2 ^ b) acc]
    rw [List.foldl_cons, hmod, hlor,
      ih (acc * 2 ^ b + c) (fun d hmem => hd d (List.mem_cons_of_mem _ hmem))
        hfit2, he]
    simp [List.length_cons]

/-- `chunkFoldBE` recovers the big-endian chunk value when it fits one
digit. -/
theorem chunkFoldBE_eq (db b : ℕ) (ch : List ℕ) (hd : ∀ d ∈ ch, d < 2 ^ b)
    (hlt : Nat.ofDigits (2 ^ b) ch.reverse < 2 ^ db) :
    chunkFoldBE db b ch = Nat.ofDigits (2 ^ b) ch.reverse := by
  unfold chunkFoldBE
  have h := chunkFoldBE_acc db b ch 0 hd (by simpa using hlt)
  simpa using h

/-- The truncating Horner fold recovers the big-endian radix value when
the result fits one digit. -/
theorem hornerFold_acc (db R : ℕ) (hR : 0 < R) :
    ∀ (ch : List ℕ) (acc : ℕ),
      acc * R ^ ch.length + Nat.ofDigits R ch.reverse < 2 ^ db →
      ch.foldl (fun a d => (a * R + d) % 2 ^ db) acc =
        acc * R ^ ch.length + Nat.ofDigits R ch.reverse := by
  intro ch
  induction ch with
  | nil => intro acc _; simp
  | cons c t ih =>
    intro acc hfit
    have he : (acc * R + c) * R ^ t.length + Nat.ofDigits R t.reverse =
        acc * R ^ (c :: t).length + Nat.ofDigits R (c :: t).reverse := by
      rw [List.reverse_cons, Nat.ofDigits_append, Nat.ofDigits_singleton,
        List.length_reverse, List.length_cons, pow_succ]
      ring
    have hfit2 : (acc * R + c) * R ^ t.length +
        Nat.ofDigits R t.reverse < 2 ^ db := by
      rw [he]
      exact hfit
    have hstep : acc * R + c ≤
        (acc * R + c) * R ^ t.length + Nat.ofDigits R t.reverse :=
      le_add_right (Nat.le_mul_of_pos_right _ (Nat.pos_pow_of_pos _ hR))
    rw [List.foldl_cons,
      Nat.mod_eq_of_lt (show acc * R + c < 2 ^ db by omega),
      ih (acc * R + c) hfit2, he]

theorem pushRemDigits_value_mod (radixD p x : ℕ) (hr : 2 ≤ radixD)
    (hr2 : radixD ≤ 256) :
    Nat.ofDigits radixD (pushRemDigits radixD p x) = x % radixD ^ p := by
  induction p generalizing x with
  | zero => simp [pushRemDigits, Nat.mod_one]
  | succ q ih =>
    have hmod : x % radixD % 256 = x % radixD :=
      Nat.mod_eq_of_lt (lt_of_lt_of_le (Nat.mod_lt _ (by omega)) hr2)
    rw [pushRemDigits, Nat.ofDigits_cons, hmod, ih (x / radixD), pow_succ',
      mod_mul_decomp]

/-- Setting the entry just past a prefix. -/
theorem set_append_length {α : Type} :
    ∀ (P l : List α) (x : α), (P ++ l).set P.length x = P ++ l.set 0 x := by
  intro P
  induction P with
  | nil => intro l x; rfl
  | cons p t ih =>
    intro l x
    show p :: ((t ++ l).set t.length x) = p :: (t ++ l.set 0 x)
    rw [ih]

theorem set_zero_replicate (m x : ℕ) (hm : 0 < m) :
    (List.replicate m (0 : ℕ)).set 0 x = x :: List.replicate (m - 1) 0 := by
  match m, hm with
  | m + 1, _ =>
    rw [List.replicate_succ]
    rfl

/-- Setting entry `|P|` of `P` padded with zeros to length `N` appends the
digit. -/
theorem set_prefix_zeros (P : List ℕ) (N x : ℕ) (h : P.length < N) :
    (P ++ List.replicate (N - P.length) 0).set P.length x =
      (P ++ [x]) ++ List.replicate (N - (P.length + 1)) 0 := by
  rw [set_append_length, set_zero_replicate _ _ (by omega), Nat.sub_sub]
  simp

theorem zeroU_set_zero (N : ℕ) : (zeroU N).set 0 0 = zeroU N := by
  cases N with
  | zero => rfl
  | succ m =>
    rw [zeroU, List.replicate_succ]
    rfl

/-- Aggregating base-`2^b` digits chunkwise into base-`2^(b·k)` digits
preserves the value. -/
theorem ofDigits_chunksGo (b k : ℕ) (hk : 0 < k) :
    ∀ fuel (l : List ℕ), l.length ≤ fuel →
      Nat.ofDigits (2 ^ (b * k)) ((chunksGo k fuel l).map
        (fun ch => Nat.ofDigits (2 ^ b) ch)) = Nat.ofDigits (2 ^ b) l := by
  intro fuel
  induction fuel with
  | zero =>
    intro l hl
    have h0 : l = [] := List.length_eq_zero.1 (by omega)
    subst h0
    rfl
  | succ f ih =>
    intro l hl
    match l with
    | [] => rfl
    | x :: t =>
      show Nat.ofDigits (2 ^ (b * k))
        (((x :: t).take k :: chunksGo k f ((x :: t).drop k)).map
          (fun ch => Nat.ofDigits (2 ^ b) ch)) = _
      rw [List.map_cons, Nat.ofDigits_cons,
        ih ((x :: t).drop k) (by
          rw [List.length_drop]
          simp only [List.length_cons] at hl ⊢
          omega)]
      conv_rhs => rw [← List.take_append_drop k (x :: t)]
      rw [Nat.ofDigits_append]
      rcases le_or_lt k (x :: t).length with hlen | hlen
      · rw [List.length_take, Nat.min_eq_left hlen, ← pow_mul,
          Nat.mul_comm b k]
      · rw [List.drop_eq_nil_of_le (le_of_lt hlen)]
        simp

/-- The chunk count is bounded by the padded length quotient. -/
theorem chunksGo_length_le {α : Type} (k : ℕ) (hk : 0 < k) :
    ∀ fuel (l : List α) m, l.length ≤ k * m →
      (chunksGo k fuel l).length ≤ m := by
  intro fuel
  induction fuel with
  | zero =>
    intro l m _
    simp [chunksGo]
  | succ f ih =>
    intro l m hm
    match l with
    | [] => simp [chunksGo]
    | x :: t =>
      show (List.take k (x :: t) :: chunksGo k f (List.drop k (x :: t))).length ≤ m
      rw [List.length_cons]
      have hm1 : 0 < m := by
        rcases Nat.eq_zero_or_pos m with rfl | h
        · simp at hm
        · exact h
      have hkm : k * m = k * (m - 1) + k := by
        match m, hm1 with
        | m + 1, _ =>
          rw [Nat.mul_succ]
          simp
      have := ih (List.drop k (x :: t)) (m - 1) (by
        rw [List.length_drop]
        omega)
      omega

/-- Taking from the front of a reverse is dropping from the back. -/
theorem reverse_take_eq {α : Type} (l : List α) (i : ℕ) (hi : i ≤ l.length) :
    l.reverse.take i = (l.drop (l.length - i)).reverse := by
  conv_lhs => rw [← List.take_append_drop (l.length - i) l]
  rw [List.reverse_append]
  exact List.take_left' (by rw [List.length_reverse, List.length_drop]; omega)

theorem rchunksList_map_reverse {α : Type} (k : ℕ) (l : List α) :
    (rchunksList k l).map List.reverse = chunksList k l.reverse := by
  unfold rchunksList
  rw [List.map_map]
  have h : (List.reverse ∘ List.reverse : List α → List α) = id := by
    funext x
    simp
  rw [h, List.map_id]

/-- `ilog2` brackets its argument between consecutive powers of two. -/
theorem ilog2Go_spec :
    ∀ fuel a, 0 < a → a ≤ fuel →
      2 ^ ilog2Go fuel a ≤ a ∧ a < 2 ^ (ilog2Go fuel a + 1) := by
  intro fuel
  induction fuel with
  | zero => intro a h1 h2; omega
  | succ f ih =>
    intro a h1 h2
    rw [ilog2Go]
    by_cases ha : a ≤ 1
    · rw [if_pos ha]
      have : a = 1 := by omega
      subst this
      simp
    · rw [if_neg ha]
      obtain ⟨hl, hr⟩ := ih (a / 2) (by omega) (by omega)
      have he1 : 2 ^ (1 + ilog2Go f (a / 2)) = 2 * 2 ^ ilog2Go f (a / 2) := by
        rw [pow_add, pow_one]
      have he2 : 2 ^ (1 + ilog2Go f (a / 2) + 1) =
          2 * 2 ^ (ilog2Go f (a / 2) + 1) := by
        rw [pow_add, pow_add, pow_one]
        ring
      omega

theorem ilog2_two_pow (b : ℕ) : ilog2 (2 ^ b) = b := by
  obtain ⟨hl, hr⟩ := ilog2Go_spec (2 ^ b) (2 ^ b)
    (Nat.pos_pow_of_pos _ (by norm_num)) (Nat.le_refl _)
  have h1 : ilog2 (2 ^ b) ≤ b :=
    (Nat.pow_le_pow_iff_right (by norm_num)).1 hl
  have h2 : b < ilog2 (2 ^ b) + 1 :=
    (Nat.pow_lt_pow_iff_right (by norm_num)).1 hr
  omega

/-- Invariant of the `radix_base` loop. -/
theorem radixBaseLoop_spec (db radixD : ℕ) :
    ∀ fuel base power, base = radixD ^ power → 0 < power → base < 2 ^ db →
      (radixBaseLoop db radixD fuel base power).1 =
        radixD ^ (radixBaseLoop db radixD fuel base power).2 ∧
      0 < (radixBaseLoop db radixD fuel base power).2 ∧
      (radixBaseLoop db radixD fuel base power).1 < 2 ^ db := by
  intro fuel
  induction fuel with
  | zero =>
    intro base power hb hp hlt
    exact ⟨hb, hp, hlt⟩
  | succ f ih =>
    intro base power hb hp hlt
    rw [radixBaseLoop]
    by_cases hc : base * radixD < 2 ^ db
    · rw [if_pos hc]
      exact ih _ _ (by rw [hb, pow_succ]) (by omega) hc
    · rw [if_neg hc]
      exact ⟨hb, hp, hlt⟩

/-- `radix_base` returns a positive power of the radix that fits one
digit. -/
theorem radix_base_spec (db radix : ℕ) (hlt : radix < 2 ^ db) :
    (radix_base db radix).1 = radix ^ (radix_base db radix).2 ∧
    0 < (radix_base db radix).2 ∧ (radix_base db radix).1 < 2 ^ db := by
  unfold radix_base
  rw [Nat.mod_eq_of_lt hlt]
  exact radixBaseLoop_spec db radix db radix 1 (pow_one radix).symm
    Nat.one_pos hlt

/-- Invariant of the `radix_base_half` loop. -/
theorem radixBaseHalfLoop_spec (db radixD : ℕ) :
    ∀ fuel base power, base = radixD ^ power → 0 < power → base < 2 ^ db →
      (radixBaseHalfLoop db radixD fuel base power).1 =
        radixD ^ (radixBaseHalfLoop db radixD fuel base power).2 ∧
      0 < (radixBaseHalfLoop db radixD fuel base power).2 ∧
      (radixBaseHalfLoop db radixD fuel base power).1 < 2 ^ db := by
  intro fuel
  induction fuel with
  | zero =>
    intro base power hb hp hlt
    exact ⟨hb, hp, hlt⟩
  | succ f ih =>
    intro base power hb hp hlt
    rw [radixBaseHalfLoop]
    by_cases hc : base * radixD ≤ (2 ^ db - 1) >>> (db / 2)
    · rw [if_pos hc]
      refine ih _ _ (by rw [hb, pow_succ]) (by omega) ?_
      have hshift : (2 ^ db - 1) >>> (db / 2) ≤ 2 ^ db - 1 := by
        rw [Nat.shiftRight_eq_div_pow]
        exact Nat.div_le_self _ _
      have hpos : 0 < 2 ^ db := Nat.pos_pow_of_pos _ (by norm_num)
      omega
    · rw [if_neg hc]
      exact ⟨hb, hp, hlt⟩

/-- `radix_base_half` returns a positive power of the radix that fits one
digit. -/
theorem radix_base_half_spec (db radix : ℕ) (hlt : radix < 2 ^ db) :
    (radix_base_half db radix).1 = radix ^ (radix_base_half db radix).2 ∧
    0 < (radix_base_half db radix).2 ∧
    (radix_base_half db radix).1 < 2 ^ db := by
  unfold radix_base_half
  rw [Nat.mod_eq_of_lt hlt]
  exact radixBaseHalfLoop_spec db radix db radix 1 (pow_one radix).symm
    Nat.one_pos hlt

/-- A nonzero value has a nonzero digit. -/
theorem exists_ne_zero_of_val_ne_zero (db : ℕ) (l : List ℕ)
    (h : val db l ≠ 0) : ∃ d ∈ l, d ≠ 0 := by
  by_contra hc
  push_neg at hc
  apply h
  rw [List.eq_replicate_of_mem hc]
  exact ofDigits_replicate_zero _ _

/-- Core of the bitwise radix formatter: each full digit contributes
`db / b` padded base-`2^b` digits, the top digit its canonical digits. -/
theorem bitwise_encode_core (db b : ℕ) (hb : 0 < b) (hb8 : b ≤ 8)
    (hdvd : b ∣ db) (hdb : 0 < db) :
    ∀ (l : List ℕ), (∀ d ∈ l, d < 2 ^ db) → ∀ top, 0 < top → top < 2 ^ db →
      ((l.map (pushRemDigits (2 ^ b) (db / b))).flatten ++
        drainRadix (2 ^ b) db top) =
      Nat.digits (2 ^ b) (Nat.ofDigits (2 ^ db) (l ++ [top])) := by
  have h2b : 2 ≤ 2 ^ b := by
    calc 2 = 2 ^ 1 := (pow_one 2).symm
      _ ≤ 2 ^ b := Nat.pow_le_pow_right (by norm_num) hb
  have h256 : 2 ^ b ≤ 256 := by
    calc 2 ^ b ≤ 2 ^ 8 := Nat.pow_le_pow_right (by norm_num) hb8
      _ = 256 := by norm_num
  have hdb_pow : ((2 : ℕ) ^ b) ^ (db / b) = 2 ^ db := by
    rw [← pow_mul, Nat.mul_div_cancel' hdvd]
  intro l
  induction l with
  | nil =>
    intro _ top htop htoplt
    rw [List.map_nil, List.flatten_nil, List.nil_append, List.nil_append,
      Nat.ofDigits_singleton]
    exact drainRadix_eq_digits (2 ^ b) h2b h256 db top
      (digits_len_le_of_lt_pow (by omega) (by
        calc top < 2 ^ db := htoplt
          _ ≤ 2 ^ (b * db) := Nat.pow_le_pow_right (by norm_num)
            (Nat.le_mul_of_pos_left db hb)
          _ = (2 ^ b) ^ db := by rw [pow_mul]))
  | cons d t ih =>
    intro hl top htop htoplt
    have hd : d < 2 ^ db := hl d (List.mem_cons_self _ _)
    have ih2 := ih (fun x hx => hl x (List.mem_cons_of_mem _ hx)) top htop htoplt
    have hm : 0 < Nat.ofDigits (2 ^ db) (t ++ [top]) := by
      rw [Nat.ofDigits_append, Nat.ofDigits_singleton]
      have : 0 < ((2 : ℕ) ^ db) ^ t.length * top :=
        Nat.mul_pos (Nat.pos_pow_of_pos _ (Nat.pos_pow_of_pos _ (by norm_num)))
          htop
      omega
    have hval : Nat.ofDigits (2 ^ db) ((d :: t) ++ [top]) =
        d + (2 ^ b) ^ (db / b) * Nat.ofDigits (2 ^ db) (t ++ [top]) := by
      rw [List.cons_append, Nat.ofDigits_cons, hdb_pow]
    rw [hval, digits_pad_append (2 ^ b) d _ (db / b) (by omega)
      (by rw [hdb_pow]; exact hd) hm,
      List.map_cons, List.flatten_cons, List.append_assoc, ih2,
      pushRemDigits_spec (2 ^ b) (db / b) d h2b h256 (by rw [hdb_pow]; exact hd),
      List.append_assoc]

/-- `to_bitwise_digits_le` produces the canonical base-`2^b` digits of the
value. -/
theorem to_bitwise_eq_digits (db b N : ℕ) (a : List ℕ) (hb : 0 < b)
    (hb8 : b ≤ 8) (hdvd : b ∣ db) (hdb : 0 < db) (hv : Valid db N a)
    (hnz : val db a ≠ 0) :
    to_bitwise_digits_le db a b = Nat.digits (2 ^ b) (val db a) := by
  obtain ⟨hlen, hdig⟩ := hv
  have hex : ∃ d ∈ a, d ≠ 0 := exists_ne_zero_of_val_ne_zero db a hnz
  have hanil : a ≠ [] := by rintro rfl; simp at hex
  have hldi : last_digit_index a < a.length := last_digit_index_lt a hanil
  have htop : a.getD (last_digit_index a) 0 ≠ 0 := (last_digit_index_getD a hex).1
  have htop_mem : a.getD (last_digit_index a) 0 ∈ a := by
    rw [List.getD_eq_getElem _ _ hldi]
    exact List.getElem_mem _
  have htop_lt : a.getD (last_digit_index a) 0 < 2 ^ db := hdig _ htop_mem
  have htake : ∀ d ∈ a.take (last_digit_index a), d < 2 ^ db :=
    fun d hd => hdig d (List.mem_of_mem_take hd)
  have hpushes : (a.take (last_digit_index a)).map
      (toBitwisePushes b (2 ^ b - 1) (db / b)) =
      (a.take (last_digit_index a)).map (pushRemDigits (2 ^ b) (db / b)) :=
    List.map_congr_left fun d _ => toBitwisePushes_eq b (db / b) d
  have hvala : val db a = Nat.ofDigits (2 ^ db)
      (a.take (last_digit_index a) ++ [a.getD (last_digit_index a) 0]) := by
    rw [Nat.ofDigits_append, Nat.ofDigits_singleton, val_ldi_decomp db a hex,
      List.length_take, Nat.min_eq_left (le_of_lt hldi), ← pow_mul]
    unfold val
    ring
  simp only [to_bitwise_digits_le]
  rw [hpushes, drainDigit_eq b db, hvala]
  exact bitwise_encode_core db b hb hb8 hdvd hdb _ htake _ (Nat.pos_of_ne_zero htop)
    htop_lt

/-- The chunk loop of `from_bitwise_digits_le` on at most `N` chunks
appends each chunk value to the digit array. -/
theorem fromBitwiseAux_spec (db N b : ℕ) :
    ∀ (chunks : List (List ℕ)) (P : List ℕ),
      P.length + chunks.length ≤ N →
      fromBitwiseAux db N b chunks P.length
          (P ++ List.replicate (N - P.length) 0) =
        some ((P ++ chunks.map (chunkFoldBE db b)) ++
          List.replicate (N - P.length - chunks.length) 0) := by
  intro chunks
  induction chunks with
  | nil =>
    intro P hle
    simp [fromBitwiseAux]
  | cons ch rest ih =>
    intro P hle
    simp only [List.length_cons] at hle
    rw [fromBitwiseAux, if_pos (show P.length < N by omega),
      set_prefix_zeros P N _ (by omega)]
    have hlen1 : (P ++ [chunkFoldBE db b ch]).length = P.length + 1 := by
      rw [List.length_append, List.length_singleton]
    have := ih (P ++ [chunkFoldBE db b ch]) (by rw [hlen1]; omega)
    rw [hlen1] at this
    rw [this]
    have hc : N - (P.length + 1) - rest.length =
        N - P.length - (ch :: rest).length := by
      simp only [List.length_cons]
      omega
    rw [hc]
    simp [List.append_assoc]

/-- `from_bitwise_digits_le` on the reversed chunks of the canonical
base-`2^b` digits of a value that fits rebuilds the digit array. -/
theorem from_bitwise_le_spec (db N b : ℕ) (hdb : 0 < db) (hb : 0 < b)
    (hb8 : b ≤ 8) (hdvd : b ∣ db) (hN : 0 < N) (n : ℕ)
    (hn : n < 2 ^ (db * N)) :
    from_bitwise_digits_le db N
        ((chunksList (db / b) (Nat.digits (2 ^ b) n)).map List.reverse) b =
      some (ofNat db N n) := by
  have h1b : (1 : ℕ) < 2 ^ b := by
    calc (1 : ℕ) < 2 := by norm_num
      _ = 2 ^ 1 := (pow_one 2).symm
      _ ≤ 2 ^ b := Nat.pow_le_pow_right (by norm_num) hb
  have hk : 0 < db / b := Nat.div_pos (Nat.le_of_dvd hdb hdvd) hb
  have hdb_pow : ((2 : ℕ) ^ b) ^ (db / b) = 2 ^ db := by
    rw [← pow_mul, Nat.mul_div_cancel' hdvd]
  have hDlen : (Nat.digits (2 ^ b) n).length ≤ db / b * N := by
    refine digits_len_le_of_lt_pow h1b ?_
    calc n < 2 ^ (db * N) := hn
      _ = ((2 : ℕ) ^ b) ^ (db / b * N) := by
        rw [← pow_mul, ← Nat.mul_assoc, Nat.mul_div_cancel' hdvd]
  have hDdig : ∀ d ∈ Nat.digits (2 ^ b) n, d < 2 ^ b :=
    fun d hd => Nat.digits_lt_base h1b hd
  set D := Nat.digits (2 ^ b) n with hD
  set chunks := (chunksList (db / b) D).map List.reverse with hchunks
  have hcount : chunks.length ≤ N := by
    rw [hchunks, List.length_map]
    exact chunksGo_length_le (db / b) hk D.length D N hDlen
  have hchval : ∀ ch0 ∈ chunksList (db / b) D,
      chunkFoldBE db b ch0.reverse = Nat.ofDigits (2 ^ b) ch0 ∧
        Nat.ofDigits (2 ^ b) ch0 < 2 ^ db := by
    intro ch0 hmem
    have hchd : ∀ d ∈ ch0, d < 2 ^ b :=
      fun d hd => hDdig d (chunks_mem_mem (db / b) hk D ch0 hmem d hd)
    have hchlt : Nat.ofDigits (2 ^ b) ch0 < 2 ^ db := by
      calc Nat.ofDigits (2 ^ b) ch0 < (2 ^ b) ^ ch0.length :=
          ofDigits_lt (2 ^ b) ch0 hchd
        _ ≤ (2 ^ b) ^ (db / b) := Nat.pow_le_pow_right (by omega)
          (chunksList_mem_length (db / b) D ch0 hmem)
        _ = 2 ^ db := hdb_pow
    refine ⟨?_, hchlt⟩
    rw [chunkFoldBE_eq db b ch0.reverse (fun d hd => hchd d
      (List.mem_reverse.1 hd)) (by rw [List.reverse_reverse]; exact hchlt),
      List.reverse_reverse]
  have hmapfold : chunks.map (chunkFoldBE db b) =
      (chunksList (db / b) D).map (fun ch => Nat.ofDigits (2 ^ b) ch) := by
    rw [hchunks, List.map_map]
    exact List.map_congr_left fun ch0 hmem => (hchval ch0 hmem).1
  have haux := fromBitwiseAux_spec db N b chunks [] (by
    rw [List.length_nil]
    omega)
  rw [List.length_nil, List.nil_append, Nat.sub_zero, List.nil_append] at haux
  have hzero : zeroU N = List.replicate N 0 := rfl
  unfold from_bitwise_digits_le
  rw [hzero] at *
  rw [haux]
  congr 1
  have hvalL : val db (chunks.map (chunkFoldBE db b) ++
      List.replicate (N - chunks.length) 0) = n := by
    unfold val
    rw [ofDigits_append_zeros, hmapfold]
    have := ofDigits_chunksGo b (db / b) hk D.length D (Nat.le_refl _)
    rw [Nat.mul_div_cancel' hdvd] at this
    rw [show chunksList (db / b) D = chunksGo (db / b) D.length D from rfl, this,
      hD, Nat.ofDigits_digits]
  have hvalidL : Valid db N (chunks.map (chunkFoldBE db b) ++
      List.replicate (N - chunks.length) 0) := by
    constructor
    · rw [List.length_append, List.length_map, List.length_replicate]
      omega
    · intro d hd
      rcases List.mem_append.1 hd with hd | hd
      · obtain ⟨ch, hch, rfl⟩ := List.mem_map.1 hd
        obtain ⟨ch0, hch0, rfl⟩ := List.mem_map.1 (hchunks ▸ hch)
        rw [(hchval ch0 hch0).1]
        exact (hchval ch0 hch0).2
      · rw [List.eq_of_mem_replicate hd]
        exact Nat.pos_pow_of_pos db (by norm_num)
  refine val_inj db N _ _ hdb hvalidL (ofNat_valid db N n hdb) ?_
  rw [hvalL, val_ofNat, Nat.mod_eq_of_lt hn]

/-- One unfolding of the while loop of `to_inexact_bitwise_digits_le`. -/
theorem toInexactWhile_step (db b mask c fuel r rbits : ℕ) (hf : 0 < fuel)
    (h : b ≤ rbits) :
    toInexactWhile db b mask c fuel r rbits =
      ((r &&& mask) % 256 :: (toInexactWhile db b mask c (fuel - 1)
          (if db < rbits then c >>> (db - (rbits - b)) else r >>> b)
          (rbits - b)).1,
        (toInexactWhile db b mask c (fuel - 1)
          (if db < rbits then c >>> (db - (rbits - b)) else r >>> b)
          (rbits - b)).2.1,
        (toInexactWhile db b mask c (fuel - 1)
          (if db < rbits then c >>> (db - (rbits - b)) else r >>> b)
          (rbits - b)).2.2) := by
  match fuel, hf with
  | f + 1, _ =>
    rw [toInexactWhile, if_pos h]
    simp only [Nat.add_sub_cancel]

theorem toInexactWhile_stop (db b mask c fuel r rbits : ℕ) (h : ¬ b ≤ rbits)
    (hf : 0 < fuel) :
    toInexactWhile db b mask c fuel r rbits = ([], r, rbits) := by
  match fuel, hf with
  | f + 1, _ => rw [toInexactWhile, if_neg h]

/-- Once the pending bit count is at most `db`, the while loop just drains
`b`-bit groups: it is `pushRemDigits` in base `2^b`. -/
theorem toInexactWhile_phase (db b mask c : ℕ) (hb : 0 < b)
    (hmask : mask = 2 ^ b - 1) :
    ∀ fuel rbits r, rbits ≤ fuel → rbits ≤ db → r < 2 ^ rbits →
      toInexactWhile db b mask c fuel r rbits =
        (pushRemDigits (2 ^ b) (rbits / b) r, r / 2 ^ (b * (rbits / b)),
          rbits % b) := by
  intro fuel
  induction fuel with
  | zero =>
    intro rbits r h1 h2 h3
    have h0 : rbits = 0 := by omega
    subst h0
    simp [toInexactWhile, pushRemDigits, Nat.zero_div]
  | succ f ih =>
    intro rbits r h1 h2 h3
    by_cases hc2 : b ≤ rbits
    · rw [toInexactWhile_step db b mask c (f + 1) r rbits (by omega) hc2,
        if_neg (show ¬ db < rbits by omega)]
      have hrb : r >>> b = r / 2 ^ b := Nat.shiftRight_eq_div_pow r b
      have hrlt : r / 2 ^ b < 2 ^ (rbits - b) := by
        apply Nat.div_lt_of_lt_mul
        calc r < 2 ^ rbits := h3
          _ = 2 ^ b * 2 ^ (rbits - b) := by
            rw [← pow_add]
            congr 1
            omega
      have ihr := ih (rbits - b) (r / 2 ^ b) (by omega) (by omega) hrlt
      rw [Nat.add_sub_cancel, hrb, ihr]
      have hq2 : rbits / b = (rbits - b) / b + 1 := by
        conv_lhs => rw [show rbits = rbits - b + b by omega]
        rw [Nat.add_div_right _ hb]
      have hmod3 : (rbits - b) % b = rbits % b := by
        conv_rhs => rw [show rbits = rbits - b + b by omega]
        rw [Nat.add_mod_right]
      have hdd : r / 2 ^ b / 2 ^ (b * ((rbits - b) / b)) =
          r / 2 ^ (b * ((rbits - b) / b + 1)) := by
        rw [Nat.div_div_eq_div_mul, ← pow_add, Nat.mul_succ]
        congr 2
        omega
      simp only [hq2, hmod3, hdd, hmask, Nat.and_pow_two_sub_one_eq_mod,
        pushRemDigits]
    · rw [toInexactWhile_stop db b mask c (f + 1) r rbits hc2 (by omega)]
      have hq : rbits / b = 0 := Nat.div_eq_of_lt (by omega)
      have hm : rbits % b = rbits := Nat.mod_eq_of_lt (by omega)
      rw [hq, hm]
      simp [pushRemDigits]

/-- Entry into the while loop with a fresh digit `c` and `rbits0 < b`
leftover bits: the loop yields the `b`-ary groups of the exact combined
value `P + 2^rbits0 · c`. -/
theorem toInexactWhile_entry (db b c P rbits0 : ℕ) (hb : 0 < b)
    (hbdb : b < db) (hP : P < 2 ^ rbits0) (hr0 : rbits0 < b)
    (hc : c < 2 ^ db) :
    toInexactWhile db b (2 ^ b - 1) c (rbits0 + db)
        ((P ||| ((c <<< rbits0) % 2 ^ db)) % 2 ^ db) (rbits0 + db) =
      (pushRemDigits (2 ^ b) ((rbits0 + db) / b) (P + 2 ^ rbits0 * c),
        (P + 2 ^ rbits0 * c) / 2 ^ (b * ((rbits0 + db) / b)),
        (rbits0 + db) % b) := by
  have hV : (P ||| ((c <<< rbits0) % 2 ^ db)) % 2 ^ db =
      (P + 2 ^ rbits0 * c) % 2 ^ db := by
    rw [lor_shift_mod P c rbits0 db (by omega) hP,
      Nat.mod_mod_of_dvd _ dvd_rfl]
  have hVlt : P + 2 ^ rbits0 * c < 2 ^ (rbits0 + db) := by
    have h1 : 2 ^ rbits0 * c + 2 ^ rbits0 ≤ 2 ^ rbits0 * 2 ^ db := by
      calc 2 ^ rbits0 * c + 2 ^ rbits0 = 2 ^ rbits0 * (c + 1) := by ring
        _ ≤ 2 ^ rbits0 * 2 ^ db := Nat.mul_le_mul_left _ hc
    have h2 : (2 : ℕ) ^ rbits0 * 2 ^ db = 2 ^ (rbits0 + db) := by
      rw [← pow_add]
    omega
  rw [hV, toInexactWhile_step db b (2 ^ b - 1) c (rbits0 + db)
    ((P + 2 ^ rbits0 * c) % 2 ^ db) (rbits0 + db) (by omega) (by omega)]
  have hnext : (if db < rbits0 + db then c >>> (db - (rbits0 + db - b))
      else ((P + 2 ^ rbits0 * c) % 2 ^ db) >>> b) =
      (P + 2 ^ rbits0 * c) / 2 ^ b := by
    by_cases h0 : 0 < rbits0
    · rw [if_pos (by omega)]
      have he : db - (rbits0 + db - b) = b - rbits0 := by omega
      rw [he, Nat.shiftRight_eq_div_pow]
      exact (add_pow_mul_div P c rbits0 b (by omega) hP).symm
    · rw [if_neg (by omega)]
      have h00 : rbits0 = 0 := by omega
      subst h00
      have hP0 : P = 0 := by omega
      subst hP0
      simp only [pow_zero, one_mul, Nat.zero_add]
      rw [Nat.mod_eq_of_lt hc, Nat.shiftRight_eq_div_pow]
  have hVdiv : (P + 2 ^ rbits0 * c) / 2 ^ b < 2 ^ (rbits0 + db - b) := by
    apply Nat.div_lt_of_lt_mul
    calc P + 2 ^ rbits0 * c < 2 ^ (rbits0 + db) := hVlt
      _ = 2 ^ b * 2 ^ (rbits0 + db - b) := by
        rw [← pow_add]
        congr 1
        omega
  have hphase := toInexactWhile_phase db b (2 ^ b - 1) c hb rfl
    (rbits0 + db - 1) (rbits0 + db - b) ((P + 2 ^ rbits0 * c) / 2 ^ b)
    (by omega) (by omega) hVdiv
  rw [hnext, hphase]
  have hhead : ((P + 2 ^ rbits0 * c) % 2 ^ db) &&& (2 ^ b - 1) =
      (P + 2 ^ rbits0 * c) % 2 ^ b := by
    rw [Nat.and_pow_two_sub_one_eq_mod,
      Nat.mod_mod_of_dvd _ (pow_dvd_pow 2 (le_of_lt hbdb))]
  have hq : (rbits0 + db) / b = (rbits0 + db - b) / b + 1 := by
    conv_lhs => rw [show rbits0 + db = rbits0 + db - b + b by omega]
    rw [Nat.add_div_right _ hb]
  have hmod3 : (rbits0 + db - b) % b = (rbits0 + db) % b := by
    conv_rhs => rw [show rbits0 + db = rbits0 + db - b + b by omega]
    rw [Nat.add_mod_right]
  have hdd : (P + 2 ^ rbits0 * c) / 2 ^ b /
      2 ^ (b * ((rbits0 + db - b) / b)) =
      (P + 2 ^ rbits0 * c) / 2 ^ (b * ((rbits0 + db - b) / b + 1)) := by
    rw [Nat.div_div_eq_div_mul, ← pow_add, Nat.mul_succ]
    congr 2
    omega
  simp only [hq, hmod3, hdd, hhead, pushRemDigits]

/-- The digit loop of `to_inexact_bitwise_digits_le` emits base-`2^b`
digits whose value is the pending bits plus the shifted remaining value. -/
theorem toInexactGo_spec (db b : ℕ) (hb : 0 < b) (hb8 : b ≤ 8)
    (hbdb : b < db) :
    ∀ (l : List ℕ) (P rbits0 : ℕ), (∀ d ∈ l, d < 2 ^ db) →
      P < 2 ^ rbits0 → rbits0 < b →
      (∀ d ∈ toInexactGo db b (2 ^ b - 1) l P rbits0, d < 2 ^ b) ∧
      Nat.ofDigits (2 ^ b) (toInexactGo db b (2 ^ b - 1) l P rbits0) =
        P + 2 ^ rbits0 * Nat.ofDigits (2 ^ db) l := by
  have h2b : 2 ≤ 2 ^ b := by
    calc 2 = 2 ^ 1 := (pow_one 2).symm
      _ ≤ 2 ^ b := Nat.pow_le_pow_right (by norm_num) hb
  have h256 : 2 ^ b ≤ 256 := by
    calc 2 ^ b ≤ 2 ^ 8 := Nat.pow_le_pow_right (by norm_num) hb8
      _ = 256 := by norm_num
  intro l
  induction l with
  | nil =>
    intro P rbits0 _ hP hr0
    rw [toInexactGo]
    by_cases h0 : rbits0 ≠ 0
    · rw [if_pos h0]
      have hPb : P < 2 ^ b :=
        lt_of_lt_of_le hP (Nat.pow_le_pow_right (by norm_num) (by omega))
      have hP256 : P % 256 = P := Nat.mod_eq_of_lt (by omega)
      constructor
      · intro d hd
        rw [List.mem_singleton.1 hd, hP256]
        exact hPb
      · rw [hP256, Nat.ofDigits_singleton, Nat.ofDigits_nil]
        ring
    · rw [if_neg h0]
      push_neg at h0
      subst h0
      have hP0 : P = 0 := by omega
      subst hP0
      simp
  | cons c rest ih =>
    intro P rbits0 hl hP hr0
    have hc : c < 2 ^ db := hl c (List.mem_cons_self _ _)
    simp only [toInexactGo]
    rw [toInexactWhile_entry db b c P rbits0 hb hbdb hP hr0 hc]
    dsimp only
    have hVlt : P + 2 ^ rbits0 * c < 2 ^ (rbits0 + db) := by
      have h1 : 2 ^ rbits0 * c + 2 ^ rbits0 ≤ 2 ^ rbits0 * 2 ^ db := by
        calc 2 ^ rbits0 * c + 2 ^ rbits0 = 2 ^ rbits0 * (c + 1) := by ring
          _ ≤ 2 ^ rbits0 * 2 ^ db := Nat.mul_le_mul_left _ hc
      have h2 : (2 : ℕ) ^ rbits0 * 2 ^ db = 2 ^ (rbits0 + db) := by
        rw [← pow_add]
      omega
    have hsum : b * ((rbits0 + db) / b) + (rbits0 + db) % b = rbits0 + db :=
      Nat.div_add_mod (rbits0 + db) b
    have hP2 : (P + 2 ^ rbits0 * c) / 2 ^ (b * ((rbits0 + db) / b)) <
        2 ^ ((rbits0 + db) % b) := by
      apply Nat.div_lt_of_lt_mul
      calc P + 2 ^ rbits0 * c < 2 ^ (rbits0 + db) := hVlt
        _ = 2 ^ (b * ((rbits0 + db) / b)) * 2 ^ ((rbits0 + db) % b) := by
          rw [← pow_add, hsum]
    have hr2 : (rbits0 + db) % b < b := Nat.mod_lt _ hb
    obtain ⟨ihb, ihv⟩ := ih ((P + 2 ^ rbits0 * c) / 2 ^ (b * ((rbits0 + db) / b)))
      ((rbits0 + db) % b) (fun d hd => hl d (List.mem_cons_of_mem _ hd)) hP2 hr2
    constructor
    · intro d hd
      rcases List.mem_append.1 hd with hd | hd
      · exact pushRemDigits_lt (2 ^ b) _ _ h2b h256 d hd
      · exact ihb d hd
    · rw [Nat.ofDigits_append, pushRemDigits_length,
        pushRemDigits_value_mod _ _ _ h2b h256, ihv, Nat.ofDigits_cons]
      have hpq : ((2 : ℕ) ^ b) ^ ((rbits0 + db) / b) =
          2 ^ (b * ((rbits0 + db) / b)) := by
        rw [← pow_mul]
      rw [hpq]
      have e1 : (P + 2 ^ rbits0 * c) % 2 ^ (b * ((rbits0 + db) / b)) +
          2 ^ (b * ((rbits0 + db) / b)) *
            ((P + 2 ^ rbits0 * c) / 2 ^ (b * ((rbits0 + db) / b)) +
              2 ^ ((rbits0 + db) % b) * Nat.ofDigits (2 ^ db) rest) =
          (P + 2 ^ rbits0 * c) +
            2 ^ (b * ((rbits0 + db) / b)) * 2 ^ ((rbits0 + db) % b) *
              Nat.ofDigits (2 ^ db) rest := by
        rw [Nat.mul_add, ← Nat.add_assoc, Nat.mod_add_div]
        ring
      rw [e1, ← pow_add, hsum, pow_add]
      ring

/-- `to_inexact_bitwise_digits_le` produces the canonical base-`2^b`
digits of the value. -/
theorem to_inexact_eq_digits (db b N : ℕ) (a : List ℕ) (hb : 0 < b)
    (hb8 : b ≤ 8) (hbdb : b < db) (hv : Valid db N a) :
    to_inexact_bitwise_digits_le db a b = Nat.digits (2 ^ b) (val db a) := by
  have h1b : (1 : ℕ) < 2 ^ b := by
    calc (1 : ℕ) < 2 := by norm_num
      _ ≤ 2 ^ b := by
        calc (2 : ℕ) = 2 ^ 1 := (pow_one 2).symm
          _ ≤ 2 ^ b := Nat.pow_le_pow_right (by norm_num) hb
  obtain ⟨hbounds, hval⟩ := toInexactGo_spec db b hb hb8 hbdb a 0 0 hv.2
    (by norm_num) hb
  unfold to_inexact_bitwise_digits_le
  rw [strip_eq_digits (2 ^ b) h1b _ hbounds, hval]
  unfold val
  norm_num

/-- A digit string with nonzero top digit has positive value. -/
theorem ofDigits_pos_of_getLast (B : ℕ) (hB : 0 < B) (l : List ℕ)
    (hne : l ≠ []) (hlast : l.getLast hne ≠ 0) : 0 < Nat.ofDigits B l := by
  have hdec : l.dropLast ++ [l.getLast hne] = l := List.dropLast_append_getLast hne
  calc 0 < B ^ l.dropLast.length * l.getLast hne :=
      Nat.mul_pos (Nat.pos_pow_of_pos _ hB) (Nat.pos_of_ne_zero hlast)
    _ ≤ Nat.ofDigits B l.dropLast + B ^ l.dropLast.length * l.getLast hne :=
      Nat.le_add_left _ _
    _ = Nat.ofDigits B (l.dropLast ++ [l.getLast hne]) := by
      rw [Nat.ofDigits_append, Nat.ofDigits_singleton]
    _ = Nat.ofDigits B l := by rw [hdec]

/-- The byte loop of `from_inexact_bitwise_digits_le`: on a byte string
with nonzero top byte whose value fits the width, it accumulates the
stream into the digit array without panicking. -/
theorem fromInexactAux_spec (db N b : ℕ) (hdb : 0 < db) (hb : 0 < b)
    (hbdb : b < db) :
    ∀ (bytes : List ℕ) (digit dbits : ℕ) (P : List ℕ),
      (∀ x ∈ bytes, x < 2 ^ b) →
      (∀ hne : bytes ≠ [], bytes.getLast hne ≠ 0) →
      digit < 2 ^ dbits → dbits < db →
      (∀ d ∈ P, d < 2 ^ db) → P.length ≤ N →
      Nat.ofDigits (2 ^ db) P + 2 ^ (db * P.length) *
          (digit + 2 ^ dbits * Nat.ofDigits (2 ^ b) bytes) < 2 ^ (db * N) →
      ∃ w, fromInexactAux db N b bytes digit dbits P.length
          (P ++ List.replicate (N - P.length) 0) = .ret (some w) ∧
        Valid db N w ∧
        val db w = Nat.ofDigits (2 ^ db) P + 2 ^ (db * P.length) *
          (digit + 2 ^ dbits * Nat.ofDigits (2 ^ b) bytes) := by
  intro bytes
  induction bytes with
  | nil =>
    intro digit dbits P _ _ hdigit hdbits hPd hPN hbound
    simp only [Nat.ofDigits_nil, Nat.mul_zero, Nat.add_zero] at hbound ⊢
    rw [fromInexactAux]
    by_cases hd0 : digit = 0
    · subst hd0
      rw [if_neg (by simp)]
      refine ⟨P ++ List.replicate (N - P.length) 0, rfl, ⟨?_, ?_⟩, ?_⟩
      · rw [List.length_append, List.length_replicate]
        omega
      · intro d hd
        rcases List.mem_append.1 hd with hd | hd
        · exact hPd d hd
        · rw [List.eq_of_mem_replicate hd]
          exact Nat.pos_pow_of_pos db (by norm_num)
      · unfold val
        rw [ofDigits_append_zeros]
        simp
    · have hdb0 : 0 < dbits := by
        rcases Nat.eq_zero_or_pos dbits with h | h
        · subst h
          simp at hdigit
          omega
        · exact h
      rw [if_pos ⟨hdb0, hd0⟩]
      have hPlt : P.length < N := by
        by_contra hcon
        have hPN2 : P.length = N := by omega
        rw [hPN2] at hbound
        have h2 := Nat.mul_le_mul_left (2 ^ (db * N)) (show 1 ≤ digit by omega)
        omega
      rw [if_pos hPlt, set_prefix_zeros P N digit hPlt]
      refine ⟨_, rfl, ⟨?_, ?_⟩, ?_⟩
      · rw [List.length_append, List.length_append, List.length_replicate,
          List.length_singleton]
        omega
      · intro d hd
        rcases List.mem_append.1 hd with hd | hd
        · rcases List.mem_append.1 hd with hd | hd
          · exact hPd d hd
          · rw [List.mem_singleton.1 hd]
            calc digit < 2 ^ dbits := hdigit
              _ ≤ 2 ^ db := Nat.pow_le_pow_right (by norm_num) (by omega)
        · rw [List.eq_of_mem_replicate hd]
          exact Nat.pos_pow_of_pos db (by norm_num)
      · unfold val
        rw [ofDigits_append_zeros, Nat.ofDigits_append, Nat.ofDigits_singleton,
          ← pow_mul]
  | cons byte rest ih =>
    intro digit dbits P hby hlast hdigit hdbits hPd hPN hbound
    have hbyte : byte < 2 ^ b := hby byte (List.mem_cons_self _ _)
    have hby2 : ∀ x ∈ rest, x < 2 ^ b :=
      fun x hx => hby x (List.mem_cons_of_mem _ hx)
    have hlast2 : ∀ hne : rest ≠ [], rest.getLast hne ≠ 0 := by
      intro hne
      have h := hlast (List.cons_ne_nil byte rest)
      rwa [List.getLast_cons hne] at h
    have hdig2 : digit ||| ((byte <<< dbits) % 2 ^ db) =
        (digit + 2 ^ dbits * byte) % 2 ^ db :=
      lor_shift_mod digit byte dbits db (by omega) hdigit
    simp only [fromInexactAux]
    rw [if_neg (show ¬ db ≤ dbits by omega), hdig2]
    by_cases hfull : db ≤ dbits + b
    · rw [if_pos hfull]
      have hpos_inner : 1 ≤ digit + 2 ^ dbits *
          Nat.ofDigits (2 ^ b) (byte :: rest) := by
        have h1 : 0 < Nat.ofDigits (2 ^ b) (byte :: rest) :=
          ofDigits_pos_of_getLast (2 ^ b)
            (Nat.pos_pow_of_pos _ (by norm_num)) _ (List.cons_ne_nil _ _)
            (hlast _)
        have h2 : 0 < 2 ^ dbits * Nat.ofDigits (2 ^ b) (byte :: rest) :=
          Nat.mul_pos (Nat.pos_pow_of_pos _ (by norm_num)) h1
        omega
      have hPlt : P.length < N := by
        by_contra hcon
        have hPN2 : P.length = N := by omega
        rw [hPN2] at hbound
        have h2 := Nat.mul_le_mul_left (2 ^ (db * N)) hpos_inner
        omega
      rw [if_pos hPlt, set_prefix_zeros P N _ hPlt]
      have hsh : b - (dbits + b - db) = db - dbits := by omega
      have hdig3 : byte >>> (db - dbits) = byte / 2 ^ (db - dbits) :=
        Nat.shiftRight_eq_div_pow byte (db - dbits)
      have hdivX : (digit + 2 ^ dbits * byte) / 2 ^ db =
          byte / 2 ^ (db - dbits) :=
        add_pow_mul_div digit byte dbits db (by omega) hdigit
      have hdignew : byte / 2 ^ (db - dbits) < 2 ^ (dbits + b - db) := by
        apply Nat.div_lt_of_lt_mul
        calc byte < 2 ^ b := hbyte
          _ = 2 ^ (db - dbits) * 2 ^ (dbits + b - db) := by
            rw [← pow_add]
            congr 1
            omega
      have hd2lt : (digit + 2 ^ dbits * byte) % 2 ^ db < 2 ^ db :=
        Nat.mod_lt _ (Nat.pos_pow_of_pos _ (by norm_num))
      have hscalar : (digit + 2 ^ dbits * byte) % 2 ^ db +
          2 ^ db * ((digit + 2 ^ dbits * byte) / 2 ^ db +
            2 ^ (dbits + b - db) * Nat.ofDigits (2 ^ b) rest) =
          digit + 2 ^ dbits * (byte + 2 ^ b * Nat.ofDigits (2 ^ b) rest) := by
        have hX := Nat.mod_add_div (digit + 2 ^ dbits * byte) (2 ^ db)
        have hpow2 : (2 : ℕ) ^ db * 2 ^ (dbits + b - db) =
            2 ^ dbits * 2 ^ b := by
          rw [← pow_add, ← pow_add]
          congr 1
          omega
        calc (digit + 2 ^ dbits * byte) % 2 ^ db +
            2 ^ db * ((digit + 2 ^ dbits * byte) / 2 ^ db +
              2 ^ (dbits + b - db) * Nat.ofDigits (2 ^ b) rest) =
            ((digit + 2 ^ dbits * byte) % 2 ^ db +
              2 ^ db * ((digit + 2 ^ dbits * byte) / 2 ^ db)) +
              (2 ^ db * 2 ^ (dbits + b - db)) * Nat.ofDigits (2 ^ b) rest := by
              ring
          _ = (digit + 2 ^ dbits * byte) +
              (2 ^ dbits * 2 ^ b) * Nat.ofDigits (2 ^ b) rest := by
              rw [hX, hpow2]
          _ = digit + 2 ^ dbits *
              (byte + 2 ^ b * Nat.ofDigits (2 ^ b) rest) := by ring
      have hkeyeq : Nat.ofDigits (2 ^ db)
            (P ++ [(digit + 2 ^ dbits * byte) % 2 ^ db]) +
          2 ^ (db * (P.length + 1)) * (byte / 2 ^ (db - dbits) +
            2 ^ (dbits + b - db) * Nat.ofDigits (2 ^ b) rest) =
          Nat.ofDigits (2 ^ db) P + 2 ^ (db * P.length) *
            (digit + 2 ^ dbits * Nat.ofDigits (2 ^ b) (byte :: rest)) := by
        rw [Nat.ofDigits_append, Nat.ofDigits_singleton, ← pow_mul,
          Nat.ofDigits_cons, ← hdivX]
        have hmulsucc : db * (P.length + 1) = db * P.length + db := by ring
        rw [hmulsucc, pow_add]
        have e2 : Nat.ofDigits (2 ^ db) P +
            2 ^ (db * P.length) * ((digit + 2 ^ dbits * byte) % 2 ^ db) +
            2 ^ (db * P.length) * 2 ^ db *
              ((digit + 2 ^ dbits * byte) / 2 ^ db +
                2 ^ (dbits + b - db) * Nat.ofDigits (2 ^ b) rest) =
            Nat.ofDigits (2 ^ db) P + 2 ^ (db * P.length) *
              ((digit + 2 ^ dbits * byte) % 2 ^ db +
                2 ^ db * ((digit + 2 ^ dbits * byte) / 2 ^ db +
                  2 ^ (dbits + b - db) * Nat.ofDigits (2 ^ b) rest)) := by
          ring
        rw [e2, hscalar]
      obtain ⟨w, hw, hvw, hval⟩ := ih (byte / 2 ^ (db - dbits))
        (dbits + b - db) (P ++ [(digit + 2 ^ dbits * byte) % 2 ^ db])
        hby2 hlast2 hdignew (by omega)
        (by
          intro d hd
          rcases List.mem_append.1 hd with hd | hd
          · exact hPd d hd
          · rw [List.mem_singleton.1 hd]
            exact hd2lt)
        (by
          rw [List.length_append, List.length_singleton]
          omega)
        (by
          rw [List.length_append, List.length_singleton, hkeyeq]
          exact hbound)
      rw [List.length_append, List.length_singleton] at hw
      refine ⟨w, ?_, hvw, ?_⟩
      · rw [hsh, hdig3]
        exact hw
      · rw [hval, List.length_append, List.length_singleton, hkeyeq]
    · rw [if_neg hfull]
      have hXlt : digit + 2 ^ dbits * byte < 2 ^ (dbits + b) := by
        have h1 : 2 ^ dbits * byte + 2 ^ dbits ≤ 2 ^ dbits * 2 ^ b := by
          calc 2 ^ dbits * byte + 2 ^ dbits = 2 ^ dbits * (byte + 1) := by ring
            _ ≤ 2 ^ dbits * 2 ^ b := Nat.mul_le_mul_left _ hbyte
        have h2 : (2 : ℕ) ^ dbits * 2 ^ b = 2 ^ (dbits + b) := by
          rw [← pow_add]
        omega
      have hmodid : (digit + 2 ^ dbits * byte) % 2 ^ db =
          digit + 2 ^ dbits * byte :=
        Nat.mod_eq_of_lt (lt_of_lt_of_le hXlt
          (Nat.pow_le_pow_right (by norm_num) (by omega)))
      rw [hmodid]
      have hkeyeq : Nat.ofDigits (2 ^ db) P + 2 ^ (db * P.length) *
          ((digit + 2 ^ dbits * byte) +
            2 ^ (dbits + b) * Nat.ofDigits (2 ^ b) rest) =
          Nat.ofDigits (2 ^ db) P + 2 ^ (db * P.length) *
            (digit + 2 ^ dbits * Nat.ofDigits (2 ^ b) (byte :: rest)) := by
        rw [Nat.ofDigits_cons, pow_add]
        ring
      obtain ⟨w, hw, hvw, hval⟩ := ih (digit + 2 ^ dbits * byte) (dbits + b) P
        hby2 hlast2 hXlt (by omega) hPd hPN (by rw [hkeyeq]; exact hbound)
      refine ⟨w, hw, hvw, ?_⟩
      rw [hval, hkeyeq]

/-- `from_inexact_bitwise_digits_le` on the canonical base-`2^b` digits of
a nonzero value that fits rebuilds the digit array without panicking. -/
theorem from_inexact_le_spec (db N b : ℕ) (hdb : 0 < db) (hb : 0 < b)
    (hbdb : b < db) (n : ℕ) (hn : n < 2 ^ (db * N)) (hnz : n ≠ 0) :
    from_inexact_bitwise_digits_le db N (Nat.digits (2 ^ b) n) b =
      .ret (some (ofNat db N n)) := by
  have h1b : (1 : ℕ) < 2 ^ b := by
    calc (1 : ℕ) < 2 := by norm_num
      _ ≤ 2 ^ b := by
        calc (2 : ℕ) = 2 ^ 1 := (pow_one 2).symm
          _ ≤ 2 ^ b := Nat.pow_le_pow_right (by norm_num) hb
  obtain ⟨w, hw, hvw, hval⟩ := fromInexactAux_spec db N b hdb hb hbdb
    (Nat.digits (2 ^ b) n) 0 0 []
    (fun x hx => Nat.digits_lt_base h1b hx)
    (fun hne => Nat.getLast_digit_ne_zero (2 ^ b) hnz)
    (by norm_num) hdb (by intro d hd; cases hd) (by simp)
    (by simpa [Nat.ofDigits_digits] using hn)
  simp only [List.length_nil, List.nil_append, Nat.sub_zero] at hw
  unfold from_inexact_bitwise_digits_le
  rw [show zeroU N = List.replicate N 0 from rfl, hw]
  have hwn : w = ofNat db N n := by
    refine val_inj db N w _ hdb hvw (ofNat_valid db N n hdb) ?_
    rw [hval, val_ofNat, Nat.mod_eq_of_lt hn]
    simp [Nat.ofDigits_digits]
  rw [hwn]

/-- The inexact parser on the single byte `0` returns zero. -/
theorem from_inexact_zero (db N b : ℕ) (hb : 0 < b) (hbdb : b < db)
    (hN : 0 < N) :
    from_inexact_bitwise_digits_le db N [0] b = .ret (some (zeroU N)) := by
  have h2 : ¬ db ≤ b := by omega
  have h3 : ¬ db ≤ (0 : ℕ) := by omega
  unfold from_inexact_bitwise_digits_le
  simp [fromInexactAux, h2, h3]

/-- The division loop of `to_radix_digits_le` produces the canonical
base-`radixD` digits of the value. -/
theorem toRadixLoop_spec (db radixD base power : ℕ) (hdb : 0 < db)
    (hr : 2 ≤ radixD) (hr256 : radixD ≤ 256)
    (hbase : base = radixD ^ power) (hpow : 0 < power)
    (hbaselt : base < 2 ^ db) :
    ∀ fuel (copy : List ℕ), (∀ d ∈ copy, d < 2 ^ db) →
      val db copy < 2 ^ fuel →
      toRadixLoop db radixD base power fuel copy =
        Nat.digits radixD (val db copy) := by
  have hbase2 : 2 ≤ base := by
    rw [hbase]
    calc 2 ≤ radixD := hr
      _ ≤ radixD ^ power := Nat.le_self_pow (by omega) radixD
  intro fuel
  induction fuel with
  | zero =>
    intro copy hd hlt
    have h0 : val db copy = 0 := by
      have : (2 : ℕ) ^ 0 = 1 := pow_zero 2
      omega
    rw [toRadixLoop, h0, Nat.digits_zero]
  | succ f ih =>
    intro copy hd hlt
    rw [toRadixLoop]
    by_cases hldi : 0 < last_digit_index copy
    · rw [if_pos hldi]
      have hex : ∃ d ∈ copy, d ≠ 0 := by
        by_contra hc
        push_neg at hc
        have := lastDigitIndexAux_all_zero copy 0 0 hc
        rw [last_digit_index, this] at hldi
        omega
      have hgetD : copy.getD (last_digit_index copy) 0 ≠ 0 :=
        (last_digit_index_getD copy hex).1
      have hge : 2 ^ db ≤ val db copy := by
        have hdec := val_ldi_decomp db copy hex
        have h1 : 2 ^ (db * 1) ≤ 2 ^ (db * last_digit_index copy) :=
          Nat.pow_le_pow_right (by norm_num)
            (Nat.mul_le_mul_left db (by omega))
        have h2 : 1 ≤ copy.getD (last_digit_index copy) 0 := by omega
        have h3 : 2 ^ (db * last_digit_index copy) ≤
            copy.getD (last_digit_index copy) 0 *
              2 ^ (db * last_digit_index copy) :=
          Nat.le_mul_of_pos_left _ (by omega)
        rw [Nat.mul_one] at h1
        omega
      simp only [div_rem_digit]
      have hvallt := val_lt db copy.length copy hdb ⟨rfl, hd⟩
      have hq_val : val db (ofNat db copy.length (val db copy / base)) =
          val db copy / base := by
        rw [val_ofNat]
        apply Nat.mod_eq_of_lt
        have h4 := Nat.div_le_self (val db copy) base
        omega
      have hfuel2 : val db copy / base < 2 ^ f := by
        have h5 : val db copy / base ≤ val db copy / 2 :=
          Nat.div_le_div_left hbase2 (by norm_num)
        have h6 : (2 : ℕ) ^ (f + 1) = 2 * 2 ^ f := by
          rw [pow_succ]
          ring
        omega
      have ihq := ih (ofNat db copy.length (val db copy / base))
        (ofNat_valid db copy.length _ hdb).2 (by rw [hq_val]; exact hfuel2)
      rw [ihq, hq_val,
        pushRemDigits_spec radixD power (val db copy % base) hr hr256
          (by rw [← hbase]; exact Nat.mod_lt _ (by omega))]
      have hy : 0 < val db copy / base := Nat.div_pos (by omega) (by omega)
      conv_rhs => rw [show val db copy =
        val db copy % base + radixD ^ power * (val db copy / base) by
          rw [← hbase]; exact (Nat.mod_add_div _ _).symm]
      rw [digits_pad_append radixD (val db copy % base) (val db copy / base)
        power (by omega) (by rw [← hbase]; exact Nat.mod_lt _ (by omega)) hy]
    · rw [if_neg hldi]
      have hgetD_lt : copy.getD 0 0 < 2 ^ db := by
        cases copy with
        | nil => exact Nat.pos_pow_of_pos _ (by norm_num)
        | cons c t => exact hd c (List.mem_cons_self _ _)
      have hvtake : val db copy = copy.getD 0 0 := by
        by_cases hex : ∃ d ∈ copy, d ≠ 0
        · have h2 := (last_digit_index_getD copy hex).2
          have hldi0 : last_digit_index copy = 0 := by omega
          rw [hldi0] at h2
          rw [val_eq_val_take db 1 copy (fun j hj hjl => h2 j (by omega) hjl)]
          cases copy with
          | nil => simp at hex
          | cons c t =>
            show val db [c] = c
            unfold val
            rw [Nat.ofDigits_singleton]
        · push_neg at hex
          have hval0 : val db copy = 0 := by
            rw [List.eq_replicate_of_mem hex]
            exact ofDigits_replicate_zero _ _
          rw [hval0]
          cases copy with
          | nil => rfl
          | cons c t => exact (hex c (List.mem_cons_self _ _)).symm
      rw [hvtake]
      refine drainRadix_eq_digits radixD hr hr256 db _
        (digits_len_le_of_lt_pow (by omega) ?_)
      calc copy.getD 0 0 < 2 ^ db := hgetD_lt
        _ ≤ radixD ^ db := Nat.pow_le_pow_left hr db

/-- `to_radix_digits_le` produces the canonical base-`radix` digits of the
value. -/
theorem to_radix_digits_eq (db N : ℕ) (a : List ℕ) (radix : ℕ)
    (hdb : 0 < db) (hr : 2 ≤ radix) (hr256 : radix ≤ 256)
    (hrlt : radix < 2 ^ db) (hv : Valid db N a) :
    to_radix_digits_le db a radix = Nat.digits radix (val db a) := by
  obtain ⟨hb, hp, hblt⟩ := radix_base_half_spec db radix hrlt
  simp only [to_radix_digits_le]
  rw [Nat.mod_eq_of_lt hrlt]
  refine toRadixLoop_spec db radix _ _ hdb hr hr256 hb hp hblt
    (db * a.length + 1) a hv.2 ?_
  have h1 := val_lt db N a hdb hv
  have h2 : a.length = N := hv.1
  calc val db a < 2 ^ (db * N) := h1
    _ ≤ 2 ^ (db * a.length + 1) := Nat.pow_le_pow_right (by norm_num)
      (by rw [h2]; omega)

theorem val_def (db : ℕ) (l : List ℕ) : val db l = Nat.ofDigits (2 ^ db) l :=
  rfl

/-- `mac_with_carry` over the digit array multiplies the value by `base`,
returning the overflow in the carry. -/
theorem mulAddDigits_spec (db base : ℕ) :
    ∀ (l : List ℕ) (carry : ℕ),
      Nat.ofDigits (2 ^ db) (mulAddDigits db base l carry).1 +
          2 ^ (db * l.length) * (mulAddDigits db base l carry).2 =
        carry + base * Nat.ofDigits (2 ^ db) l ∧
      (mulAddDigits db base l carry).1.length = l.length ∧
      ∀ d ∈ (mulAddDigits db base l carry).1, d < 2 ^ db := by
  intro l
  induction l with
  | nil =>
    intro carry
    refine ⟨?_, rfl, by intro d hd; cases hd⟩
    simp [mulAddDigits]
  | cons d t ih =>
    intro carry
    obtain ⟨ihv, ihl, ihd⟩ := ih ((d * base + carry) / 2 ^ db)
    simp only [mulAddDigits, carrying_mul, Nat.add_zero]
    refine ⟨?_, ?_, ?_⟩
    · rw [Nat.ofDigits_cons, List.length_cons]
      have e1 : db * (t.length + 1) = db * t.length + db := by ring
      rw [e1, pow_add]
      have e2 : (d * base + carry) % 2 ^ db +
          2 ^ db * Nat.ofDigits (2 ^ db)
            (mulAddDigits db base t ((d * base + carry) / 2 ^ db)).1 +
          2 ^ (db * t.length) * 2 ^ db *
            (mulAddDigits db base t ((d * base + carry) / 2 ^ db)).2 =
          (d * base + carry) % 2 ^ db + 2 ^ db *
            (Nat.ofDigits (2 ^ db)
              (mulAddDigits db base t ((d * base + carry) / 2 ^ db)).1 +
              2 ^ (db * t.length) *
                (mulAddDigits db base t ((d * base + carry) / 2 ^ db)).2) := by
        ring
      rw [e2, ihv]
      have e3 : (d * base + carry) % 2 ^ db +
          2 ^ db * ((d * base + carry) / 2 ^ db +
            base * Nat.ofDigits (2 ^ db) t) =
          ((d * base + carry) % 2 ^ db +
            2 ^ db * ((d * base + carry) / 2 ^ db)) +
            2 ^ db * base * Nat.ofDigits (2 ^ db) t := by
        ring
      rw [e3, Nat.mod_add_div, Nat.ofDigits_cons]
      ring
    · rw [List.length_cons, List.length_cons, ihl]
    · intro x hx
      rcases List.mem_cons.1 hx with rfl | hx
      · exact Nat.mod_lt _ (Nat.pos_pow_of_pos _ (by norm_num))
      · exact ihd x hx

theorem radixHorner_le_self (radixD base : ℕ) (hbase : 1 ≤ base) :
    ∀ (chs : List (List ℕ)) (acc : ℕ),
      acc ≤ chs.foldl
        (fun a ch => a * base + Nat.ofDigits radixD ch.reverse) acc := by
  intro chs
  induction chs with
  | nil => intro acc; exact Nat.le_refl _
  | cons ch t ih =>
    intro acc
    rw [List.foldl_cons]
    refine le_trans ?_ (ih (acc * base + Nat.ofDigits radixD ch.reverse))
    have h1 : acc ≤ acc * base := Nat.le_mul_of_pos_right acc (by omega)
    omega

/-- The chunk loop of `from_radix_digits_be` Horner-accumulates the chunk
values while the running value fits. -/
theorem fromRadixGo_spec (db N radixD base power : ℕ) (hdb : 0 < db)
    (hN : 0 < N) (hrd : 0 < radixD) (hbase : base = radixD ^ power)
    (hbase2 : 2 ≤ base) (hbaselt : base < 2 ^ db) :
    ∀ (chunks : List (List ℕ)) (out : List ℕ), Valid db N out →
      (∀ ch ∈ chunks, ch.length ≤ power) →
      (∀ ch ∈ chunks, ∀ d ∈ ch, d < radixD) →
      chunks.foldl (fun a ch => a * base + Nat.ofDigits radixD ch.reverse)
          (val db out) < 2 ^ (db * N) →
      ∃ w, fromRadixGo db N radixD base chunks out = some w ∧ Valid db N w ∧
        val db w = chunks.foldl
          (fun a ch => a * base + Nat.ofDigits radixD ch.reverse)
          (val db out) := by
  intro chunks
  induction chunks with
  | nil =>
    intro out hv _ _ _
    exact ⟨out, rfl, hv, rfl⟩
  | cons ch rest ih =>
    intro out hv hchl hchd hfit
    rw [List.foldl_cons] at hfit
    obtain ⟨hmv, hml, hmd⟩ := mulAddDigits_spec db base out 0
    rw [hv.1] at hmv
    simp only [← val_def] at hmv
    have hchd1 : ∀ d ∈ ch, d < radixD := hchd ch (List.mem_cons_self _ _)
    have hchlt : Nat.ofDigits radixD ch.reverse < 2 ^ db := by
      calc Nat.ofDigits radixD ch.reverse < radixD ^ ch.reverse.length :=
          ofDigits_lt _ _ (fun x hx => hchd1 x (List.mem_reverse.1 hx))
        _ ≤ radixD ^ power := Nat.pow_le_pow_right hrd
          (by rw [List.length_reverse]; exact hchl ch (List.mem_cons_self _ _))
        _ = base := hbase.symm
        _ < 2 ^ db := hbaselt
    have hn_eq : ch.foldl (fun acc d => (acc * radixD + d) % 2 ^ db) 0 =
        Nat.ofDigits radixD ch.reverse := by
      have h := hornerFold_acc db radixD hrd ch 0 (by simpa using hchlt)
      simpa using h
    have hstep_le : val db out * base + Nat.ofDigits radixD ch.reverse <
        2 ^ (db * N) :=
      lt_of_le_of_lt (radixHorner_le_self radixD base (by omega) rest _) hfit
    have hbm : base * val db out < 2 ^ (db * N) := by
      have hcomm : base * val db out = val db out * base := Nat.mul_comm _ _
      omega
    have hm2 : (mulAddDigits db base out 0).2 = 0 := by
      rcases Nat.eq_zero_or_pos (mulAddDigits db base out 0).2 with h | h
      · exact h
      · exfalso
        have h1 : 2 ^ (db * N) ≤
            2 ^ (db * N) * (mulAddDigits db base out 0).2 :=
          Nat.le_mul_of_pos_right _ h
        omega
    have hm1v : val db (mulAddDigits db base out 0).1 =
        base * val db out := by
      have h := hmv
      rw [hm2, Nat.mul_zero, Nat.add_zero, Nat.zero_add] at h
      exact h
    have hdbN : (2 : ℕ) ^ db ≤ 2 ^ (db * N) :=
      Nat.pow_le_pow_right (by norm_num) (Nat.le_mul_of_pos_right db hN)
    have hfd_val : val db (ofNat db N (Nat.ofDigits radixD ch.reverse)) =
        Nat.ofDigits radixD ch.reverse := by
      rw [val_ofNat]
      exact Nat.mod_eq_of_lt (lt_of_lt_of_le hchlt hdbN)
    have hsum_lt : base * val db out + Nat.ofDigits radixD ch.reverse <
        2 ^ (db * N) := by
      have hcomm : base * val db out = val db out * base := Nat.mul_comm _ _
      omega
    have hca : checked_add db N (mulAddDigits db base out 0).1
        (from_digit db N (Nat.ofDigits radixD ch.reverse)) =
        some (ofNat db N
          (base * val db out + Nat.ofDigits radixD ch.reverse)) := by
      unfold checked_add from_digit
      rw [hm1v, hfd_val, if_pos hsum_lt]
    have hout2val : val db (ofNat db N
        (base * val db out + Nat.ofDigits radixD ch.reverse)) =
        val db out * base + Nat.ofDigits radixD ch.reverse := by
      rw [val_ofNat, Nat.mod_eq_of_lt hsum_lt, Nat.mul_comm base]
    obtain ⟨w, hw, hvw, hvalw⟩ := ih
      (ofNat db N (base * val db out + Nat.ofDigits radixD ch.reverse))
      (ofNat_valid db N _ hdb)
      (fun c hc => hchl c (List.mem_cons_of_mem _ hc))
      (fun c hc => hchd c (List.mem_cons_of_mem _ hc))
      (by rw [hout2val]; exact hfit)
    refine ⟨w, ?_, hvw, ?_⟩
    · simp only [fromRadixGo]
      rw [if_neg (show ¬ (mulAddDigits db base out 0).2 ≠ 0 by simp [hm2]),
        hn_eq, hca]
      exact hw
    · rw [hvalw, hout2val, List.foldl_cons]

/-- Folding full chunks of big-endian digits Horner-style computes the
big-endian value of the concatenation. -/
theorem radixHorner_chunks (radixD base power : ℕ)
    (hbase : base = radixD ^ power) (hpow : 0 < power) :
    ∀ fuel (S2 : List ℕ) (acc : ℕ), S2.length ≤ fuel → power ∣ S2.length →
      (chunksGo power fuel S2).foldl
          (fun a ch => a * base + Nat.ofDigits radixD ch.reverse) acc =
        acc * base ^ (S2.length / power) + Nat.ofDigits radixD S2.reverse := by
  intro fuel
  induction fuel with
  | zero =>
    intro S2 acc hle _
    have h0 : S2 = [] := List.length_eq_zero.1 (by omega)
    subst h0
    simp [chunksGo]
  | succ f ih =>
    intro S2 acc hle hdvd
    match S2 with
    | [] => simp [chunksGo]
    | x :: t =>
      have hplen : power ≤ (x :: t).length := by
        rcases hdvd with ⟨m, hm⟩
        match m, hm with
        | 0, hm => simp at hm
        | m + 1, hm =>
          rw [hm, Nat.mul_succ]
          omega
      have hdvd2 : power ∣ (List.drop power (x :: t)).length := by
        rw [List.length_drop]
        exact Nat.dvd_sub' hdvd dvd_rfl
      show (List.take power (x :: t) :: chunksGo power f
          (List.drop power (x :: t))).foldl _ acc = _
      rw [List.foldl_cons, ih (List.drop power (x :: t)) _ (by
        rw [List.length_drop]
        simp only [List.length_cons] at hle ⊢
        omega) hdvd2]
      have hdropq : (x :: t).length / power =
          (List.drop power (x :: t)).length / power + 1 := by
        rw [List.length_drop]
        conv_lhs => rw [show (x :: t).length =
          (x :: t).length - power + power by omega]
        rw [Nat.add_div_right _ hpow]
      have hsplit : Nat.ofDigits radixD (x :: t).reverse =
          Nat.ofDigits radixD (List.drop power (x :: t)).reverse +
            radixD ^ (List.drop power (x :: t)).length *
              Nat.ofDigits radixD (List.take power (x :: t)).reverse := by
        conv_lhs => rw [← List.take_append_drop power (x :: t)]
        rw [List.reverse_append, Nat.ofDigits_append, List.length_reverse]
      have hbq : base ^ ((List.drop power (x :: t)).length / power) =
          radixD ^ (List.drop power (x :: t)).length := by
        rw [hbase, ← pow_mul]
        congr 1
        exact Nat.mul_div_cancel' hdvd2
      rw [hdropq, hsplit, pow_succ, ← hbq]
      ring

/-- `from_radix_digits_be` on a big-endian digit string split into a short
head and full `power`-sized chunks rebuilds the digit array. -/
theorem from_radix_digits_be_spec (db N radix base power : ℕ) (S : List ℕ)
    (i : ℕ) (hdb : 0 < db) (hN : 0 < N) (hr2 : 2 ≤ radix)
    (hrlt : radix < 2 ^ db) (hbase : base = radix ^ power) (hpow : 0 < power)
    (hbaselt : base < 2 ^ db) (hSd : ∀ d ∈ S, d < radix) (hi : 0 < i)
    (hile : i ≤ power) (hiS : i ≤ S.length) (hdvd : power ∣ (S.length - i))
    (hfit : Nat.ofDigits radix S.reverse < 2 ^ (db * N)) :
    from_radix_digits_be db N radix base (S.take i)
        (chunksList power (S.drop i)) =
      some (ofNat db N (Nat.ofDigits radix S.reverse)) := by
  have hrd : radix % 2 ^ db = radix := Nat.mod_eq_of_lt hrlt
  have hbase2 : 2 ≤ base := by
    rw [hbase]
    calc 2 ≤ radix := hr2
      _ ≤ radix ^ power := Nat.le_self_pow (by omega) radix
  have htdig : ∀ d ∈ S.take i, d < radix :=
    fun d hd => hSd d (List.mem_of_mem_take hd)
  have htlen : (S.take i).length = i := by
    rw [List.length_take]
    omega
  have htval : Nat.ofDigits radix (S.take i).reverse < 2 ^ db := by
    calc Nat.ofDigits radix (S.take i).reverse <
        radix ^ (S.take i).reverse.length :=
        ofDigits_lt _ _ (fun d hd => htdig d (List.mem_reverse.1 hd))
      _ ≤ radix ^ power := Nat.pow_le_pow_right (by omega)
        (by rw [List.length_reverse, htlen]; exact hile)
      _ = base := hbase.symm
      _ < 2 ^ db := hbaselt
  have hfirst : (S.take i).foldl (fun acc d => (acc * radix + d) % 2 ^ db) 0 =
      Nat.ofDigits radix (S.take i).reverse := by
    have h := hornerFold_acc db radix (by omega) (S.take i) 0
      (by simpa using htval)
    simpa using h
  have hset : (zeroU N).set 0 (Nat.ofDigits radix (S.take i).reverse) =
      [Nat.ofDigits radix (S.take i).reverse] ++ List.replicate (N - 1) 0 := by
    have h := set_prefix_zeros [] N (Nat.ofDigits radix (S.take i).reverse)
      (by simpa using hN)
    simpa using h
  have hv0 : Valid db N ([Nat.ofDigits radix (S.take i).reverse] ++
      List.replicate (N - 1) 0) := by
    constructor
    · rw [List.length_append, List.length_singleton, List.length_replicate]
      omega
    · intro d hd
      rcases List.mem_append.1 hd with hd | hd
      · rw [List.mem_singleton.1 hd]
        exact htval
      · rw [List.eq_of_mem_replicate hd]
        exact Nat.pos_pow_of_pos db (by norm_num)
  have hval0 : val db ([Nat.ofDigits radix (S.take i).reverse] ++
      List.replicate (N - 1) 0) = Nat.ofDigits radix (S.take i).reverse := by
    rw [val_def, ofDigits_append_zeros, Nat.ofDigits_singleton]
  have hdvd2 : power ∣ (S.drop i).length := by
    rw [List.length_drop]
    exact hdvd
  have hfold := radixHorner_chunks radix base power hbase hpow
    (S.drop i).length (S.drop i)
    (Nat.ofDigits radix (S.take i).reverse) (Nat.le_refl _) hdvd2
  have hbq : base ^ ((S.drop i).length / power) =
      radix ^ (S.drop i).length := by
    rw [hbase, ← pow_mul]
    congr 1
    exact Nat.mul_div_cancel' hdvd2
  have htotal : Nat.ofDigits radix (S.take i).reverse *
      base ^ ((S.drop i).length / power) +
      Nat.ofDigits radix (S.drop i).reverse =
      Nat.ofDigits radix S.reverse := by
    conv_rhs => rw [← List.take_append_drop i S]
    rw [List.reverse_append, Nat.ofDigits_append, List.length_reverse, hbq]
    ring
  obtain ⟨w, hw, hvw, hvalw⟩ := fromRadixGo_spec db N radix base power hdb hN
    (by omega) hbase hbase2 hbaselt (chunksList power (S.drop i))
    ([Nat.ofDigits radix (S.take i).reverse] ++ List.replicate (N - 1) 0)
    hv0
    (fun ch hch => chunksList_mem_length power _ ch hch)
    (fun ch hch d hd => hSd d (List.mem_of_mem_drop
      (chunks_mem_mem power (by omega) _ ch hch d hd)))
    (by
      rw [hval0, show chunksList power (S.drop i) =
        chunksGo power (S.drop i).length (S.drop i) from rfl, hfold, htotal]
      exact hfit)
  simp only [from_radix_digits_be]
  rw [hrd, hfirst, hset, hw]
  congr 1
  refine val_inj db N w _ hdb hvw (ofNat_valid db N _ hdb) ?_
  rw [hvalw, hval0, show chunksList power (S.drop i) =
    chunksGo power (S.drop i).length (S.drop i) from rfl, hfold, htotal,
    val_ofNat, Nat.mod_eq_of_lt hfit]

theorem isPow2_eq (r : ℕ) (h : isPow2 r = true) : r = 2 ^ ilog2 r := by
  unfold isPow2 at h
  simp only [Bool.and_eq_true, decide_eq_true_eq] at h
  exact h.2

theorem isPow2_pos (r : ℕ) (h : isPow2 r = true) : 0 < r := by
  unfold isPow2 at h
  simp only [Bool.and_eq_true, decide_eq_true_eq] at h
  exact h.1

theorem isPow2_two_pow (b : ℕ) : isPow2 (2 ^ b) = true := by
  unfold isPow2
  simp [ilog2_two_pow, Nat.pos_pow_of_pos]

/-- Dropping from the front of a reverse is taking from the back. -/
theorem reverse_drop_eq {α : Type} (l : List α) (i : ℕ) (hi : i ≤ l.length) :
    l.reverse.drop i = (l.take (l.length - i)).reverse := by
  conv_lhs => rw [← List.take_append_drop (l.length - i) l]
  rw [List.reverse_append]
  exact List.drop_left' (by rw [List.length_reverse, List.length_drop]; omega)

theorem chunksList_single {α : Type} (k : ℕ) (hk : 0 < k) (x : α) :
    chunksList k [x] = [[x]] := by
  unfold chunksList
  show List.take k [x] :: chunksGo k 0 (List.drop k [x]) = [[x]]
  rw [List.take_of_length_le (by simp; omega)]
  simp [chunksGo]

theorem chunkFoldBE_zero (db b : ℕ) : chunkFoldBE db b [0] = 0 := by
  simp [chunkFoldBE]

/-- The bitwise parser on the single chunk `[0]` returns zero. -/
theorem from_bitwise_zero (db N b : ℕ) (hN : 0 < N) :
    from_bitwise_digits_le db N [[0]] b = some (zeroU N) := by
  unfold from_bitwise_digits_le
  simp [fromBitwiseAux, chunkFoldBE_zero, hN, zeroU_set_zero]

theorem from_le_slice_zero (db N : ℕ) : from_le_slice db N [0] = some (zeroU N) := by
  unfold from_le_slice
  rw [if_pos (by
    rw [show Nat.ofDigits 256 [0] = 0 by simp [Nat.ofDigits]]
    exact Nat.pos_pow_of_pos _ (by norm_num))]
  rw [show Nat.ofDigits 256 [0] = 0 by simp [Nat.ofDigits], ofNat_zero]

theorem from_radix_digits_zero (db N radix base : ℕ) :
    from_radix_digits_be db N radix base [0] [] = some (zeroU N) := by
  simp only [from_radix_digits_be, List.foldl_cons, List.foldl_nil]
  rw [show (0 * (radix % 2 ^ db) + 0) % 2 ^ db = 0 by simp, zeroU_set_zero]
  rfl

/-- `byte_to_digit` inverts the digit-to-character map of `to_str_radix`
on digit values below 36. -/
theorem byte_to_digit_toChar (d : ℕ) (hd : d < 36) :
    byte_to_digit (if d < 10 then d + 48 else d + 87) = d := by
  unfold byte_to_digit
  by_cases h10 : d < 10
  · rw [if_pos h10, if_pos (by omega)]
    omega
  · rw [if_neg h10, if_neg (by omega), if_pos (by omega)]
    omega

theorem toChar_ne_plus (d : ℕ) :
    (if d < 10 then d + 48 else d + 87) ≠ 43 := by
  by_cases h10 : d < 10
  · rw [if_pos h10]
    omega
  · rw [if_neg h10]
    omega

/-- `to_radix_le` always produces `[0]` for zero and the canonical
base-`radix` digits otherwise, for every radix in range. -/
theorem to_radix_le_full (db N : ℕ) (v : List ℕ) (radix : ℕ)
    (hdb8 : db % 8 = 0) (hdb : 0 < db) (hv : Valid db N v)
    (hr2 : 2 ≤ radix) (hr256 : radix ≤ 256) :
    to_radix_le db v radix =
      if val db v = 0 then [0] else Nat.digits radix (val db v) := by
  have hdb8' : 8 ≤ db := by omega
  by_cases hz : val db v = 0
  · rw [if_pos hz]
    simp only [to_radix_le]
    rw [if_pos hz]
  · rw [if_neg hz]
    simp only [to_radix_le]
    rw [if_neg hz]
    by_cases hp : isPow2 radix = true
    · rw [if_pos hp]
      have hpeq := isPow2_eq radix hp
      have hb1 : 1 ≤ ilog2 radix := by
        by_contra hb0
        have h0 : ilog2 radix = 0 := by omega
        rw [h0] at hpeq
        simp at hpeq
        omega
      have hb8 : ilog2 radix ≤ 8 := by
        by_contra hb9
        have h9 : 9 ≤ ilog2 radix := by omega
        have h512 : 2 ^ 9 ≤ 2 ^ ilog2 radix :=
          Nat.pow_le_pow_right (by norm_num) h9
        have h512' : (2 : ℕ) ^ 9 = 512 := by norm_num
        omega
      by_cases hfast : db = 8 ∧ radix = 256
      · rw [if_pos hfast]
        obtain ⟨hdbe, hre⟩ := hfast
        subst hdbe
        subst hre
        have h28 : (2 : ℕ) ^ 8 = 256 := by norm_num
        have hex : ∃ d ∈ v, d ≠ 0 := exists_ne_zero_of_val_ne_zero 8 v hz
        have hvne : v ≠ [] := by rintro rfl; simp at hex
        have hldi : last_digit_index v < v.length := last_digit_index_lt v hvne
        have htake_lt : ∀ d ∈ v.take (last_digit_index v + 1), d < 256 := by
          intro d hd
          have h1 := hv.2 d (List.mem_of_mem_take hd)
          omega
        have hmapid : (v.take (last_digit_index v + 1)).map
            (fun d => d % 256) = v.take (last_digit_index v + 1) := by
          have h := List.map_congr_left
            (fun d hd => Nat.mod_eq_of_lt (htake_lt d hd) :
              ∀ d ∈ v.take (last_digit_index v + 1), d % 256 = id d)
          simpa using h
        have h2 := (last_digit_index_getD v hex).2
        have hvaltake : val 8 v = val 8 (v.take (last_digit_index v + 1)) :=
          val_eq_val_take 8 _ v (fun j hj hjl => h2 j (by omega) hjl)
        have htakes : v.take (last_digit_index v + 1) =
            v.take (last_digit_index v) ++ [v.getD (last_digit_index v) 0] := by
          rw [List.take_succ]
          congr 1
          rw [List.getElem?_eq_getElem hldi]
          rw [List.getD_eq_getElem _ _ hldi]
          rfl
        have hlastne : ∀ h : v.take (last_digit_index v + 1) ≠ [],
            (v.take (last_digit_index v + 1)).getLast h ≠ 0 := by
          intro h
          have hgl : (v.take (last_digit_index v + 1)).getLast h =
              v.getD (last_digit_index v) 0 := by
            rw [List.getLast_congr _ _ htakes, List.getLast_append]
            all_goals simp
          rw [hgl]
          exact (last_digit_index_getD v hex).1
        rw [hmapid]
        have hco := canonical_eq_digits 256 (by norm_num)
          (v.take (last_digit_index v + 1)) htake_lt hlastne
        rw [hvaltake, val_def, h28]
        exact hco
      · rw [if_neg hfast]
        by_cases hdvd : db % ilog2 radix = 0
        · rw [if_pos hdvd,
            to_bitwise_eq_digits db (ilog2 radix) N v (by omega) hb8
              (Nat.dvd_of_mod_eq_zero hdvd) hdb hv hz, ← hpeq]
        · rw [if_neg hdvd]
          have hblt : ilog2 radix < db := by
            by_contra hge
            have heq : ilog2 radix = db := by omega
            rw [heq, Nat.mod_self] at hdvd
            exact hdvd rfl
          rw [to_inexact_eq_digits db (ilog2 radix) N v (by omega) hb8 hblt hv,
            ← hpeq]
    · rw [if_neg hp]
      have hr255 : radix ≤ 255 := by
        by_contra h255
        have h256 : radix = 256 := by omega
        have hpw : isPow2 (2 ^ 8) = true := isPow2_two_pow 8
        have h28 : (2 : ℕ) ^ 8 = 256 := by norm_num
        rw [h28] at hpw
        rw [h256] at hp
        exact hp hpw
      have hrlt : radix < 2 ^ db := by
        calc radix < 256 := by omega
          _ = 2 ^ 8 := by norm_num
          _ ≤ 2 ^ db := Nat.pow_le_pow_right (by norm_num) (by omega)
      by_cases h10 : radix = 10
      · subst h10
        rw [if_pos rfl]
        exact to_radix_digits_eq db N v 10 hdb (by norm_num) (by norm_num)
          hrlt hv
      · rw [if_neg h10]
        exact to_radix_digits_eq db N v radix hdb hr2 hr256 hrlt hv

theorem to_radix_be_full (db N : ℕ) (v : List ℕ) (radix : ℕ)
    (hdb8 : db % 8 = 0) (hdb : 0 < db) (hv : Valid db N v)
    (hr2 : 2 ≤ radix) (hr256 : radix ≤ 256) :
    to_radix_be db v radix =
      if val db v = 0 then [0]
      else (Nat.digits radix (val db v)).reverse := by
  unfold to_radix_be
  rw [to_radix_le_full db N v radix hdb8 hdb hv hr2 hr256]
  by_cases hz : val db v = 0
  · rw [if_pos hz, if_pos hz]
    rfl
  · rw [if_neg hz, if_neg hz]

theorem pow2_radix_facts (radix : ℕ) (hr2 : 2 ≤ radix) (hr256 : radix ≤ 256)
    (hp : isPow2 radix = true) :
    radix = 2 ^ ilog2 radix ∧ 1 ≤ ilog2 radix ∧ ilog2 radix ≤ 8 := by
  have hpeq := isPow2_eq radix hp
  refine ⟨hpeq, ?_, ?_⟩
  · by_contra hb0
    have h0 : ilog2 radix = 0 := by omega
    rw [h0] at hpeq
    simp at hpeq
    omega
  · by_contra hb9
    have h9 : 9 ≤ ilog2 radix := by omega
    have h512 : 2 ^ 9 ≤ 2 ^ ilog2 radix :=
      Nat.pow_le_pow_right (by norm_num) h9
    have h512' : (2 : ℕ) ^ 9 = 512 := by norm_num
    omega

theorem radix_le_255_of_not_pow2 (radix : ℕ) (hr256 : radix ≤ 256)
    (hp : ¬ isPow2 radix = true) : radix ≤ 255 := by
  by_contra h255
  have h256 : radix = 256 := by omega
  have hpw : isPow2 (2 ^ 8) = true := isPow2_two_pow 8
  have h28 : (2 : ℕ) ^ 8 = 256 := by norm_num
  rw [h28] at hpw
  rw [h256] at hp
  exact hp hpw

/-- The shared `radix_base` parse path, on a big-endian digit string split
at the head remainder. -/
theorem radix_branch_decode (db N radix n : ℕ) (S : List ℕ) (hdb : 0 < db)
    (hN : 0 < N) (hr2 : 2 ≤ radix) (hrlt : radix < 2 ^ db)
    (hSd : ∀ d ∈ S, d < radix) (hSne : S ≠ [])
    (hSval : Nat.ofDigits radix S.reverse = n) (hn : n < 2 ^ (db * N)) :
    from_radix_digits_be db N radix (radix_base db radix).1
        (S.take (if S.length % (radix_base db radix).2 = 0
          then (radix_base db radix).2
          else S.length % (radix_base db radix).2))
        (chunksList (radix_base db radix).2
          (S.drop (if S.length % (radix_base db radix).2 = 0
            then (radix_base db radix).2
            else S.length % (radix_base db radix).2))) =
      some (ofNat db N n) := by
  obtain ⟨hbase, hpow, hbaselt⟩ := radix_base_spec db radix hrlt
  have hSlen : 1 ≤ S.length := by
    cases S with
    | nil => exact absurd rfl hSne
    | cons x t => simp
  have hi : 0 < (if S.length % (radix_base db radix).2 = 0
      then (radix_base db radix).2
      else S.length % (radix_base db radix).2) := by
    by_cases h0 : S.length % (radix_base db radix).2 = 0
    · rw [if_pos h0]
      exact hpow
    · rw [if_neg h0]
      omega
  have hile : (if S.length % (radix_base db radix).2 = 0
      then (radix_base db radix).2
      else S.length % (radix_base db radix).2) ≤ (radix_base db radix).2 := by
    by_cases h0 : S.length % (radix_base db radix).2 = 0
    · rw [if_pos h0]
    · rw [if_neg h0]
      exact le_of_lt (Nat.mod_lt _ hpow)
  have hiS : (if S.length % (radix_base db radix).2 = 0
      then (radix_base db radix).2
      else S.length % (radix_base db radix).2) ≤ S.length := by
    by_cases h0 : S.length % (radix_base db radix).2 = 0
    · rw [if_pos h0]
      exact Nat.le_of_dvd (by omega) (Nat.dvd_of_mod_eq_zero h0)
    · rw [if_neg h0]
      exact Nat.mod_le _ _
  have hdvd : (radix_base db radix).2 ∣ (S.length -
      (if S.length % (radix_base db radix).2 = 0
        then (radix_base db radix).2
        else S.length % (radix_base db radix).2)) := by
    by_cases h0 : S.length % (radix_base db radix).2 = 0
    · rw [if_pos h0]
      exact Nat.dvd_sub' (Nat.dvd_of_mod_eq_zero h0) dvd_rfl
    · rw [if_neg h0]
      have hmd := Nat.mod_add_div S.length (radix_base db radix).2
      refine ⟨S.length / (radix_base db radix).2, ?_⟩
      omega
  have h := from_radix_digits_be_spec db N radix (radix_base db radix).1
    (radix_base db radix).2 S
    (if S.length % (radix_base db radix).2 = 0
      then (radix_base db radix).2
      else S.length % (radix_base db radix).2)
    hdb hN hr2 hrlt hbase hpow hbaselt hSd hi hile hiS hdvd
    (by rw [hSval]; exact hn)
  rw [h, hSval]

/-- `from_radix_le` parses the little-endian canonical digits (or `[0]`)
of any value that fits back into the digit array. -/
theorem from_radix_le_decode (db N radix n : ℕ) (hdb8 : db % 8 = 0)
    (hdb : 0 < db) (hN : 0 < N) (hr2 : 2 ≤ radix) (hr256 : radix ≤ 256)
    (hn : n < 2 ^ (db * N)) :
    from_radix_le db N (if n = 0 then [0] else Nat.digits radix n) radix =
      .ret (some (ofNat db N n)) := by
  have hdb8' : 8 ≤ db := by omega
  have h1r : (1 : ℕ) < radix := by omega
  set D := if n = 0 then [0] else Nat.digits radix n with hD
  have hDne : D ≠ [] := by
    rw [hD]
    by_cases hz : n = 0
    · rw [if_pos hz]
      simp
    · rw [if_neg hz]
      exact Nat.digits_ne_nil_iff_ne_zero.mpr hz
  have hDlt : ∀ d ∈ D, d < radix := by
    rw [hD]
    by_cases hz : n = 0
    · rw [if_pos hz]
      intro d hd
      rw [List.mem_singleton.1 hd]
      omega
    · rw [if_neg hz]
      exact fun d hd => Nat.digits_lt_base h1r hd
  have hDval : Nat.ofDigits radix D = n := by
    rw [hD]
    by_cases hz : n = 0
    · rw [if_pos hz, hz]
      simp [Nat.ofDigits]
    · rw [if_neg hz, Nat.ofDigits_digits]
  simp only [from_radix_le]
  rw [if_neg (show ¬(radix < 2 ∨ 256 < radix) by omega), if_neg hDne]
  by_cases hfast : db = 8 ∧ radix = 256
  · rw [if_pos hfast]
    obtain ⟨hdbe, hre⟩ := hfast
    subst hdbe
    subst hre
    by_cases hz : n = 0
    · rw [show D = [0] by rw [hD, if_pos hz], from_le_slice_zero, hz,
        ofNat_zero]
    · rw [show D = Nat.digits 256 n by rw [hD, if_neg hz]]
      unfold from_le_slice
      rw [Nat.ofDigits_digits, if_pos hn]
  · rw [if_neg hfast]
    have hany : ¬(radix ≠ 256 ∧ (D.any fun bb => decide (radix ≤ bb)) = true) := by
      rintro ⟨-, hX⟩
      rw [List.any_eq_true] at hX
      obtain ⟨x, hx, hx2⟩ := hX
      rw [decide_eq_true_eq] at hx2
      have := hDlt x hx
      omega
    rw [if_neg hany]
    by_cases hp : isPow2 radix = true
    · rw [if_pos hp]
      obtain ⟨hpeq, hb1, hb8⟩ := pow2_radix_facts radix hr2 hr256 hp
      by_cases hdvd : db % ilog2 radix = 0
      · rw [if_pos hdvd]
        by_cases hz : n = 0
        · rw [show D = [0] by rw [hD, if_pos hz],
            chunksList_single _ (Nat.div_pos (by omega) (by omega)) 0,
            show ([[0]] : List (List ℕ)).map List.reverse = [[0]] by simp,
            from_bitwise_zero db N _ hN, hz, ofNat_zero]
        · rw [show D = Nat.digits (2 ^ ilog2 radix) n by
            rw [hD, if_neg hz, ← hpeq],
            from_bitwise_le_spec db N (ilog2 radix) hdb (by omega) hb8
              (Nat.dvd_of_mod_eq_zero hdvd) hN n hn]
      · rw [if_neg hdvd]
        have hblt : ilog2 radix < db := by
          by_contra hge
          have heq : ilog2 radix = db := by omega
          rw [heq, Nat.mod_self] at hdvd
          exact hdvd rfl
        by_cases hz : n = 0
        · rw [show D = [0] by rw [hD, if_pos hz],
            from_inexact_zero db N _ (by omega) hblt hN, hz, ofNat_zero]
        · rw [show D = Nat.digits (2 ^ ilog2 radix) n by
            rw [hD, if_neg hz, ← hpeq],
            from_inexact_le_spec db N (ilog2 radix) hdb (by omega) hblt n hn hz]
    · rw [if_neg hp]
      have hr255 : radix ≤ 255 := radix_le_255_of_not_pow2 radix hr256 hp
      have hrlt : radix < 2 ^ db := by
        calc radix < 256 := by omega
          _ = 2 ^ 8 := by norm_num
          _ ≤ 2 ^ db := Nat.pow_le_pow_right (by norm_num) (by omega)
      have hivlen : (if D.length % (radix_base db radix).2 = 0
          then (radix_base db radix).2
          else D.length % (radix_base db radix).2) ≤ D.length := by
        obtain ⟨-, hpow, -⟩ := radix_base_spec db radix hrlt
        have hDlen1 : 1 ≤ D.length := by
          cases hDe : D with
          | nil => exact absurd hDe hDne
          | cons x t => simp
        by_cases h0 : D.length % (radix_base db radix).2 = 0
        · rw [if_pos h0]
          exact Nat.le_of_dvd (by omega) (Nat.dvd_of_mod_eq_zero h0)
        · rw [if_neg h0]
          exact Nat.mod_le _ _
      have h := radix_branch_decode db N radix n D.reverse hdb hN hr2 hrlt
        (fun d hd => hDlt d (List.mem_reverse.1 hd))
        (by simpa using hDne)
        (by rw [List.reverse_reverse, hDval]) hn
      rw [List.length_reverse] at h
      rw [reverse_take_eq D _ hivlen, reverse_drop_eq D _ hivlen] at h
      rw [rchunksList_map_reverse, h]

/-- `from_radix_be` parses the big-endian canonical digits (or `[0]`) of
any value that fits back into the digit array. -/
theorem from_radix_be_decode (db N radix n : ℕ) (hdb8 : db % 8 = 0)
    (hdb : 0 < db) (hN : 0 < N) (hr2 : 2 ≤ radix) (hr256 : radix ≤ 256)
    (hn : n < 2 ^ (db * N)) :
    from_radix_be db N
        (if n = 0 then [0] else (Nat.digits radix n).reverse) radix =
      .ret (some (ofNat db N n)) := by
  have hdb8' : 8 ≤ db := by omega
  have h1r : (1 : ℕ) < radix := by omega
  set S := if n = 0 then [0] else (Nat.digits radix n).reverse with hS
  have hSne : S ≠ [] := by
    rw [hS]
    by_cases hz : n = 0
    · rw [if_pos hz]
      simp
    · rw [if_neg hz]
      simp
      exact Nat.digits_ne_nil_iff_ne_zero.mpr hz
  have hSlt : ∀ d ∈ S, d < radix := by
    rw [hS]
    by_cases hz : n = 0
    · rw [if_pos hz]
      intro d hd
      rw [List.mem_singleton.1 hd]
      omega
    · rw [if_neg hz]
      exact fun d hd => Nat.digits_lt_base h1r (List.mem_reverse.1 hd)
  have hSval : Nat.ofDigits radix S.reverse = n := by
    rw [hS]
    by_cases hz : n = 0
    · rw [if_pos hz, hz]
      simp [Nat.ofDigits]
    · rw [if_neg hz, List.reverse_reverse, Nat.ofDigits_digits]
  simp only [from_radix_be]
  rw [if_neg (show ¬(radix < 2 ∨ 256 < radix) by omega), if_neg hSne]
  by_cases hfast : db = 8 ∧ radix = 256
  · rw [if_pos hfast]
    obtain ⟨hdbe, hre⟩ := hfast
    subst hdbe
    subst hre
    unfold from_be_slice
    by_cases hz : n = 0
    · rw [show S = [0] by rw [hS, if_pos hz],
        show ([0] : List ℕ).reverse = [0] by simp, from_le_slice_zero, hz,
        ofNat_zero]
    · rw [show S = (Nat.digits 256 n).reverse by rw [hS, if_neg hz],
        List.reverse_reverse]
      unfold from_le_slice
      rw [Nat.ofDigits_digits, if_pos hn]
  · rw [if_neg hfast]
    have hany : ¬(radix ≠ 256 ∧ (S.any fun bb => decide (radix ≤ bb)) = true) := by
      rintro ⟨-, hX⟩
      rw [List.any_eq_true] at hX
      obtain ⟨x, hx, hx2⟩ := hX
      rw [decide_eq_true_eq] at hx2
      have := hSlt x hx
      omega
    rw [if_neg hany]
    by_cases hp : isPow2 radix = true
    · rw [if_pos hp]
      obtain ⟨hpeq, hb1, hb8⟩ := pow2_radix_facts radix hr2 hr256 hp
      by_cases hdvd : db % ilog2 radix = 0
      · rw [if_pos hdvd]
        by_cases hz : n = 0
        · rw [show S = [0] by rw [hS, if_pos hz],
            show rchunksList (db / ilog2 radix) ([0] : List ℕ) = [[0]] by
              unfold rchunksList
              rw [show ([0] : List ℕ).reverse = [0] by simp,
                chunksList_single _ (Nat.div_pos (by omega) (by omega)) 0]
              simp,
            from_bitwise_zero db N _ hN, hz, ofNat_zero]
        · rw [show S = (Nat.digits (2 ^ ilog2 radix) n).reverse by
            rw [hS, if_neg hz, ← hpeq], rchunksList_reverse,
            from_bitwise_le_spec db N (ilog2 radix) hdb (by omega) hb8
              (Nat.dvd_of_mod_eq_zero hdvd) hN n hn]
      · rw [if_neg hdvd]
        have hblt : ilog2 radix < db := by
          by_contra hge
          have heq : ilog2 radix = db := by omega
          rw [heq, Nat.mod_self] at hdvd
          exact hdvd rfl
        by_cases hz : n = 0
        · rw [show S = [0] by rw [hS, if_pos hz],
            show ([0] : List ℕ).reverse = [0] by simp,
            from_inexact_zero db N _ (by omega) hblt hN, hz, ofNat_zero]
        · rw [show S = (Nat.digits (2 ^ ilog2 radix) n).reverse by
            rw [hS, if_neg hz, ← hpeq], List.reverse_reverse,
            from_inexact_le_spec db N (ilog2 radix) hdb (by omega) hblt n hn hz]
    · rw [if_neg hp]
      have hr255 : radix ≤ 255 := radix_le_255_of_not_pow2 radix hr256 hp
      have hrlt : radix < 2 ^ db := by
        calc radix < 256 := by omega
          _ = 2 ^ 8 := by norm_num
          _ ≤ 2 ^ db := Nat.pow_le_pow_right (by norm_num) (by omega)
      rw [radix_branch_decode db N radix n S hdb hN hr2 hrlt hSlt hSne
        hSval hn]

theorem rchunks_mem_mem {α : Type} (k : ℕ) (hk : 0 < k) (l : List α)
    (ch : List α) (hch : ch ∈ rchunksList k l) (x : α) (hx : x ∈ ch) :
    x ∈ l := by
  unfold rchunksList at hch
  obtain ⟨ch0, hch0, rfl⟩ := List.mem_map.1 hch
  exact List.mem_reverse.1
    (chunks_mem_mem k hk l.reverse ch0 hch0 x (List.mem_reverse.1 hx))

/-- Mapping to characters and back to digit values is the identity below
36. -/
theorem map_toChar_cancel (l : List ℕ) (hl : ∀ d ∈ l, d < 36) :
    (l.map (fun byte => if byte < 10 then byte + 48 else byte + 87)).map
      byte_to_digit = l := by
  rw [List.map_map]
  have h := List.map_congr_left (show ∀ d ∈ l,
      (byte_to_digit ∘ fun byte => if byte < 10 then byte + 48 else byte + 87)
        d = id d from fun d hd => by
    simp only [Function.comp_apply, id_eq]
    exact byte_to_digit_toChar d (hl d hd))
  simpa using h

/-- `from_str_radix` parses the rendered string of any value that fits
back into the digit array. -/
theorem from_str_radix_decode (db N radix n : ℕ) (hdb8 : db % 8 = 0)
    (hdb : 0 < db) (hN : 0 < N) (hr2 : 2 ≤ radix) (hr36 : radix ≤ 36)
    (hn : n < 2 ^ (db * N)) :
    from_str_radix db N
        ((if n = 0 then [0] else (Nat.digits radix n).reverse).map
          (fun byte => if byte < 10 then byte + 48 else byte + 87)) radix =
      .ret (.ok (ofNat db N n)) := by
  have hdb8' : 8 ≤ db := by omega
  have h1r : (1 : ℕ) < radix := by omega
  set S := if n = 0 then [0] else (Nat.digits radix n).reverse with hS
  have hSne : S ≠ [] := by
    rw [hS]
    by_cases hz : n = 0
    · rw [if_pos hz]
      simp
    · rw [if_neg hz]
      simp
      exact Nat.digits_ne_nil_iff_ne_zero.mpr hz
  have hSlt : ∀ d ∈ S, d < radix := by
    rw [hS]
    by_cases hz : n = 0
    · rw [if_pos hz]
      intro d hd
      rw [List.mem_singleton.1 hd]
      omega
    · rw [if_neg hz]
      exact fun d hd => Nat.digits_lt_base h1r (List.mem_reverse.1 hd)
  have hS36 : ∀ d ∈ S, d < 36 := fun d hd => by
    have := hSlt d hd
    omega
  simp only [from_str_radix]
  rw [if_neg (show ¬(radix < 2 ∨ 36 < radix) by omega)]
  have hhead : ¬ ((S.map (fun byte => if byte < 10 then byte + 48
      else byte + 87)).head? = some 43) := by
    cases hSe : S with
    | nil => exact absurd hSe hSne
    | cons h0 t0 =>
      simp only [List.map_cons, List.head?_cons]
      intro he
      exact toChar_ne_plus h0 (Option.some.inj he)
  rw [if_neg hhead]
  have hsrcne : ¬ (S.map (fun byte => if byte < 10 then byte + 48
      else byte + 87)) = [] := by
    intro h
    exact hSne (List.map_eq_nil.1 h)
  rw [if_neg hsrcne]
  have hval_ok : ¬ ((S.map (fun byte => if byte < 10 then byte + 48
      else byte + 87)).any
        (fun byte => decide (radix ≤ byte_to_digit byte)) = true) := by
    intro hX
    rw [List.any_eq_true] at hX
    obtain ⟨x, hx, hx2⟩ := hX
    rw [decide_eq_true_eq] at hx2
    obtain ⟨d, hd, rfl⟩ := List.mem_map.1 hx
    rw [byte_to_digit_toChar d (hS36 d hd)] at hx2
    have := hSlt d hd
    omega
  rw [if_neg hval_ok]
  by_cases h2416 : radix = 2 ∨ radix = 4 ∨ radix = 16
  · rw [if_pos h2416]
    obtain ⟨b, hrb, hbdvd8, hb0, hb8⟩ : ∃ b, radix = 2 ^ b ∧ b ∣ 8 ∧
        0 < b ∧ b ≤ 8 := by
      rcases h2416 with h | h | h
      · exact ⟨1, by rw [h]; norm_num, by norm_num, by norm_num, by norm_num⟩
      · exact ⟨2, by rw [h]; norm_num, by norm_num, by norm_num, by norm_num⟩
      · exact ⟨4, by rw [h]; norm_num, by norm_num, by norm_num, by norm_num⟩
    subst hrb
    rw [ilog2_two_pow]
    have hdvd : b ∣ db := dvd_trans hbdvd8 (Nat.dvd_of_mod_eq_zero hdb8)
    have hchunks : (rchunksList (db / b) (S.map (fun byte =>
        if byte < 10 then byte + 48 else byte + 87))).map
          (List.map byte_to_digit) = rchunksList (db / b) S := by
      rw [rchunksList_map, List.map_map]
      have hk : 0 < db / b := Nat.div_pos (Nat.le_of_dvd hdb hdvd) hb0
      have h := List.map_congr_left (show ∀ ch ∈ rchunksList (db / b) S,
          (List.map byte_to_digit ∘ List.map (fun byte =>
            if byte < 10 then byte + 48 else byte + 87)) ch = id ch from
        fun ch hch => by
          simp only [Function.comp_apply, id_eq]
          exact map_toChar_cancel ch
            (fun d hd => hS36 d (rchunks_mem_mem _ hk S ch hch d hd)))
      simpa using h
    rw [hchunks]
    by_cases hz : n = 0
    · rw [show S = [0] by rw [hS, if_pos hz],
        show rchunksList (db / b) ([0] : List ℕ) = [[0]] by
          unfold rchunksList
          rw [show ([0] : List ℕ).reverse = [0] by simp,
            chunksList_single _ (Nat.div_pos (Nat.le_of_dvd hdb hdvd) hb0) 0]
          simp,
        from_bitwise_zero db N _ hN, hz, ofNat_zero]
    · rw [show S = (Nat.digits (2 ^ b) n).reverse by rw [hS, if_neg hz],
        rchunksList_reverse,
        from_bitwise_le_spec db N b hdb hb0 hb8 hdvd hN n hn]
  · rw [if_neg h2416]
    by_cases h832 : radix = 8 ∨ radix = 32
    · rw [if_pos h832]
      obtain ⟨b, hrb, hb0, hblt⟩ : ∃ b, radix = 2 ^ b ∧ 0 < b ∧ b < db := by
        rcases h832 with h | h
        · exact ⟨3, by rw [h]; norm_num, by norm_num, by omega⟩
        · exact ⟨5, by rw [h]; norm_num, by norm_num, by omega⟩
      subst hrb
      rw [ilog2_two_pow]
      have hrev : ((S.map (fun byte => if byte < 10 then byte + 48
          else byte + 87)).reverse).map byte_to_digit = S.reverse := by
        rw [← List.map_reverse]
        exact map_toChar_cancel S.reverse
          (fun d hd => hS36 d (List.mem_reverse.1 hd))
      rw [hrev]
      by_cases hz : n = 0
      · rw [show S = [0] by rw [hS, if_pos hz],
          show ([0] : List ℕ).reverse = [0] by simp,
          from_inexact_zero db N b hb0 hblt hN, hz, ofNat_zero]
      · rw [show S = (Nat.digits (2 ^ b) n).reverse by rw [hS, if_neg hz],
          List.reverse_reverse,
          from_inexact_le_spec db N b hdb hb0 hblt n hn hz]
    · rw [if_neg h832]
      have hrlt : radix < 2 ^ db := by
        calc radix < 256 := by omega
          _ = 2 ^ 8 := by norm_num
          _ ≤ 2 ^ db := Nat.pow_le_pow_right (by norm_num) (by omega)
      rw [List.length_map]
      have hhead2 : ((S.map (fun byte => if byte < 10 then byte + 48
          else byte + 87)).take
            (if S.length % (radix_base db radix).2 = 0
              then (radix_base db radix).2
              else S.length % (radix_base db radix).2)).map byte_to_digit =
          S.take (if S.length % (radix_base db radix).2 = 0
            then (radix_base db radix).2
            else S.length % (radix_base db radix).2) := by
        rw [← List.map_take]
        exact map_toChar_cancel _
          (fun d hd => hS36 d (List.mem_of_mem_take hd))
      have htail2 : (chunksList (radix_base db radix).2
          ((S.map (fun byte => if byte < 10 then byte + 48
            else byte + 87)).drop
              (if S.length % (radix_base db radix).2 = 0
                then (radix_base db radix).2
                else S.length % (radix_base db radix).2))).map
            (List.map byte_to_digit) =
          chunksList (radix_base db radix).2
            (S.drop (if S.length % (radix_base db radix).2 = 0
              then (radix_base db radix).2
              else S.length % (radix_base db radix).2)) := by
        obtain ⟨-, hpow, -⟩ := radix_base_spec db radix hrlt
        rw [← List.map_drop, chunksList_map, List.map_map]
        have h := List.map_congr_left (show ∀ ch ∈ chunksList
            (radix_base db radix).2
            (S.drop (if S.length % (radix_base db radix).2 = 0
              then (radix_base db radix).2
              else S.length % (radix_base db radix).2)),
            (List.map byte_to_digit ∘ List.map (fun byte =>
              if byte < 10 then byte + 48 else byte + 87)) ch = id ch from
          fun ch hch => by
            simp only [Function.comp_apply, id_eq]
            exact map_toChar_cancel ch (fun d hd => hS36 d
              (List.mem_of_mem_drop
                (chunks_mem_mem _ hpow _ ch hch d hd))))
        simpa using h
      rw [hhead2, htail2,
        radix_branch_decode db N radix n S hdb hN hr2 hrlt hSlt hSne
          (by
            rw [hS]
            by_cases hz : n = 0
            · rw [if_pos hz, hz]
              simp [Nat.ofDigits]
            · rw [if_neg hz, List.reverse_reverse, Nat.ofDigits_digits])
          hn]

/-! ### Claim theorems: C1, C5, C10 -/

/-- C1: the claim states that `BUint + Digit` returns the `N`-digit number
of value `(value(a) + d) mod 2^(N·digit_bits)` with every digit of `a`
above index 0 preserved except for the carry.  The code contradicts this:
its carry loop reads `self.digits[0]` instead of `self.digits[i]`
(src/buint/ops.rs:16), so with 64-bit digits, `N = 2`,
`a = [0, 1]` (value `2^64`) and `d = 1`, it returns `[1, 0]` (value `1`)
instead of a value `2^64 + 1` with digit 1 preserved. -/
theorem addDigit_drops_high_digits :
    addDigit 64 2 [0, 1] 1 = [1, 0] ∧
    val 64 [1, 0] = 1 ∧
    (val 64 [0, 1] + 1) % 2 ^ (64 * 2) = 2 ^ 64 + 1 ∧
    val 64 [1, 0] ≠ (val 64 [0, 1] + 1) % 2 ^ (64 * 2) := by
  exact ⟨rfl, by decide, by decide, by decide⟩

/-- C5: the `/` operator on `BUint` returns exactly `wrapping_div` and
`%` returns exactly `wrapping_rem` (src/buint/ops.rs:70-77, 112-119), and
when the divisor is zero both panic (spec §7, the `div_zero!`/`rem_zero!`
macros of src/errors/macros.rs) rather than returning any value. -/
theorem div_rem_are_wrapping_and_panic_on_zero (db N : ℕ) (a b : List ℕ) :
    BUint.div db N a b = wrapping_div db N a b ∧
    BUint.rem db N a b = wrapping_rem db N a b ∧
    (val db b = 0 →
      BUint.div db N a b = PRes.halt ∧ BUint.rem db N a b = PRes.halt ∧
      ∀ q : List ℕ, BUint.div db N a b ≠ PRes.ret q ∧
                    BUint.rem db N a b ≠ PRes.ret q) := by
  refine ⟨rfl, rfl, fun h => ?_⟩
  have hd : BUint.div db N a b = PRes.halt := by
    simp [BUint.div, wrapping_div, h]
  have hr : BUint.rem db N a b = PRes.halt := by
    simp [BUint.rem, wrapping_rem, h]
  exact ⟨hd, hr, fun q => ⟨by rw [hd]; exact fun hc => PRes.noConfusion hc,
    by rw [hr]; exact fun hc => PRes.noConfusion hc⟩⟩

/-- Witness for `div_rem_are_wrapping_and_panic_on_zero` at `a = [5]`,
`b = [0]`, 8-bit digits, `N = 1`. -/
theorem div_rem_are_wrapping_and_panic_on_zero_witness :
    BUint.div 8 1 [5] [0] = PRes.halt ∧ BUint.rem 8 1 [5] [0] = PRes.halt :=
  ⟨((div_rem_are_wrapping_and_panic_on_zero 8 1 [5] [0]).2.2 (by decide)).1,
   ((div_rem_are_wrapping_and_panic_on_zero 8 1 [5] [0]).2.2 (by decide)).2.1⟩

/-- C10: `num_traits::NumCast::from` on the big-integer types panics
unconditionally for every input of every source type
(src/int/numtraits.rs:220-226) — it never returns `Some` or `None` —
while `Bounded`, `Zero` and `One` of the same trait surface return
values. -/
theorem numCast_from_unconditionally_panics (T : Type) (n : T) (db N : ℕ) :
    numCast_from (T := T) n = (PRes.halt : PRes (Option (List ℕ))) ∧
    (∀ o : Option (List ℕ), numCast_from n ≠ PRes.ret o) ∧
    bounded_min_value N ≠ PRes.halt ∧
    bounded_max_value db N ≠ PRes.halt ∧
    zero_zero N ≠ PRes.halt ∧
    one_one db N ≠ PRes.halt := by
  refine ⟨rfl, fun o h => PRes.noConfusion h, ?_, ?_, ?_, ?_⟩
  · simp [bounded_min_value]
  · simp [bounded_max_value]
  · simp [zero_zero]
  · simp [one_one]

/-- C2: for every valid `BUint` digit array `v` and every radix in
`2..=256`, `from_radix_be (to_radix_be v r) r` and
`from_radix_le (to_radix_le v r) r` return `Some v` without panicking,
and for every radix in `2..=36`, `from_str_radix (to_str_radix v r) r`
returns `Ok v` — for the zero value as well as for all nonzero values. -/
theorem radix_round_trips (db N : ℕ) (v : List ℕ) (radix : ℕ)
    (hdb8 : db % 8 = 0) (hdb : 0 < db) (hN : 0 < N) (hv : Valid db N v) :
    (2 ≤ radix → radix ≤ 256 →
      from_radix_be db N (to_radix_be db v radix) radix = .ret (some v) ∧
      from_radix_le db N (to_radix_le db v radix) radix = .ret (some v)) ∧
    (2 ≤ radix → radix ≤ 36 →
      from_str_radix db N (to_str_radix db v radix) radix =
        .ret (.ok v)) := by
  have hn := val_lt db N v hdb hv
  have hofv : ofNat db N (val db v) = v := ofNat_val db N v hdb hv
  constructor
  · intro hr2 hr256
    constructor
    · rw [to_radix_be_full db N v radix hdb8 hdb hv hr2 hr256,
        from_radix_be_decode db N radix (val db v) hdb8 hdb hN hr2 hr256 hn,
        hofv]
    · rw [to_radix_le_full db N v radix hdb8 hdb hv hr2 hr256,
        from_radix_le_decode db N radix (val db v) hdb8 hdb hN hr2 hr256 hn,
        hofv]
  · intro hr2 hr36
    have hr256 : radix ≤ 256 := by omega
    unfold to_str_radix
    rw [to_radix_be_full db N v radix hdb8 hdb hv hr2 hr256,
      from_str_radix_decode db N radix (val db v) hdb8 hdb hN hr2 hr36 hn,
      hofv]

theorem radix_round_trips_witness :
    Valid 8 2 [123, 1] ∧
    (from_radix_be 8 2 (to_radix_be 8 [123, 1] 10) 10 =
        .ret (some [123, 1]) ∧
      from_radix_le 8 2 (to_radix_le 8 [123, 1] 10) 10 =
        .ret (some [123, 1])) ∧
    from_str_radix 8 2 (to_str_radix 8 [123, 1] 10) 10 =
      .ret (.ok [123, 1]) :=
  ⟨by decide,
    (radix_round_trips 8 2 [123, 1] 10 (by decide) (by decide) (by decide)
      (by decide)).1 (by decide) (by decide),
    (radix_round_trips 8 2 [123, 1] 10 (by decide) (by decide) (by decide)
      (by decide)).2 (by decide) (by decide)⟩

end Bnum
